import Mathlib

/-!
Shallow embedding of the netlist-database core of `eda-infra-rs`
(crates `sverilogparse` and `netlistdb`), together with proofs of the
frozen specification claims.

Modelling conventions:
* Rust `usize`/`isize` indices become `Nat`/`Int`; the inputs exercised
  here are far below any machine-width bound, so no wrap-around modelling
  is needed.
* Rust `HashMap`s keyed by names are modelled as the insertion-ordered
  list of keys (the code only ever inserts fresh keys and looks keys up,
  so the index of the first occurrence is exactly the stored id).
* Fallible paths (`Option`-returning builder code) stay `Option`; places
  where the Rust code panics (`unwrap`, usize underflow,
  `NonZeroUsize::new(..).unwrap()`) are modelled as `none` of the
  enclosing operation.
-/

namespace EdaInfra

/-- Pin direction, from `netlistdb/src/lib.rs` (`enum Direction`). -/
inductive Direction where
  | I
  | O
  | Unknown
deriving DecidableEq, Repr

/-- Logic-pin classes, from `netlistdb/src/lib.rs` (`enum LogicPinType`). -/
inductive LogicPinType where
  | TopPort
  | Net
  | LeafCellPin
  | Others
deriving DecidableEq, Repr

/-- `LogicPinType::is_pin` from `netlistdb/src/lib.rs`. -/
def LogicPinType.is_pin : LogicPinType → Bool
  | .TopPort => true
  | .LeafCellPin => true
  | _ => false

/-- `LogicPinType::is_net` from `netlistdb/src/lib.rs`. -/
def LogicPinType.is_net : LogicPinType → Bool
  | .TopPort => true
  | .Net => true
  | _ => false

/-- `SVerilogRange` from `sverilogparse/src/range.rs`: a signed inclusive
range whose direction is inferred from the endpoint order.  The sentinel
`(isize::MAX, isize::MAX)` denotes the empty range. -/
structure SVerilogRange where
  left : Int
  right : Int
deriving DecidableEq, Repr

/-- The `isize::MAX` sentinel component used by `SVerilogRange::empty`. -/
def isizeMax : Int := 2 ^ 63 - 1

/-- `SVerilogRange::empty` from `range.rs`. -/
def SVerilogRange.emptyR : SVerilogRange := ⟨isizeMax, isizeMax⟩

/-- The list of values yielded by `SVerilogRange`'s `Iterator` impl
(`range.rs`): from `left` stepping toward `right`, inclusive; the
sentinel iterates to nothing. -/
def SVerilogRange.toList (r : SVerilogRange) : List Int :=
  if r = SVerilogRange.emptyR then []
  else if r.left ≤ r.right then
    (List.range (r.right - r.left).toNat.succ).map (fun i => r.left + i)
  else
    (List.range (r.left - r.right).toNat.succ).map (fun i => r.left - i)

/-- `SVerilogRange::get_len` from `range.rs`. -/
def SVerilogRange.get_len (r : SVerilogRange) : Nat :=
  if r = SVerilogRange.emptyR then 0
  else (max r.left r.right + 1 - min r.left r.right).toNat

/-- `enum_in_width` from `netlistdb/src/utils.rs`: an absent range yields
the single scalar index `none`; a present range yields its values. -/
def enum_in_width (w : Option SVerilogRange) : List (Option Int) :=
  match w with
  | none => [none]
  | some r => r.toList.map some

/-! ## Hierarchical names (`netlistdb/src/hier_name.rs`) -/

/-- `HierName` from `hier_name.rs`: current layer name plus optional
parent chain (the `Arc` sharing is irrelevant to values). -/
inductive HierName where
  | mk (cur : String) (prev : Option HierName)
deriving Repr

/-- Structural (derived `PartialEq`) equality test for `HierName`. -/
def HierName.beq : HierName → HierName → Bool
  | .mk c1 none, .mk c2 none => c1 == c2
  | .mk c1 (some p1), .mk c2 (some p2) => c1 == c2 && HierName.beq p1 p2
  | _, _ => false

theorem HierName.beq_iff : ∀ a b : HierName, HierName.beq a b = true ↔ a = b
  | .mk c1 none, .mk c2 none => by simp [HierName.beq]
  | .mk c1 (some p1), .mk c2 (some p2) => by
      simp [HierName.beq, HierName.beq_iff p1 p2]
  | .mk _ none, .mk _ (some _) => by simp [HierName.beq]
  | .mk _ (some _), .mk _ none => by simp [HierName.beq]

instance : DecidableEq HierName := fun a b =>
  decidable_of_iff (HierName.beq a b = true) (HierName.beq_iff a b)

/-- Current-layer name of a `HierName`. -/
def HierName.cur : HierName → String
  | .mk c _ => c

/-- Parent chain of a `HierName`. -/
def HierName.prev : HierName → Option HierName
  | .mk _ p => p

/-- `HierName::empty` from `hier_name.rs`. -/
def HierName.emptyH : HierName := .mk "" none

/-- `HierName::is_empty` from `hier_name.rs` (`prev.is_none() &&
cur.len() == 0`; a string has length zero iff it is empty). -/
def HierName.is_empty (h : HierName) : Bool :=
  h.prev.isNone && h.cur == ""

/-- The identifier sequence yielded by `HierNameRevIter`
(`hier_name.rs`), from leaf to root: yields `cur` and moves to `prev`,
stopping as soon as a layer with empty `cur` is reached. -/
def HierName.revIdents : HierName → List String
  | .mk c none => if c = "" then [] else [c]
  | .mk c (some q) => if c = "" then [] else c :: q.revIdents

/-- The `Hash` impl for `HierName` (`hier_name.rs`) feeds the
identifiers of `HierNameRevIter` into the hasher state in order; we
abstract the hasher as a state type `H` with a per-identifier update
`step`. -/
def HierName.hashWith {H : Type} (step : H → String → H) (h0 : H)
    (n : HierName) : H :=
  n.revIdents.foldl step h0

/-- `HierName::from_topdown_hier_iter` from `hier_name.rs`. -/
def HierName.from_topdown_hier_iter (l : List String) : HierName :=
  l.foldl
    (fun ret ident =>
      if ret.is_empty then .mk ident none
      else .mk ident (some ret))
    HierName.emptyH

/-! ## C9: HierName hashing agrees with the tuple hash -/

theorem hierName_foldl_revIdents (l : List String) :
    ∀ ret : HierName, (∀ x ∈ l, x ≠ "") → ret.is_empty = false →
    (l.foldl
      (fun ret ident =>
        if ret.is_empty then .mk ident none
        else .mk ident (some ret)) ret).revIdents
      = l.reverse ++ ret.revIdents := by
  induction l with
  | nil => intro ret _ _; simp
  | cons x l ih =>
    intro ret hl hr
    have hx : x ≠ "" := hl x (by simp)
    have hstep : (if ret.is_empty = true then HierName.mk x none
        else HierName.mk x (some ret)) = HierName.mk x (some ret) :=
      if_neg (by simp [hr])
    rw [List.foldl_cons, hstep,
      ih (.mk x (some ret)) (fun y hy => hl y (by simp [hy])) rfl]
    simp [HierName.revIdents, hx]

/-- C9: hashing the chain built from the top-down path `[a, b, c]` equals
hashing the tuple `(c, b, a)` (i.e. applying the hasher step to `c`,
then `b`, then `a`); and any two `HierName` representations with equal
leaf-to-root identifier sequences hash equal. -/
theorem hierName_hash_compat {H : Type} (step : H → String → H) (h0 : H)
    (a b c : String) (ha : a ≠ "") (hb : b ≠ "") (hc : c ≠ "") :
    HierName.hashWith step h0
        (HierName.from_topdown_hier_iter [a, b, c])
      = step (step (step h0 c) b) a
    ∧ ∀ n1 n2 : HierName, n1.revIdents = n2.revIdents →
        HierName.hashWith step h0 n1 = HierName.hashWith step h0 n2 := by
  constructor
  · have h2 : (HierName.mk a none).is_empty = false := by
      simp [HierName.is_empty, HierName.prev, HierName.cur, ha]
    have hrev : (HierName.from_topdown_hier_iter [a, b, c]).revIdents
        = [c, b, a] := by
      unfold HierName.from_topdown_hier_iter
      have hstep : (if (HierName.emptyH).is_empty = true then HierName.mk a none
          else HierName.mk a (some HierName.emptyH)) = HierName.mk a none :=
        if_pos (by decide)
      rw [List.foldl_cons, hstep,
        hierName_foldl_revIdents [b, c] (.mk a none)
          (by
            intro x hx
            simp only [List.mem_cons, List.mem_singleton, List.not_mem_nil,
              or_false] at hx
            rcases hx with rfl | rfl
            · exact hb
            · exact hc) h2]
      simp [HierName.revIdents, ha]
    unfold HierName.hashWith
    rw [hrev]
    rfl
  · intro n1 n2 h
    unfold HierName.hashWith
    rw [h]

/-- Witness for C9 at a concrete hasher (accumulating the identifiers
into a list) and the path `["a", "b", "c"]`. -/
theorem hierName_hash_compat_witness :
    HierName.hashWith (H := List String) (fun h s => s :: h) []
        (HierName.from_topdown_hier_iter ["a", "b", "c"])
      = ["a", "b", "c"]
    ∧ ∀ n1 n2 : HierName, n1.revIdents = n2.revIdents →
        HierName.hashWith (H := List String) (fun h s => s :: h) [] n1
          = HierName.hashWith (H := List String) (fun h s => s :: h) [] n2 :=
  (hierName_hash_compat (H := List String) (fun h s => s :: h) []
    "a" "b" "c" (by decide) (by decide) (by decide))

/-! ## Wire expressions (`sverilogparse/src/lib.rs`) -/

/-- `WirexprBasic` from `sverilogparse/src/lib.rs`.  The `u128` literal
payloads become `Nat` (the parser masks every chunk to its width, which
is at most 128 bits). -/
inductive WirexprBasic where
  | Full (s : String)
  | SingleBit (s : String) (i : Int)
  | Slice (s : String) (r : SVerilogRange)
  | Literal (size : Nat) (value is_xz : Nat)
deriving DecidableEq, Repr

/-- `Wirexpr` from `sverilogparse/src/lib.rs`. -/
inductive Wirexpr where
  | Basic (b : WirexprBasic)
  | Concat (v : List WirexprBasic)
deriving DecidableEq, Repr

/-! ## Sized constant literals (`sverilogparse/src/sverilognom.rs`, `literal`) -/

/-- Digit value of a byte as `awint`'s radix decoding sees it:
`0-9`, then `a-z` as 10..35, then `A-Z` as 10..35. -/
def digit_val (c : Char) : Option Nat :=
  if '0' ≤ c ∧ c ≤ '9' then some (c.toNat - '0'.toNat)
  else if 'a' ≤ c ∧ c ≤ 'z' then some (c.toNat - 'a'.toNat + 10)
  else if 'A' ≤ c ∧ c ≤ 'Z' then some (c.toNat - 'A'.toNat + 10)
  else none

/-- Model of `awint::ExtAwi::from_bytes_radix` (unsigned, as called from
`literal` in `sverilognom.rs`): `_` is skipped, every other character
must be a digit of value below `radix`, digits accumulate big-endian,
and a value that does not fit in `bw` bits is an error.  `none` models
the error case (which the caller unwraps, i.e. panics). -/
def from_bytes_radix (radix : Nat) (src : List Char) (bw : Nat) : Option Nat :=
  match src.foldlM (fun acc c =>
    if c = '_' then some acc
    else match digit_val c with
      | none => none
      | some d => if d < radix then some (acc * radix + d) else none) 0 with
  | none => none
  | some v => if v < 2 ^ bw then some v else none

/-- The reverse digit walk of `literal` (`sverilognom.rs` lines
134-145): iterate the digit characters from least to most significant
(so this function is called on the reversed digit list), skip `_`, map
`x` to `('0', full)`, `z` to `(full, full)` and a plain digit `c` to
`(c, '0')`, writing at decreasing positions.  `none` models the `usize`
underflow panic of `pos -= 1` when there are more stored digits than
positions. -/
def xz_digit_value (radix_full_char c : Char) : Char :=
  if c = 'x' then '0' else if c = 'z' then radix_full_char else c

def xz_digit_isxz (radix_full_char c : Char) : Char :=
  if c = 'x' ∨ c = 'z' then radix_full_char else '0'

def lit_fill_xz (radix_full_char : Char) :
    List Char → Nat → List Char → List Char → Option (Nat × List Char × List Char)
  | [], pos, tv, txz => some (pos, tv, txz)
  | c :: rest, pos, tv, txz =>
    if c = '_' then lit_fill_xz radix_full_char rest pos tv txz
    else
      match pos with
      | 0 => none
      | p + 1 =>
        lit_fill_xz radix_full_char rest p
          (tv.set p (xz_digit_value radix_full_char c))
          (txz.set p (xz_digit_isxz radix_full_char c))

/-- The `has_xz = true` arm of the decoding closure of `literal`
(`sverilognom.rs`): reverse digit walk, leading-wildcard extension, and
the two `from_bytes_radix` decodes of the temporary digit arrays. -/
def lit_decode_xz (width radix radix_bits : Nat) (radix_full_char : Char)
    (hexint : List Char) : Option (Nat × Nat) :=
  let full_ndigits := (width + radix_bits - 1) / radix_bits
  match lit_fill_xz radix_full_char hexint.reverse full_ndigits
    (List.replicate full_ndigits '0') (List.replicate full_ndigits '0') with
  | none => none
  | some (pos, tv, txz) =>
    let ext := pos ≠ 0 ∧ txz.getD pos '0' = radix_full_char
    let tv' := if ext then
        List.replicate pos (tv.getD pos '0') ++ tv.drop pos else tv
    let txz' := if ext then
        List.replicate pos (txz.getD pos '0') ++ txz.drop pos else txz
    match from_bytes_radix radix tv' (full_ndigits * radix_bits),
          from_bytes_radix radix txz' (full_ndigits * radix_bits) with
    | some value, some is_xz => some (value, is_xz)
    | _, _ => none

/-- The decoding closure of `literal` (`sverilognom.rs`): produce the
value and is-xz bitfields of a sized constant before 128-bit chunking.
The `has_xz` test is exactly the source's: it looks only for the
lowercase bytes `b'x' | b'z'`.  `none` models a panic (zero width,
base-10 wildcards, an invalid digit reaching `from_bytes_radix`, or
digit-count overflow). -/
def lit_decode (width : Nat) (radix : Nat) (hexint : List Char) :
    Option (Nat × Nat) :=
  if width = 0 then none
  else
    let has_xz := hexint.any (fun c => c = 'x' || c = 'z')
    if !has_xz then
      match from_bytes_radix radix hexint width with
      | none => none
      | some v => some (v, 0)
    else
      match (match radix with
             | 2 => some ('1', 1)
             | 8 => some ('7', 3)
             | 16 => some ('f', 4)
             | _ => none : Option (Char × Nat)) with
      | none => none
      | some (radix_full_char, radix_bits) =>
        lit_decode_xz width radix radix_bits radix_full_char hexint

/-- The 128-bit chunk split at the end of `literal` (`sverilognom.rs`):
chunk `i` carries bits `[i*128, i*128+w)` of the decoded fields, masked
to its width `w`, and the chunk list is reversed to high-order-first. -/
def lit_chunks (width : Nat) (value is_xz : Nat) : List WirexprBasic :=
  ((List.range ((width + 127) / 128)).map (fun i =>
    let w := min (width - i * 128) 128
    let mask := 2 ^ w - 1
    WirexprBasic.Literal w ((value >>> (i * 128)) &&& mask)
      ((is_xz >>> (i * 128)) &&& mask))).reverse

/-- `literal` from `sverilognom.rs` after the radix character
(`b/o/d/h`) has been mapped to its numeric base: the full decoding of a
sized constant into `Literal` basics.  `none` models a panic. -/
def literal (width radix : Nat) (hexint : List Char) :
    Option (List WirexprBasic) :=
  match lit_decode width radix hexint with
  | none => none
  | some (value, is_xz) => some (lit_chunks width value is_xz)

/-! ### Value of a digit string, and bit-level lemmas about it -/

/-- The big-endian accumulation performed by `from_bytes_radix`,
starting from an accumulator. -/
def digitsValFrom (radix acc : Nat) (src : List Char) : Nat :=
  src.foldl
    (fun acc c => if c = '_' then acc else acc * radix + (digit_val c).getD 0)
    acc

/-- The value accumulated by `from_bytes_radix` on success. -/
def digitsVal (radix : Nat) (src : List Char) : Nat :=
  digitsValFrom radix 0 src

/-- A character `from_bytes_radix radix` accepts: an underscore or a
digit of value below `radix`. -/
def ValidDigit (radix : Nat) (c : Char) : Prop :=
  c ≠ '_' → ∃ d, digit_val c = some d ∧ d < radix

theorem digitsValFrom_cons_skip (radix acc : Nat) (c : Char) (src : List Char)
    (hc : c = '_') :
    digitsValFrom radix acc (c :: src) = digitsValFrom radix acc src := by
  simp [digitsValFrom, hc]

theorem digitsValFrom_cons (radix acc : Nat) (c : Char) (src : List Char)
    (hc : c ≠ '_') :
    digitsValFrom radix acc (c :: src)
      = digitsValFrom radix (acc * radix + (digit_val c).getD 0) src := by
  simp [digitsValFrom, hc]

theorem digitsValFrom_split (radix : Nat) (src : List Char) :
    ∀ acc, digitsValFrom radix acc src
      = acc * radix ^ (src.filter (· ≠ '_')).length + digitsVal radix src := by
  induction src with
  | nil => intro acc; simp [digitsValFrom, digitsVal]
  | cons c rest ih =>
    intro acc
    by_cases hc : c = '_'
    · rw [digitsValFrom_cons_skip _ _ _ _ hc]
      rw [show digitsVal radix (c :: rest) = digitsVal radix rest from
        digitsValFrom_cons_skip _ _ _ _ hc]
      rw [ih acc]
      simp [hc]
    · rw [digitsValFrom_cons _ _ _ _ hc]
      rw [show digitsVal radix (c :: rest)
          = digitsValFrom radix ((digit_val c).getD 0) rest by
        unfold digitsVal
        rw [digitsValFrom_cons _ _ _ _ hc]; simp]
      rw [ih (acc * radix + (digit_val c).getD 0), ih ((digit_val c).getD 0)]
      have : (List.filter (fun x => decide (x ≠ '_')) (c :: rest)).length
          = (List.filter (fun x => decide (x ≠ '_')) rest).length + 1 := by
        simp [List.filter_cons, hc]
      rw [this]
      ring

theorem digitsVal_lt (radix : Nat) (src : List Char)
    (hv : ∀ c ∈ src, ValidDigit radix c) :
    digitsVal radix src < radix ^ (src.filter (· ≠ '_')).length := by
  induction src with
  | nil => simp [digitsVal, digitsValFrom]
  | cons c rest ih =>
    have hrest : ∀ c ∈ rest, ValidDigit radix c :=
      fun x hx => hv x (List.mem_cons_of_mem _ hx)
    by_cases hc : c = '_'
    · rw [show digitsVal radix (c :: rest) = digitsVal radix rest from
        digitsValFrom_cons_skip _ _ _ _ hc]
      simpa [List.filter_cons, hc] using ih hrest
    · have hd : (digit_val c).getD 0 < radix := by
        obtain ⟨d, hd1, hd2⟩ := hv c (List.mem_cons_self _ _) hc
        simp [hd1, hd2]
      rw [show digitsVal radix (c :: rest)
          = digitsValFrom radix ((digit_val c).getD 0) rest by
        unfold digitsVal
        rw [digitsValFrom_cons _ _ _ _ hc]; simp]
      rw [digitsValFrom_split]
      have : (List.filter (fun x => decide (x ≠ '_')) (c :: rest)).length
          = (List.filter (fun x => decide (x ≠ '_')) rest).length + 1 := by
        simp [List.filter_cons, hc]
      rw [this, pow_succ]
      calc (digit_val c).getD 0 * radix ^ (rest.filter (· ≠ '_')).length
          + digitsVal radix rest
      _ < ((digit_val c).getD 0 + 1) * radix ^ (rest.filter (· ≠ '_')).length := by
          rw [add_one_mul]
          exact Nat.add_lt_add_left (ih hrest) _
      _ ≤ radix ^ (rest.filter (· ≠ '_')).length * radix := by
          rw [mul_comm (radix ^ _) radix]
          exact Nat.mul_le_mul_right _ hd

theorem from_bytes_radix_eq_some (radix : Nat) (src : List Char) (bw : Nat)
    (hv : ∀ c ∈ src, ValidDigit radix c)
    (hbw : digitsVal radix src < 2 ^ bw) :
    from_bytes_radix radix src bw = some (digitsVal radix src) := by
  have key : ∀ (l : List Char) (acc : Nat), (∀ c ∈ l, ValidDigit radix c) →
      l.foldlM (fun acc c =>
        if c = '_' then some acc
        else match digit_val c with
          | none => none
          | some d => if d < radix then some (acc * radix + d) else none) acc
      = some (digitsValFrom radix acc l) := by
    intro l
    induction l with
    | nil => intro acc _; simp [digitsValFrom]
    | cons c rest ih =>
      intro acc hl
      by_cases hc : c = '_'
      · rw [digitsValFrom_cons_skip _ _ _ _ hc]
        simpa [hc] using ih acc (fun x hx => hl x (List.mem_cons_of_mem _ hx))
      · obtain ⟨d, hd1, hd2⟩ := hl c (List.mem_cons_self _ _) hc
        rw [digitsValFrom_cons _ _ _ _ hc]
        rw [List.foldlM_cons]
        rw [show (if c = '_' then some acc
            else match digit_val c with
              | none => none
              | some d => if d < radix then some (acc * radix + d) else none)
            = some (acc * radix + d) by rw [if_neg hc, hd1]; exact if_pos hd2]
        simpa [hd1] using ih _ (fun x hx => hl x (List.mem_cons_of_mem _ hx))
  unfold from_bytes_radix
  rw [key src 0 hv]
  exact if_pos (show digitsValFrom radix 0 src < 2 ^ bw from hbw)

theorem testBit_mul_pow_add_low (a b n j : Nat) (hb : b < 2 ^ n) (hj : j < n) :
    (a * 2 ^ n + b).testBit j = b.testBit j := by
  have h1 := Nat.testBit_mod_two_pow (a * 2 ^ n + b) n j
  have h2 : (a * 2 ^ n + b) % 2 ^ n = b := by
    rw [Nat.add_comm, Nat.add_mul_mod_self_right]
    exact Nat.mod_eq_of_lt hb
  rw [h2] at h1
  simpa [hj] using h1.symm

theorem testBit_mul_pow_add_high (a b n j : Nat) (hb : b < 2 ^ n) (hj : n ≤ j) :
    (a * 2 ^ n + b).testBit j = a.testBit (j - n) := by
  have h1 := Nat.testBit_shiftRight (i := n) (j := j - n) (a * 2 ^ n + b)
  have h2 : (a * 2 ^ n + b) >>> n = a := by
    rw [Nat.shiftRight_eq_div_pow, Nat.mul_comm, Nat.mul_add_div (Nat.pos_pow_of_pos n (by norm_num))]
    simp [Nat.div_eq_of_lt hb]
  rw [h2, Nat.add_sub_cancel' hj] at h1
  exact h1.symm

/-- Bit `j` of a big-endian underscore-free digit string in base `2^k`:
it is bit `j % k` of the digit at big-endian index `len - 1 - j / k`,
and `false` beyond the string. -/
theorem digitsVal_testBit (k : Nat) (hk : 0 < k) (src : List Char)
    (hnu : ∀ c ∈ src, c ≠ '_')
    (hd : ∀ c ∈ src, ∃ d, digit_val c = some d ∧ d < 2 ^ k) (j : Nat) :
    (digitsVal (2 ^ k) src).testBit j
      = if j < k * src.length then
          ((digit_val (src.getD (src.length - 1 - j / k) '0')).getD 0).testBit (j % k)
        else false := by
  induction src generalizing j with
  | nil => simp [digitsVal, digitsValFrom]
  | cons c rest ih =>
    have hnur : ∀ x ∈ rest, x ≠ '_' := fun x hx => hnu x (List.mem_cons_of_mem _ hx)
    have hdr : ∀ x ∈ rest, ∃ d, digit_val x = some d ∧ d < 2 ^ k :=
      fun x hx => hd x (List.mem_cons_of_mem _ hx)
    have hfr : (rest.filter (· ≠ '_')).length = rest.length := by
      rw [List.filter_length_eq_length.mpr]
      intro x hx; simpa using hnur x hx
    have hsplit : digitsVal (2 ^ k) (c :: rest)
        = (digit_val c).getD 0 * (2 ^ k) ^ rest.length + digitsVal (2 ^ k) rest := by
      rw [show digitsVal (2 ^ k) (c :: rest)
          = digitsValFrom (2 ^ k) ((digit_val c).getD 0) rest by
        unfold digitsVal
        rw [digitsValFrom_cons _ _ _ _ (hnu c (List.mem_cons_self _ _))]; simp]
      rw [digitsValFrom_split, hfr]
    have hrest_lt : digitsVal (2 ^ k) rest < 2 ^ (k * rest.length) := by
      have h1 := digitsVal_lt (2 ^ k) rest (fun x hx _ => hdr x hx)
      rw [hfr] at h1
      calc digitsVal (2 ^ k) rest < (2 ^ k) ^ rest.length := h1
      _ = 2 ^ (k * rest.length) := (pow_mul 2 k rest.length).symm
    rw [hsplit,
      show ((2:ℕ) ^ k) ^ rest.length = 2 ^ (k * rest.length) from (pow_mul 2 k rest.length).symm]
    by_cases hA : j < k * rest.length
    · rw [testBit_mul_pow_add_low _ _ _ _ hrest_lt hA, ih hnur hdr j, if_pos hA,
        if_pos (show j < k * (c :: rest).length by
          simp only [List.length_cons]
          calc j < k * rest.length := hA
          _ ≤ k * (rest.length + 1) := Nat.mul_le_mul_left _ (Nat.le_succ _))]
      have hdiv : j / k < rest.length := (Nat.div_lt_iff_lt_mul hk).mpr
        (by rwa [Nat.mul_comm] at hA)
      have hidx : (c :: rest).length - 1 - j / k = (rest.length - 1 - j / k) + 1 := by
        simp only [List.length_cons, Nat.add_sub_cancel]
        omega
      rw [hidx]
      rfl
    · by_cases hB : j < k * (rest.length + 1)
      · have hge : k * rest.length ≤ j := Nat.le_of_not_lt hA
        rw [testBit_mul_pow_add_high _ _ _ _ hrest_lt hge,
          if_pos (show j < k * (c :: rest).length by simpa using hB)]
        have hdiv : j / k = rest.length :=
          Nat.div_eq_of_lt_le (by rwa [Nat.mul_comm] at hge)
            (by rwa [Nat.mul_comm] at hB)
        have hB' : j < k * rest.length + k := by rwa [Nat.mul_succ] at hB
        have hmod : j % k = j - k * rest.length := by
          have hr : j - k * rest.length < k := by omega
          conv_lhs => rw [show j = (j - k * rest.length) + k * rest.length by omega]
          rw [Nat.add_mul_mod_self_left, Nat.mod_eq_of_lt hr]
        have hidx : (c :: rest).length - 1 - j / k = 0 := by
          simp [hdiv]
        rw [hidx, hmod]
        rfl
      · have hval : (digit_val c).getD 0 * 2 ^ (k * rest.length) + digitsVal (2 ^ k) rest
            < 2 ^ (k * (rest.length + 1)) := by
          obtain ⟨dc, hdc1, hdc2⟩ := hd c (List.mem_cons_self _ _)
          have hc : (digit_val c).getD 0 + 1 ≤ 2 ^ k := by simp [hdc1]; omega
          calc (digit_val c).getD 0 * 2 ^ (k * rest.length) + digitsVal (2 ^ k) rest
          _ < (digit_val c).getD 0 * 2 ^ (k * rest.length) + 2 ^ (k * rest.length) :=
              Nat.add_lt_add_left hrest_lt _
          _ = ((digit_val c).getD 0 + 1) * 2 ^ (k * rest.length) := by ring
          _ ≤ 2 ^ k * 2 ^ (k * rest.length) := Nat.mul_le_mul_right _ hc
          _ = 2 ^ (k * (rest.length + 1)) := by
              rw [← pow_add]; ring_nf
        rw [Nat.testBit_eq_false_of_lt
          (lt_of_lt_of_le hval (Nat.pow_le_pow_right (by norm_num)
            (Nat.le_of_not_lt hB))),
          if_neg (by simpa using hB)]

theorem take_set_of_le {α : Type} (xs : List α) (p n : Nat) (v : α) (h : n ≤ p) :
    (xs.set p v).take n = xs.take n := by
  apply List.ext_getElem?
  intro i
  rcases lt_or_le i n with hi | hi
  · rw [List.getElem?_take, List.getElem?_take, if_pos hi, if_pos hi,
      List.getElem?_set, if_neg (by omega)]
  · rw [List.getElem?_take, List.getElem?_take, if_neg (by omega),
      if_neg (by omega)]

theorem drop_set_eq_cons {α : Type} (xs : List α) (p : Nat) (v : α)
    (h : p < xs.length) :
    (xs.set p v).drop p = v :: xs.drop (p + 1) := by
  rw [List.drop_set, if_neg (lt_irrefl p), Nat.sub_self,
    List.drop_eq_getElem_cons h]
  rfl

theorem lit_fill_xz_cons_eq (fc c : Char) (rest : List Char) (pos : Nat)
    (tv txz : List Char) :
    lit_fill_xz fc (c :: rest) pos tv txz
      = if c = '_' then lit_fill_xz fc rest pos tv txz
        else match pos with
          | 0 => none
          | p + 1 => lit_fill_xz fc rest p
              (tv.set p (xz_digit_value fc c))
              (txz.set p (xz_digit_isxz fc c)) := rfl

/-- Full characterization of the reverse digit walk: starting from
position `pos0` with enough room, it consumes the whole digit list,
ends at `pos0 - d` (`d` = number of non-underscore digits), and writes
the mapped digits big-endian into the slots `[pos0 - d, pos0)`. -/
theorem lit_fill_xz_spec (fc : Char) (L : List Char) :
    ∀ (pos0 : Nat) (tv0 txz0 : List Char),
    (L.filter (· ≠ '_')).length ≤ pos0 → pos0 ≤ tv0.length → pos0 ≤ txz0.length →
    lit_fill_xz fc L pos0 tv0 txz0
      = some (pos0 - (L.filter (· ≠ '_')).length,
          tv0.take (pos0 - (L.filter (· ≠ '_')).length)
            ++ (L.filter (· ≠ '_')).reverse.map (xz_digit_value fc)
            ++ tv0.drop pos0,
          txz0.take (pos0 - (L.filter (· ≠ '_')).length)
            ++ (L.filter (· ≠ '_')).reverse.map (xz_digit_isxz fc)
            ++ txz0.drop pos0) := by
  induction L with
  | nil =>
    intro pos0 tv0 txz0 _ _ _
    simp [lit_fill_xz, List.take_append_drop]
  | cons c rest ih =>
    intro pos0 tv0 txz0 hdle hlen1 hlen2
    by_cases hc : c = '_'
    · have hfil : (c :: rest).filter (· ≠ '_') = rest.filter (· ≠ '_') := by
        simp [List.filter_cons, hc]
      rw [lit_fill_xz_cons_eq, if_pos hc]
      rw [hfil] at hdle ⊢
      exact ih pos0 tv0 txz0 hdle hlen1 hlen2
    · have hfil : (c :: rest).filter (· ≠ '_') = c :: rest.filter (· ≠ '_') := by
        simp [List.filter_cons, hc]
      rw [hfil] at hdle ⊢
      obtain ⟨p, rfl⟩ : ∃ p, pos0 = p + 1 := by
        rcases pos0 with _ | p
        · exact absurd hdle (by simp)
        · exact ⟨p, rfl⟩
      have hd_r : (rest.filter (· ≠ '_')).length ≤ p := by
        simpa using Nat.succ_le_succ_iff.mp (by simpa using hdle)
      have hp1 : p < tv0.length := hlen1
      have hp2 : p < txz0.length := hlen2
      rw [lit_fill_xz_cons_eq, if_neg hc]
      show lit_fill_xz fc rest p
          (tv0.set p (xz_digit_value fc c))
          (txz0.set p (xz_digit_isxz fc c)) = _
      rw [ih p _ _ hd_r (by simpa using Nat.le_of_lt hp1)
        (by simpa using Nat.le_of_lt hp2)]
      have hsub : p + 1 - (c :: rest.filter (· ≠ '_')).length
          = p - (rest.filter (· ≠ '_')).length := by
        simp [Nat.succ_sub_succ]
      rw [hsub]
      have hrev : (c :: rest.filter (· ≠ '_')).reverse
          = (rest.filter (· ≠ '_')).reverse ++ [c] := by simp
      rw [hrev, List.map_append, List.map_append]
      rw [take_set_of_le _ _ _ _ (Nat.sub_le _ _),
        take_set_of_le _ _ _ _ (Nat.sub_le _ _),
        drop_set_eq_cons _ _ _ hp1, drop_set_eq_cons _ _ _ hp2]
      simp

theorem replicate_getD_lt {α : Type} (n i : Nat) (a d : α) (h : i < n) :
    (List.replicate n a).getD i d = a := by
  rw [List.getD_eq_getElem _ _ (by simpa using h)]
  exact List.getElem_replicate _ _

theorem digit_val_ne_underscore {c : Char} {v : Nat} (h : digit_val c = some v) :
    c ≠ '_' := by
  intro hc
  rw [hc, show digit_val '_' = none by decide] at h
  exact Option.noConfusion h

/-- Leading-wildcard extension inside the xz decoding arm of `literal`:
when the most-significant stored digit is `x` or `z` and the stored
digits fit in the declared width, decoding succeeds and every bit from
the top of the stored digits up to the declared width `width` carries
the per-digit wildcard pattern (`x`: value bit 0, is-xz bit 1; `z`:
value bit 1, is-xz bit 1). -/
theorem lit_decode_xz_wildcard (width k : Nat) (fc : Char) (hexint : List Char)
    (c0 : Char)
    (hk : 0 < k)
    (hfc : digit_val fc = some (2 ^ k - 1))
    (hfirst : (hexint.filter (· ≠ '_')).head? = some c0)
    (hc0 : c0 = 'x' ∨ c0 = 'z')
    (hvalid : ∀ c ∈ hexint, c = '_' ∨ c = 'x' ∨ c = 'z' ∨
      ∃ dv, digit_val c = some dv ∧ dv < 2 ^ k)
    (hcount : (hexint.filter (· ≠ '_')).length ≤ (width + k - 1) / k) :
    ∃ value is_xz,
      lit_decode_xz width (2 ^ k) k fc hexint = some (value, is_xz) ∧
      ∀ j, (hexint.filter (· ≠ '_')).length * k ≤ j → j < width →
        (is_xz.testBit j = true ∧ value.testBit j = decide (c0 = 'z')) := by
  have hfc_ne : fc ≠ '_' := digit_val_ne_underscore hfc
  set S := hexint.filter (· ≠ '_') with hSdef
  set d := S.length with hddef
  set full := (width + k - 1) / k with hfulldef
  obtain ⟨Srest, hScons⟩ : ∃ t, S = c0 :: t := by
    cases hs : S with
    | nil => rw [hs] at hfirst; exact absurd hfirst (by simp)
    | cons a t =>
      rw [hs] at hfirst
      simp only [List.head?_cons, Option.some.injEq] at hfirst
      exact ⟨t, by rw [hfirst]⟩
  have hd1 : 1 ≤ d := by rw [hddef, hScons]; simp
  have hwk : width ≤ k * full := by
    have h := Nat.div_add_mod (width + k - 1) k
    have hm : (width + k - 1) % k < k := Nat.mod_lt _ hk
    rw [← hfulldef] at h
    omega
  -- characterize the fill walk
  have hfR : hexint.reverse.filter (· ≠ '_') = S.reverse := by
    rw [hSdef]; exact List.filter_reverse _ _
  have hfill := lit_fill_xz_spec fc hexint.reverse full
    (List.replicate full '0') (List.replicate full '0')
    (by rw [hfR]; simpa using hcount)
    (by simp) (by simp)
  rw [hfR] at hfill
  simp only [List.length_reverse, List.reverse_reverse, ← hddef] at hfill
  have htake : ∀ c : Char, (List.replicate full c).take (full - d)
      = List.replicate (full - d) c := by
    intro c
    rw [List.take_replicate]
    congr 1
    omega
  have hdrop : ∀ c : Char, (List.replicate full c).drop full = [] := by
    intro c
    rw [List.drop_replicate]
    simp
  rw [htake, hdrop] at hfill
  simp only [List.append_nil] at hfill
  -- the two final digit arrays (with extension applied when d < full)
  have hvalS : ∀ c ∈ S, c = 'x' ∨ c = 'z' ∨
      ∃ dv, digit_val c = some dv ∧ dv < 2 ^ k := by
    intro c hc
    have h1 := hvalid c (List.mem_of_mem_filter hc)
    have h2 : c ≠ '_' := by
      have := List.of_mem_filter hc
      simpa using this
    tauto
  have hmapf : ∀ x ∈ S.map (xz_digit_value fc),
      ∃ dv, digit_val x = some dv ∧ dv < 2 ^ k := by
    intro x hx
    obtain ⟨c, hc, rfl⟩ := List.mem_map.mp hx
    by_cases hcx : c = 'x'
    · refine ⟨0, ?_, Nat.pos_pow_of_pos k (by norm_num)⟩
      simp [xz_digit_value, hcx]
      decide
    · by_cases hcz : c = 'z'
      · refine ⟨2 ^ k - 1, ?_, Nat.sub_lt (Nat.pos_pow_of_pos k (by norm_num)) one_pos⟩
        simpa [xz_digit_value, hcx, hcz] using hfc
      · rcases hvalS c hc with h | h | ⟨dv, hdv1, hdv2⟩
        · exact absurd h hcx
        · exact absurd h hcz
        · exact ⟨dv, by simpa [xz_digit_value, hcx, hcz] using hdv1, hdv2⟩
  have hmapg : ∀ x ∈ S.map (xz_digit_isxz fc),
      ∃ dv, digit_val x = some dv ∧ dv < 2 ^ k := by
    intro x hx
    obtain ⟨c, hc, rfl⟩ := List.mem_map.mp hx
    by_cases hcxz : c = 'x' ∨ c = 'z'
    · refine ⟨2 ^ k - 1, ?_, Nat.sub_lt (Nat.pos_pow_of_pos k (by norm_num)) one_pos⟩
      simpa [xz_digit_isxz, hcxz] using hfc
    · rcases hvalS c hc with h | h | ⟨dv, hdv1, hdv2⟩
      · exact absurd (Or.inl h) hcxz
      · exact absurd (Or.inr h) hcxz
      · refine ⟨0, ?_, Nat.pos_pow_of_pos k (by norm_num)⟩
        simp [xz_digit_isxz, hcxz]
        decide
  have hzeroD : ∃ dv, digit_val '0' = some dv ∧ dv < 2 ^ k :=
    ⟨0, by decide, Nat.pos_pow_of_pos k (by norm_num)⟩
  have hfcD : ∃ dv, digit_val fc = some dv ∧ dv < 2 ^ k :=
    ⟨2 ^ k - 1, hfc, Nat.sub_lt (Nat.pos_pow_of_pos k (by norm_num)) one_pos⟩
  -- generic success + bit description for a final array of the shape
  -- `replicate (full - d) pat ++ S.map f`
  have main : ∀ (pat : Char) (f : Char → Char),
      (∃ dv, digit_val pat = some dv ∧ dv < 2 ^ k) →
      (∀ x ∈ S.map f, ∃ dv, digit_val x = some dv ∧ dv < 2 ^ k) →
      from_bytes_radix (2 ^ k) (List.replicate (full - d) pat ++ S.map f) (full * k)
        = some (digitsVal (2 ^ k) (List.replicate (full - d) pat ++ S.map f))
      ∧ ∀ j, d * k ≤ j → j < width →
          (digitsVal (2 ^ k) (List.replicate (full - d) pat ++ S.map f)).testBit j
            = ((digit_val pat).getD 0).testBit (j % k) := by
    intro pat f hpat hf
    have hAllD : ∀ x ∈ List.replicate (full - d) pat ++ S.map f,
        ∃ dv, digit_val x = some dv ∧ dv < 2 ^ k := by
      intro x hx
      rcases List.mem_append.mp hx with hx | hx
      · rw [List.eq_of_mem_replicate hx]; exact hpat
      · exact hf x hx
    have hNoU : ∀ x ∈ List.replicate (full - d) pat ++ S.map f, x ≠ '_' := by
      intro x hx
      obtain ⟨dv, hdv, _⟩ := hAllD x hx
      exact digit_val_ne_underscore hdv
    have hlenA : (List.replicate (full - d) pat ++ S.map f).length = full := by
      simp [← hddef]
      omega
    have hfl : ((List.replicate (full - d) pat ++ S.map f).filter (· ≠ '_')).length
        = full := by
      rw [List.filter_length_eq_length.mpr (fun x hx => by simpa using hNoU x hx)]
      exact hlenA
    have hbound : digitsVal (2 ^ k) (List.replicate (full - d) pat ++ S.map f)
        < 2 ^ (full * k) := by
      have h1 := digitsVal_lt (2 ^ k) _ (fun x hx _ => hAllD x hx)
      rw [hfl] at h1
      calc digitsVal (2 ^ k) _ < (2 ^ k) ^ full := h1
      _ = 2 ^ (full * k) := by rw [← pow_mul, Nat.mul_comm]
    refine ⟨from_bytes_radix_eq_some _ _ _ (fun x hx _ => hAllD x hx) hbound, ?_⟩
    intro j hj1 hj2
    have hjk : j < k * (List.replicate (full - d) pat ++ S.map f).length := by
      rw [hlenA]
      exact lt_of_lt_of_le hj2 hwk
    rw [digitsVal_testBit k hk _ hNoU hAllD j, if_pos hjk, hlenA]
    have hdivj : d ≤ j / k := (Nat.le_div_iff_mul_le hk).mpr hj1
    have hdivj2 : j / k < full := by
      by_contra hcon
      push_neg at hcon
      have h1 : full * k ≤ j / k * k := Nat.mul_le_mul_right _ hcon
      have h2 : j / k * k ≤ j := Nat.div_mul_le_self j k
      have h3 : width ≤ full * k := by rw [Nat.mul_comm]; exact hwk
      omega
    have hidx : full - 1 - j / k < full - d := by omega
    rw [List.getD_append _ _ _ _ (by simpa using hidx),
      replicate_getD_lt _ _ _ _ hidx]
  by_cases hdf : d = full
  · -- no room above the stored digits: the extension region [d*k, width)
    -- is empty and decoding plainly succeeds.
    have hpos : full - d = 0 := by omega
    rw [hpos] at hfill
    simp only [List.replicate_zero, List.nil_append] at hfill
    have h1 := main '0' (xz_digit_value fc) hzeroD hmapf
    have h2 := main '0' (xz_digit_isxz fc) hzeroD hmapg
    rw [hpos] at h1 h2
    simp only [List.replicate_zero, List.nil_append] at h1 h2
    refine ⟨digitsVal (2 ^ k) (S.map (xz_digit_value fc)),
      digitsVal (2 ^ k) (S.map (xz_digit_isxz fc)), ?_, ?_⟩
    · simp only [lit_decode_xz, ← hfulldef, hfill]
      rw [if_neg (by simp [hpos]), if_neg (by simp [hpos]), h1.1, h2.1]
    · intro j hj1 hj2
      exfalso
      have : width ≤ d * k := by
        rw [hdf, Nat.mul_comm]
        exact hwk
      omega
  · -- there is room: the extension fires.
    have hpos : 1 ≤ full - d := by omega
    have hgetv : (List.replicate (full - d) '0' ++ S.map (xz_digit_value fc)).getD
        (full - d) '0' = xz_digit_value fc c0 := by
      rw [List.getD_append_right _ _ _ _ (by simp)]
      simp [hScons]
    have hgetx : (List.replicate (full - d) '0' ++ S.map (xz_digit_isxz fc)).getD
        (full - d) '0' = xz_digit_isxz fc c0 := by
      rw [List.getD_append_right _ _ _ _ (by simp)]
      simp [hScons]
    have hgfc : xz_digit_isxz fc c0 = fc := by
      simp [xz_digit_isxz, hc0]
    have hdropv : (List.replicate (full - d) '0' ++ S.map (xz_digit_value fc)).drop
        (full - d) = S.map (xz_digit_value fc) := by
      have h := List.drop_left (List.replicate (full - d) ('0':Char))
        (S.map (xz_digit_value fc))
      rwa [List.length_replicate] at h
    have hdropx : (List.replicate (full - d) '0' ++ S.map (xz_digit_isxz fc)).drop
        (full - d) = S.map (xz_digit_isxz fc) := by
      have h := List.drop_left (List.replicate (full - d) ('0':Char))
        (S.map (xz_digit_isxz fc))
      rwa [List.length_replicate] at h
    have h1 := main (xz_digit_value fc c0) (xz_digit_value fc)
      (by
        rcases hc0 with h | h
        · rw [h]; simpa [xz_digit_value] using hzeroD
        · rw [h]; simpa [xz_digit_value] using hfcD) hmapf
    have h2 := main fc (xz_digit_isxz fc) hfcD hmapg
    refine ⟨digitsVal (2 ^ k)
        (List.replicate (full - d) (xz_digit_value fc c0) ++ S.map (xz_digit_value fc)),
      digitsVal (2 ^ k)
        (List.replicate (full - d) fc ++ S.map (xz_digit_isxz fc)), ?_, ?_⟩
    · simp only [lit_decode_xz, ← hfulldef, hfill]
      rw [if_pos ⟨by omega, by rw [hgetx, hgfc]⟩,
        if_pos ⟨by omega, by rw [hgetx, hgfc]⟩]
      rw [hgetv, hgetx, hdropv, hdropx, hgfc, h1.1, h2.1]
    · intro j hj1 hj2
      constructor
      · rw [h2.2 j hj1 hj2, hfc]
        simp [Nat.testBit_two_pow_sub_one, Nat.mod_lt j hk]
      · rw [h1.2 j hj1 hj2]
        rcases hc0 with h | h
        · rw [h, show xz_digit_value fc 'x' = '0' from by simp [xz_digit_value],
            show digit_val '0' = some 0 from by decide]
          simp
        · rw [h, show xz_digit_value fc 'z' = fc from by simp [xz_digit_value],
            hfc, show decide (('z':Char) = 'z') = true from by decide]
          simp only [Option.getD_some, Nat.testBit_two_pow_sub_one]
          simp [Nat.mod_lt j hk]

/-! ## C5 and C6: literal decoding claims -/

/-- C5: parsing the sized literal `8'hxz` yields a single `Literal`
basic with width 8, value bits `0x0f` and is-xz bits `0xff`; and in
general, for a sized literal in base 2/8/16 whose most-significant
stored digit is `x` or `z` (and whose stored digits fit the declared
width `W`), decoding succeeds and every bit position from the top of
the stored digits up to `W` is extended with the same per-digit
pattern: `x` gives value bits 0 and is-xz bits all ones, `z` gives
value bits all ones and is-xz bits all ones. -/
theorem literal_leading_wildcard :
    literal 8 16 ['x', 'z'] = some [WirexprBasic.Literal 8 15 255]
    ∧ ∀ (width radix k : Nat) (hexint : List Char) (c0 : Char),
      ((radix = 2 ∧ k = 1) ∨ (radix = 8 ∧ k = 3) ∨ (radix = 16 ∧ k = 4)) →
      0 < width →
      (hexint.filter (· ≠ '_')).head? = some c0 →
      (c0 = 'x' ∨ c0 = 'z') →
      (∀ c ∈ hexint, c = '_' ∨ c = 'x' ∨ c = 'z' ∨
        ∃ dv, digit_val c = some dv ∧ dv < radix) →
      (hexint.filter (· ≠ '_')).length ≤ (width + k - 1) / k →
      ∃ value is_xz, lit_decode width radix hexint = some (value, is_xz) ∧
        ∀ j, (hexint.filter (· ≠ '_')).length * k ≤ j → j < width →
          (is_xz.testBit j = true ∧ value.testBit j = decide (c0 = 'z')) := by
  constructor
  · decide
  · intro width radix k hexint c0 hrk hw hfirst hc0 hvalid hcount
    have hc0mem : c0 ∈ hexint := by
      have h1 : c0 ∈ hexint.filter (· ≠ '_') := by
        cases hs : hexint.filter (· ≠ '_') with
        | nil => rw [hs] at hfirst; exact absurd hfirst (by simp)
        | cons a t =>
          rw [hs] at hfirst
          simp only [List.head?_cons, Option.some.injEq] at hfirst
          rw [hfirst]
          exact List.mem_cons_self _ _
      exact List.mem_of_mem_filter h1
    have hxz : hexint.any (fun c => c = 'x' || c = 'z') = true := by
      refine List.any_eq_true.mpr ⟨c0, hc0mem, ?_⟩
      rcases hc0 with h | h <;> simp [h]
    have hwne : ¬width = 0 := Nat.pos_iff_ne_zero.mp hw
    rcases hrk with ⟨hr, hks⟩ | ⟨hr, hks⟩ | ⟨hr, hks⟩ <;> subst hr <;> subst hks
    · have hdec : lit_decode width 2 hexint = lit_decode_xz width 2 1 '1' hexint := by
        simp only [lit_decode, hxz, Bool.not_true, if_neg hwne]
        rfl
      obtain ⟨v, xz, hvx, hbits⟩ := lit_decode_xz_wildcard width 1 '1' hexint c0
        (by norm_num) (by decide) hfirst hc0
        (by simpa using hvalid) (by simpa using hcount)
      rw [show (2:ℕ) ^ 1 = 2 by norm_num] at hvx
      exact ⟨v, xz, by rw [hdec]; exact hvx, hbits⟩
    · have hdec : lit_decode width 8 hexint = lit_decode_xz width 8 3 '7' hexint := by
        simp only [lit_decode, hxz, Bool.not_true, if_neg hwne]
        rfl
      obtain ⟨v, xz, hvx, hbits⟩ := lit_decode_xz_wildcard width 3 '7' hexint c0
        (by norm_num) (by decide) hfirst hc0
        (by simpa using hvalid) (by simpa using hcount)
      rw [show (2:ℕ) ^ 3 = 8 by norm_num] at hvx
      exact ⟨v, xz, by rw [hdec]; exact hvx, hbits⟩
    · have hdec : lit_decode width 16 hexint = lit_decode_xz width 16 4 'f' hexint := by
        simp only [lit_decode, hxz, Bool.not_true, if_neg hwne]
        rfl
      obtain ⟨v, xz, hvx, hbits⟩ := lit_decode_xz_wildcard width 4 'f' hexint c0
        (by norm_num) (by decide) hfirst hc0
        (by simpa using hvalid) (by simpa using hcount)
      rw [show (2:ℕ) ^ 4 = 16 by norm_num] at hvx
      exact ⟨v, xz, by rw [hdec]; exact hvx, hbits⟩

/-- Witness for C5's general part at the literal `12'bx01`. -/
theorem literal_leading_wildcard_witness :
    ∃ value is_xz, lit_decode 12 2 ['x', '0', '1'] = some (value, is_xz) ∧
      ∀ j, (List.filter (· ≠ '_') ['x', '0', '1']).length * 1 ≤ j → j < 12 →
        (is_xz.testBit j = true ∧ value.testBit j = decide (('x':Char) = 'z')) :=
  literal_leading_wildcard.2 12 2 1 ['x', '0', '1'] 'x'
    (Or.inl ⟨rfl, rfl⟩) (by decide) (by decide) (Or.inl rfl)
    (by decide) (by decide)

/-- C6 (evaluation of the code at the failing input): the sized literal
`4'hX`, written with an uppercase wildcard, makes the decoder panic
(modelled as `none`): the `has_xz` test matches only the lowercase
bytes `b'x' | b'z'`, so `X` reaches `from_bytes_radix` as an ordinary
digit and its unwrap fails.  The identical literal written in lowercase
decodes to `Literal 4 0 15`, so uppercase wildcards do not behave like
lowercase ones, contrary to the claim. -/
theorem literal_uppercase_wildcard_panics :
    literal 4 16 ['X'] = none
    ∧ literal 4 16 ['x'] = some [WirexprBasic.Literal 4 0 15] := by
  decide

/-! ## Union-find (`netlistdb/src/disjoint_set.rs`) -/

/-- `DisjointSet` from `disjoint_set.rs`: parent array plus the two
distinguished representatives registered by `set_value`. -/
structure DisjointSet where
  fa : List Nat
  value_zero : Option Nat
  value_one : Option Nat
deriving Repr, DecidableEq

/-- `self.fa.extend(self.fa.len()..=u)` at the top of `find`: grow the
parent array to length `u + 1` with self-parent nodes (a no-op when it
is already long enough). -/
def extendTo (fa : List Nat) (u : Nat) : List Nat :=
  fa ++ List.range' fa.length (u + 1 - fa.length)

/-- The parent-chasing loop of `find`, with explicit fuel.  On every
state the code ever builds, the parent forest is acyclic and
`fa.length` steps always reach a self-parent node (proved below), so
the fuel is never exhausted where this model uses it.

The source's `find` additionally performs path compression, rewriting
the non-root nodes it visited to point at the returned root.  That
rewrite changes neither the set of self-parent nodes nor the root
reached from any node, and those are the only observations `merge`,
`set_value` and `finalize` make of the array, so the model omits the
compression writes. -/
def rootAux (fa : List Nat) : Nat → Nat → Nat
  | 0, u => u
  | fuel + 1, u =>
    if fa.getD u u = u then u else rootAux fa fuel (fa.getD u u)

/-- The fresh `DisjointSet` (`with_capacity` only pre-allocates). -/
def DisjointSet.emptyDS : DisjointSet := ⟨[], none, none⟩

/-- `DisjointSet::find` (sans compression, see `rootAux`): extends the
backing array, then chases parents to the group leader. -/
def DisjointSet.find (ds : DisjointSet) (u : Nat) : DisjointSet × Nat :=
  let fa := extendTo ds.fa u
  ({ ds with fa := fa }, rootAux fa fa.length u)

/-- `DisjointSet::merge`: `fa[find(a)] = find(b)`. -/
def DisjointSet.merge (ds : DisjointSet) (a b : Nat) : DisjointSet :=
  let fr := ds.find a
  let fr2 := fr.1.find b
  { fr2.1 with fa := fr2.1.fa.set fr.2 fr2.2 }

/-- `DisjointSet::set_value`: register `a` as tied to zero/one, merging
with the already-registered representative if one exists. -/
def DisjointSet.set_value (ds : DisjointSet) (a : Nat) (v : Bool) : DisjointSet :=
  match v with
  | false =>
    match ds.value_zero with
    | none => { ds with value_zero := some a }
    | some b => ds.merge a b
  | true =>
    match ds.value_one with
    | none => { ds with value_one := some a }
    | some b => ds.merge a b

/-- `fa.truncate(num_nodes)` followed by
`fa.extend(fa.len()..num_nodes)` at the top of `finalize`. -/
def finalizeFa (fa : List Nat) (n : Nat) : List Nat :=
  fa.take n ++ List.range' (fa.take n).length (n - (fa.take n).length)

/-- Number of self-parent (root) nodes with index below `i`: the value
of `finalize`'s running `num_sets` counter when its first loop reaches
index `i`. -/
def countRootsLt (fa : List Nat) (i : Nat) : Nat :=
  ((List.range i).filter (fun j => fa.getD j j = j)).length

/-- The `set_indices` array of `finalize`: roots get their id from the
first loop's running counter (the number of earlier roots), followers
get their root's id from the second loop (the in-loop `find`
compression again does not change which root is reached). -/
def finalize_set_indices (fa : List Nat) (n : Nat) : List Nat :=
  (List.range n).map (fun i =>
    if fa.getD i i = i then countRootsLt fa i
    else countRootsLt fa (rootAux fa fa.length i))

/-- `DisjointSet::finalize`: dense set ids, zero/one set ids, and
failure when the zero and one representatives land in the same set. -/
def DisjointSet.finalize (ds : DisjointSet) (num_nodes : Nat) :
    Option (Nat × List Nat × Option Nat × Option Nat) :=
  let fa := finalizeFa ds.fa num_nodes
  let set_indices := finalize_set_indices fa num_nodes
  let num_sets := countRootsLt fa num_nodes
  let id_zero := ds.value_zero.map (fun i => set_indices.getD i 0)
  let id_one := ds.value_one.map (fun i => set_indices.getD i 0)
  match id_zero, id_one with
  | some a, some b =>
    if a == b then none
    else some (num_sets, set_indices, id_zero, id_one)
  | _, _ => some (num_sets, set_indices, id_zero, id_one)

/-- The mutating operations a client performs on a `DisjointSet` (the
netlist builder only ever calls `merge` and `set_value`). -/
inductive DSOp where
  | mergeOp (a b : Nat)
  | setValueOp (a : Nat) (v : Bool)
deriving Repr, DecidableEq

def applyOp (ds : DisjointSet) : DSOp → DisjointSet
  | .mergeOp a b => ds.merge a b
  | .setValueOp a v => ds.set_value a v

/-- The `DisjointSet` obtained by running a sequence of operations on a
fresh union-find. -/
def applyOps (ops : List DSOp) : DisjointSet :=
  ops.foldl applyOp DisjointSet.emptyDS

/-- Every index an operation passes to the union-find is below `n`. -/
def DSOp.bounded (n : Nat) : DSOp → Prop
  | .mergeOp a b => a < n ∧ b < n
  | .setValueOp a _ => a < n

instance (n : Nat) : (op : DSOp) → Decidable (DSOp.bounded n op)
  | .mergeOp a b => inferInstanceAs (Decidable (a < n ∧ b < n))
  | .setValueOp a _ => inferInstanceAs (Decidable (a < n))

/-- The first index registered for polarity `v`: this is what
`value_zero` / `value_one` hold, since later registrations only merge. -/
def first_set_value (v : Bool) (ops : List DSOp) : Option Nat :=
  (ops.filterMap (fun op => match op with
    | .setValueOp a w => if w = v then some a else none
    | _ => none)).head?

/-- Parent of a node (out-of-range nodes are implicit self-parents,
matching the lazy growth of the array). -/
def parentF (fa : List Nat) (u : Nat) : Nat := fa.getD u u

/-- A self-parent (root) node. -/
def IsRoot (fa : List Nat) (u : Nat) : Prop := parentF fa u = u

/-- The group leader `find` returns. -/
def rootOf (fa : List Nat) (u : Nat) : Nat := rootAux fa fa.length u

/-- Well-formedness of the parent array: entries stay in range and
every node reaches a root by chasing parents. -/
structure WfFa (fa : List Nat) : Prop where
  bounded : ∀ i, i < fa.length → parentF fa i < fa.length
  reaches : ∀ i, i < fa.length → ∃ k, IsRoot fa ((parentF fa)^[k] i)

/-! ### Parent-chasing facts -/

theorem iterate_parentF_isRoot_fixed (fa : List Nat) (r : Nat) (hr : IsRoot fa r) :
    ∀ m, (parentF fa)^[m] r = r := by
  intro m
  induction m with
  | zero => rfl
  | succ m ih => rw [Function.iterate_succ_apply', ih]; exact hr

theorem iterate_parentF_stable (fa : List Nat) (u k : Nat)
    (hk : IsRoot fa ((parentF fa)^[k] u)) :
    ∀ m, k ≤ m → (parentF fa)^[m] u = (parentF fa)^[k] u := by
  intro m hm
  rw [show m = (m - k) + k by omega, Function.iterate_add_apply]
  exact iterate_parentF_isRoot_fixed fa _ hk (m - k)

theorem root_unique (fa : List Nat) (u k1 k2 : Nat)
    (h1 : IsRoot fa ((parentF fa)^[k1] u))
    (h2 : IsRoot fa ((parentF fa)^[k2] u)) :
    (parentF fa)^[k1] u = (parentF fa)^[k2] u := by
  rcases le_total k1 k2 with h | h
  · exact (iterate_parentF_stable fa u k1 h1 k2 h).symm
  · exact iterate_parentF_stable fa u k2 h2 k1 h

theorem rootAux_of_isRoot (fa : List Nat) (fuel u : Nat) (hu : IsRoot fa u) :
    rootAux fa fuel u = u := by
  cases fuel with
  | zero => rfl
  | succ fuel =>
    rw [show rootAux fa (fuel + 1) u
        = if fa.getD u u = u then u else rootAux fa fuel (fa.getD u u) from rfl,
      if_pos (show fa.getD u u = u from hu)]

theorem rootAux_spec (fa : List Nat) :
    ∀ (fuel u k : Nat), k ≤ fuel → IsRoot fa ((parentF fa)^[k] u) →
    ∃ m, m ≤ fuel ∧ rootAux fa fuel u = (parentF fa)^[m] u ∧
      IsRoot fa (rootAux fa fuel u) := by
  intro fuel
  induction fuel with
  | zero =>
    intro u k hk hr
    have hk0 : k = 0 := Nat.le_zero.mp hk
    rw [hk0] at hr
    exact ⟨0, le_refl _, rfl, hr⟩
  | succ fuel ih =>
    intro u k hk hr
    by_cases hu : fa.getD u u = u
    · rw [rootAux_of_isRoot fa _ u hu]
      exact ⟨0, Nat.zero_le _, rfl, hu⟩
    · have hstep : rootAux fa (fuel + 1) u = rootAux fa fuel (fa.getD u u) := by
        rw [show rootAux fa (fuel + 1) u
            = if fa.getD u u = u then u else rootAux fa fuel (fa.getD u u) from rfl,
          if_neg hu]
      have hk1 : k ≠ 0 := by
        intro h; rw [h] at hr; exact hu hr
      obtain ⟨k', rfl⟩ : ∃ k', k = k' + 1 := ⟨k - 1, by omega⟩
      have hr' : IsRoot fa ((parentF fa)^[k'] (parentF fa u)) := by
        rwa [← Function.iterate_succ_apply]
      obtain ⟨m, hm, heq, hroot⟩ := ih (parentF fa u) k' (by omega) hr'
      refine ⟨m + 1, by omega, ?_, ?_⟩
      · rw [hstep, show fa.getD u u = parentF fa u from rfl, heq,
          ← Function.iterate_succ_apply]
      · rw [hstep]
        exact hroot

theorem iterate_parentF_lt (fa : List Nat) (len : Nat)
    (hb : ∀ i, i < len → parentF fa i < len) (u : Nat) (hu : u < len) :
    ∀ k, (parentF fa)^[k] u < len := by
  intro k
  induction k with
  | zero => exact hu
  | succ k ih =>
    rw [Function.iterate_succ_apply']
    exact hb _ ih

theorem iterate_parentF_cycle (fa : List Nat) (u a b : Nat) (hab : a < b)
    (heq : (parentF fa)^[a] u = (parentF fa)^[b] u) :
    ∀ t, (parentF fa)^[a + t] u = (parentF fa)^[a + t % (b - a)] u := by
  intro t
  induction t using Nat.strong_induction_on with
  | _ t ih =>
    by_cases ht : t < b - a
    · rw [Nat.mod_eq_of_lt ht]
    · push_neg at ht
      have hc : 0 < b - a := by omega
      rw [show a + t = (t - (b - a)) + b by omega, Function.iterate_add_apply,
        ← heq, ← Function.iterate_add_apply,
        show t - (b - a) + a = a + (t - (b - a)) by omega,
        ih (t - (b - a)) (by omega)]
      rw [Nat.mod_eq_sub_mod ht]

theorem reaches_within_length (fa : List Nat) (hwf : WfFa fa) (u : Nat)
    (hu : u < fa.length) :
    ∃ k, k < fa.length ∧ IsRoot fa ((parentF fa)^[k] u) := by
  classical
  have hex : ∃ k, IsRoot fa ((parentF fa)^[k] u) := hwf.reaches u hu
  have hkminr : IsRoot fa ((parentF fa)^[Nat.find hex] u) := Nat.find_spec hex
  have hmin : ∀ j, j < Nat.find hex → ¬ IsRoot fa ((parentF fa)^[j] u) :=
    fun j hj => Nat.find_min hex hj
  refine ⟨Nat.find hex, ?_, hkminr⟩
  by_contra hcon
  push_neg at hcon
  have hinj : ∀ a b, a < b → b ≤ Nat.find hex →
      (parentF fa)^[a] u ≠ (parentF fa)^[b] u := by
    intro a b hab hbk heq
    have hcyc := iterate_parentF_cycle fa u a b hab heq (Nat.find hex - a)
    rw [show a + (Nat.find hex - a) = Nat.find hex by omega] at hcyc
    have h2 : a + (Nat.find hex - a) % (b - a) < Nat.find hex := by
      have := Nat.mod_lt (Nat.find hex - a) (y := b - a) (by omega)
      omega
    exact hmin _ h2 (hcyc ▸ hkminr)
  have hmaps : ∀ j ∈ Finset.range (Nat.find hex + 1),
      (parentF fa)^[j] u ∈ Finset.range fa.length := by
    intro j _
    simp only [Finset.mem_range]
    exact iterate_parentF_lt fa fa.length hwf.bounded u hu j
  have hcard : (Finset.range fa.length).card < (Finset.range (Nat.find hex + 1)).card := by
    simp only [Finset.card_range]
    omega
  obtain ⟨a, ha, b, hb2, hne, heq⟩ :=
    Finset.exists_ne_map_eq_of_card_lt_of_maps_to hcard hmaps
  simp only [Finset.mem_range] at ha hb2
  rcases Nat.lt_or_ge a b with h | h
  · exact hinj a b h (by omega) heq
  · exact hinj b a (by omega) (by omega) heq.symm

theorem rootOf_isRoot (fa : List Nat) (hwf : WfFa fa) (u : Nat)
    (hu : u < fa.length) :
    IsRoot fa (rootOf fa u) ∧ ∃ m, rootOf fa u = (parentF fa)^[m] u := by
  obtain ⟨k, hk, hr⟩ := reaches_within_length fa hwf u hu
  obtain ⟨m, _, heq, hroot⟩ := rootAux_spec fa fa.length u k (le_of_lt hk) hr
  exact ⟨hroot, m, heq⟩

theorem rootOf_eq_iterate_root (fa : List Nat) (hwf : WfFa fa) (u : Nat)
    (hu : u < fa.length) (k : Nat) (hr : IsRoot fa ((parentF fa)^[k] u)) :
    rootOf fa u = (parentF fa)^[k] u := by
  obtain ⟨hroot, m, heq⟩ := rootOf_isRoot fa hwf u hu
  rw [heq]
  exact root_unique fa u m k (heq ▸ hroot) hr

theorem rootOf_lt (fa : List Nat) (hwf : WfFa fa) (u : Nat)
    (hu : u < fa.length) : rootOf fa u < fa.length := by
  obtain ⟨_, m, heq⟩ := rootOf_isRoot fa hwf u hu
  rw [heq]
  exact iterate_parentF_lt fa fa.length hwf.bounded u hu m

/-! ### Preservation of well-formedness under the union-find operations -/

theorem iterate_parentF_congr (fa fa2 : List Nat) (len : Nat)
    (hb : ∀ i, i < len → parentF fa i < len)
    (hag : ∀ i, i < len → parentF fa2 i = parentF fa i)
    (u : Nat) (hu : u < len) :
    ∀ k, (parentF fa2)^[k] u = (parentF fa)^[k] u := by
  intro k
  induction k with
  | zero => rfl
  | succ k ih =>
    rw [Function.iterate_succ_apply', Function.iterate_succ_apply', ih]
    exact hag _ (iterate_parentF_lt fa len hb u hu k)

theorem parentF_append_lt (fa ext : List Nat) (i : Nat) (hi : i < fa.length) :
    parentF (fa ++ ext) i = parentF fa i := by
  unfold parentF
  exact List.getD_append _ _ _ _ hi

theorem parentF_range'_self (fa : List Nat) (m i : Nat) (hi : fa.length ≤ i)
    (hilt : i < fa.length + m) :
    parentF (fa ++ List.range' fa.length m) i = i := by
  unfold parentF
  rw [List.getD_append_right _ _ _ _ hi,
    List.getD_eq_getElem _ _ (by simp; omega), List.getElem_range']
  omega

theorem wf_append_range' (fa : List Nat) (m : Nat) (hwf : WfFa fa) :
    WfFa (fa ++ List.range' fa.length m) := by
  have hlen : (fa ++ List.range' fa.length m).length = fa.length + m := by simp
  constructor
  · intro i hi
    rw [hlen] at hi
    rcases lt_or_le i fa.length with h | h
    · rw [parentF_append_lt fa _ i h, hlen]
      exact lt_of_lt_of_le (hwf.bounded i h) (Nat.le_add_right _ _)
    · rw [parentF_range'_self fa m i h (by omega), hlen]
      omega
  · intro i hi
    rw [hlen] at hi
    rcases lt_or_le i fa.length with h | h
    · obtain ⟨k, hk⟩ := hwf.reaches i h
      refine ⟨k, ?_⟩
      have hit := iterate_parentF_congr fa (fa ++ List.range' fa.length m)
        fa.length hwf.bounded
        (fun j hj => parentF_append_lt fa _ j hj) i h
      rw [hit k]
      have hlt : (parentF fa)^[k] i < fa.length :=
        iterate_parentF_lt fa fa.length hwf.bounded i h k
      show parentF (fa ++ List.range' fa.length m) _ = _
      rw [parentF_append_lt fa _ _ hlt]
      exact hk
    · refine ⟨0, ?_⟩
      show parentF (fa ++ List.range' fa.length m) i = i
      exact parentF_range'_self fa m i h (by omega)

theorem parentF_set_self (fa : List Nat) (ra rb : Nat) (hra : ra < fa.length) :
    parentF (fa.set ra rb) ra = rb := by
  unfold parentF
  rw [List.getD_eq_getElem?_getD, List.getElem?_set, if_pos rfl, if_pos hra]
  rfl

theorem parentF_set_other (fa : List Nat) (ra rb x : Nat) (hx : x ≠ ra) :
    parentF (fa.set ra rb) x = parentF fa x := by
  unfold parentF
  rw [List.getD_eq_getElem?_getD, List.getElem?_set,
    if_neg (fun h => hx h.symm), ← List.getD_eq_getElem?_getD]

theorem set_chain_eq (fa : List Nat) (ra rb u km : Nat)
    (hra : IsRoot fa ra)
    (hmin : ∀ j, j < km → ¬ IsRoot fa ((parentF fa)^[j] u)) :
    ∀ j, j ≤ km → (parentF (fa.set ra rb))^[j] u = (parentF fa)^[j] u := by
  intro j hj
  induction j with
  | zero => rfl
  | succ j ih =>
    rw [Function.iterate_succ_apply', Function.iterate_succ_apply',
      ih (by omega)]
    apply parentF_set_other
    intro heq
    exact hmin j (by omega) (heq ▸ hra)

theorem wf_set_root (fa : List Nat) (hwf : WfFa fa) (ra rb : Nat)
    (hra : IsRoot fa ra) (hrb : IsRoot fa rb)
    (hralt : ra < fa.length) (hrblt : rb < fa.length) :
    WfFa (fa.set ra rb) := by
  classical
  have hlen : (fa.set ra rb).length = fa.length := List.length_set _ _ _
  have hrb_root : IsRoot (fa.set ra rb) rb := by
    by_cases h : rb = ra
    · subst h
      show parentF (fa.set rb rb) rb = rb
      rw [parentF_set_self fa rb rb hralt]
    · show parentF (fa.set ra rb) rb = rb
      rw [parentF_set_other fa ra rb rb h]
      exact hrb
  constructor
  · intro i hi
    rw [hlen] at hi ⊢
    by_cases h : i = ra
    · rw [h, parentF_set_self fa ra rb hralt]
      exact hrblt
    · rw [parentF_set_other fa ra rb i h]
      exact hwf.bounded i hi
  · intro i hi
    rw [hlen] at hi
    have hex : ∃ k, IsRoot fa ((parentF fa)^[k] i) := hwf.reaches i hi
    have hkr : IsRoot fa ((parentF fa)^[Nat.find hex] i) := Nat.find_spec hex
    have hmin : ∀ j, j < Nat.find hex → ¬ IsRoot fa ((parentF fa)^[j] i) :=
      fun j hj => Nat.find_min hex hj
    have hchain := set_chain_eq fa ra rb i (Nat.find hex) hra hmin
    by_cases hcase : (parentF fa)^[Nat.find hex] i = ra
    · refine ⟨Nat.find hex + 1, ?_⟩
      have : (parentF (fa.set ra rb))^[Nat.find hex + 1] i = rb := by
        rw [Function.iterate_succ_apply', hchain _ (le_refl _), hcase,
          parentF_set_self fa ra rb hralt]
      rw [this]
      exact hrb_root
    · refine ⟨Nat.find hex, ?_⟩
      show parentF (fa.set ra rb) _ = _
      rw [hchain _ (le_refl _), parentF_set_other fa ra rb _ hcase]
      exact hkr

theorem extendTo_length (fa : List Nat) (u : Nat) :
    (extendTo fa u).length = max fa.length (u + 1) := by
  simp only [extendTo, List.length_append, List.length_range']
  omega

theorem merge_fa_eq (ds : DisjointSet) (a b : Nat) :
    (ds.merge a b).fa =
      (extendTo (extendTo ds.fa a) b).set
        (rootOf (extendTo ds.fa a) a)
        (rootOf (extendTo (extendTo ds.fa a) b) b)
    ∧ (ds.merge a b).value_zero = ds.value_zero
    ∧ (ds.merge a b).value_one = ds.value_one :=
  ⟨rfl, rfl, rfl⟩

theorem DisjointSet.merge_wf (ds : DisjointSet) (hwf : WfFa ds.fa) (a b : Nat) :
    WfFa (ds.merge a b).fa ∧
    (ds.merge a b).fa.length = max (max ds.fa.length (a + 1)) (b + 1) := by
  obtain ⟨hfa, -, -⟩ := merge_fa_eq ds a b
  have hwf1 : WfFa (extendTo ds.fa a) := wf_append_range' ds.fa _ hwf
  have hwf2 : WfFa (extendTo (extendTo ds.fa a) b) :=
    wf_append_range' (extendTo ds.fa a) _ hwf1
  have hl1 := extendTo_length ds.fa a
  have hl2 := extendTo_length (extendTo ds.fa a) b
  have ha1 : a < (extendTo ds.fa a).length := by omega
  have hb2 : b < (extendTo (extendTo ds.fa a) b).length := by omega
  have hra := rootOf_isRoot _ hwf1 a ha1
  have hra_lt : rootOf (extendTo ds.fa a) a < (extendTo ds.fa a).length :=
    rootOf_lt _ hwf1 a ha1
  have hra_root2 : IsRoot (extendTo (extendTo ds.fa a) b)
      (rootOf (extendTo ds.fa a) a) := by
    show parentF ((extendTo ds.fa a)
      ++ List.range' (extendTo ds.fa a).length
          (b + 1 - (extendTo ds.fa a).length)) _ = _
    rw [parentF_append_lt _ _ _ hra_lt]
    exact hra.1
  have hrb := rootOf_isRoot _ hwf2 b hb2
  have hrb_lt : rootOf (extendTo (extendTo ds.fa a) b) b
      < (extendTo (extendTo ds.fa a) b).length := rootOf_lt _ hwf2 b hb2
  constructor
  · rw [hfa]
    exact wf_set_root _ hwf2 _ _ hra_root2 hrb.1
      (lt_of_lt_of_le hra_lt (by omega)) hrb_lt
  · rw [hfa, List.length_set]
    omega

theorem first_set_value_cons_merge (v : Bool) (a b : Nat) (ops : List DSOp) :
    first_set_value v (.mergeOp a b :: ops) = first_set_value v ops := by
  simp [first_set_value, List.filterMap_cons]

theorem first_set_value_cons_set_same (v : Bool) (a : Nat) (ops : List DSOp) :
    first_set_value v (.setValueOp a v :: ops) = some a := by
  simp [first_set_value, List.filterMap_cons]

theorem first_set_value_cons_set_other (v w : Bool) (a : Nat) (ops : List DSOp)
    (hvw : w ≠ v) :
    first_set_value v (.setValueOp a w :: ops) = first_set_value v ops := by
  simp [first_set_value, List.filterMap_cons, hvw]

theorem foldl_applyOp_invariant (n : Nat) : ∀ (ops : List DSOp) (ds : DisjointSet),
    (∀ op ∈ ops, DSOp.bounded n op) → WfFa ds.fa → ds.fa.length ≤ n →
    (∀ z, ds.value_zero = some z → z < n) →
    (∀ z, ds.value_one = some z → z < n) →
    WfFa (ops.foldl applyOp ds).fa ∧ (ops.foldl applyOp ds).fa.length ≤ n ∧
    ((ops.foldl applyOp ds).value_zero
      = (match ds.value_zero with
         | some z => some z
         | none => first_set_value false ops)) ∧
    ((ops.foldl applyOp ds).value_one
      = (match ds.value_one with
         | some z => some z
         | none => first_set_value true ops)) ∧
    (∀ z, (ops.foldl applyOp ds).value_zero = some z → z < n) ∧
    (∀ z, (ops.foldl applyOp ds).value_one = some z → z < n) := by
  intro ops
  induction ops with
  | nil =>
    intro ds _ hwf hlen hz ho
    refine ⟨hwf, hlen, ?_, ?_, hz, ho⟩
    · cases h1 : ds.value_zero <;> simp [first_set_value, h1]
    · cases h1 : ds.value_one <;> simp [first_set_value, h1]
  | cons op rest ih =>
    intro ds hb hwf hlen hz ho
    have hbrest : ∀ o ∈ rest, DSOp.bounded n o :=
      fun o hmem => hb o (List.mem_cons_of_mem _ hmem)
    have hbop := hb op (List.mem_cons_self _ _)
    rw [List.foldl_cons]
    cases op with
    | mergeOp a b =>
      obtain ⟨hba, hbb⟩ := hbop
      rw [show applyOp ds (.mergeOp a b) = ds.merge a b from rfl]
      obtain ⟨hwf', hlen'⟩ := ds.merge_wf hwf a b
      obtain ⟨-, hvz, hvo⟩ := merge_fa_eq ds a b
      obtain ⟨j1, j2, j3, j4, j5, j6⟩ := ih (ds.merge a b) hbrest hwf' (by omega)
        (fun z h => hz z (hvz ▸ h)) (fun z h => ho z (hvo ▸ h))
      refine ⟨j1, j2, ?_, ?_, j5, j6⟩
      · rw [j3, hvz, first_set_value_cons_merge]
      · rw [j4, hvo, first_set_value_cons_merge]
    | setValueOp a v =>
      have hba : a < n := hbop
      cases v with
      | false =>
        cases hvz0 : ds.value_zero with
        | none =>
          have happ : applyOp ds (.setValueOp a false)
              = { ds with value_zero := some a } := by
            simp [applyOp, DisjointSet.set_value, hvz0]
          rw [happ]
          obtain ⟨j1, j2, j3, j4, j5, j6⟩ :=
            ih { ds with value_zero := some a } hbrest hwf hlen
            (fun z h => by
              simp only [Option.some.injEq] at h
              rw [← h]; exact hba)
            ho
          refine ⟨j1, j2, ?_, ?_, j5, j6⟩
          · rw [j3, first_set_value_cons_set_same]
          · rw [j4]
            cases h1 : ds.value_one with
            | none =>
              rw [first_set_value_cons_set_other true false a rest (by decide)]
            | some z => rfl
        | some b0 =>
          have hb0 : b0 < n := hz b0 hvz0
          have happ : applyOp ds (.setValueOp a false) = ds.merge a b0 := by
            simp [applyOp, DisjointSet.set_value, hvz0]
          rw [happ]
          obtain ⟨hwf', hlen'⟩ := ds.merge_wf hwf a b0
          obtain ⟨-, hvz, hvo⟩ := merge_fa_eq ds a b0
          obtain ⟨j1, j2, j3, j4, j5, j6⟩ :=
            ih (ds.merge a b0) hbrest hwf' (by omega)
            (fun z h => hz z (hvz ▸ h)) (fun z h => ho z (hvo ▸ h))
          refine ⟨j1, j2, ?_, ?_, j5, j6⟩
          · rw [j3, hvz, hvz0]
          · rw [j4, hvo]
            cases h1 : ds.value_one with
            | none =>
              rw [first_set_value_cons_set_other true false a rest (by decide)]
            | some z => rfl
      | true =>
        cases hvo0 : ds.value_one with
        | none =>
          have happ : applyOp ds (.setValueOp a true)
              = { ds with value_one := some a } := by
            simp [applyOp, DisjointSet.set_value, hvo0]
          rw [happ]
          obtain ⟨j1, j2, j3, j4, j5, j6⟩ :=
            ih { ds with value_one := some a } hbrest hwf hlen
            hz
            (fun z h => by
              simp only [Option.some.injEq] at h
              rw [← h]; exact hba)
          refine ⟨j1, j2, ?_, ?_, j5, j6⟩
          · rw [j3]
            cases h1 : ds.value_zero with
            | none =>
              rw [first_set_value_cons_set_other false true a rest (by decide)]
            | some z => rfl
          · rw [j4, first_set_value_cons_set_same]
        | some b0 =>
          have hb0 : b0 < n := ho b0 hvo0
          have happ : applyOp ds (.setValueOp a true) = ds.merge a b0 := by
            simp [applyOp, DisjointSet.set_value, hvo0]
          rw [happ]
          obtain ⟨hwf', hlen'⟩ := ds.merge_wf hwf a b0
          obtain ⟨-, hvz, hvo⟩ := merge_fa_eq ds a b0
          obtain ⟨j1, j2, j3, j4, j5, j6⟩ :=
            ih (ds.merge a b0) hbrest hwf' (by omega)
            (fun z h => hz z (hvz ▸ h)) (fun z h => ho z (hvo ▸ h))
          refine ⟨j1, j2, ?_, ?_, j5, j6⟩
          · rw [j3, hvz]
            cases h1 : ds.value_zero with
            | none =>
              rw [first_set_value_cons_set_other false true a rest (by decide)]
            | some z => rfl
          · rw [j4, hvo, hvo0]

theorem applyOps_invariant (n : Nat) (ops : List DSOp)
    (hb : ∀ op ∈ ops, DSOp.bounded n op) :
    WfFa (applyOps ops).fa ∧ (applyOps ops).fa.length ≤ n ∧
    (applyOps ops).value_zero = first_set_value false ops ∧
    (applyOps ops).value_one = first_set_value true ops ∧
    (∀ z, (applyOps ops).value_zero = some z → z < n) ∧
    (∀ z, (applyOps ops).value_one = some z → z < n) := by
  have hempty : WfFa DisjointSet.emptyDS.fa := by
    constructor <;> intro i hi <;> exact absurd hi (by simp [DisjointSet.emptyDS])
  have := foldl_applyOp_invariant n ops DisjointSet.emptyDS hb hempty
    (by simp [DisjointSet.emptyDS])
    (fun z h => by simp [DisjointSet.emptyDS] at h)
    (fun z h => by simp [DisjointSet.emptyDS] at h)
  exact ⟨this.1, this.2.1, this.2.2.1, this.2.2.2.1,
    this.2.2.2.2.1, this.2.2.2.2.2⟩

/-! ### Finalize -/

theorem countRootsLt_succ (fa : List Nat) (j : Nat) :
    countRootsLt fa (j + 1)
      = countRootsLt fa j + (if fa.getD j j = j then 1 else 0) := by
  unfold countRootsLt
  rw [List.range_succ, List.filter_append, List.length_append]
  congr 1
  by_cases h : fa.getD j j = j
  · rw [if_pos h]
    simp only [List.filter_cons, List.filter_nil, decide_eq_true_eq]
    rw [if_pos h]
    rfl
  · rw [if_neg h]
    simp only [List.filter_cons, List.filter_nil, decide_eq_true_eq]
    rw [if_neg h]
    rfl

theorem countRootsLt_le (fa : List Nat) {i j : Nat} (h : i ≤ j) :
    countRootsLt fa i ≤ countRootsLt fa j := by
  induction j with
  | zero => rw [Nat.le_zero.mp h]
  | succ j ih =>
    rcases Nat.lt_or_ge i (j + 1) with h1 | h2
    · have := ih (by omega)
      rw [countRootsLt_succ]
      omega
    · rw [Nat.le_antisymm h h2]

theorem countRootsLt_strict (fa : List Nat) {r j : Nat} (hr : IsRoot fa r)
    (h : r < j) : countRootsLt fa r < countRootsLt fa j := by
  have h1 : countRootsLt fa (r + 1) = countRootsLt fa r + 1 := by
    rw [countRootsLt_succ, if_pos (show fa.getD r r = r from hr)]
  have h2 : countRootsLt fa (r + 1) ≤ countRootsLt fa j :=
    countRootsLt_le fa h
  omega

theorem countRootsLt_inj_on_roots (fa : List Nat) (r1 r2 : Nat)
    (h1 : IsRoot fa r1) (h2 : IsRoot fa r2)
    (heq : countRootsLt fa r1 = countRootsLt fa r2) : r1 = r2 := by
  rcases lt_trichotomy r1 r2 with h | h | h
  · exact absurd heq (Nat.ne_of_lt (countRootsLt_strict fa h1 h))
  · exact h
  · exact absurd heq.symm (Nat.ne_of_lt (countRootsLt_strict fa h2 h))

theorem finalizeFa_of_le (fa : List Nat) (n : Nat) (h : fa.length ≤ n) :
    finalizeFa fa n = fa ++ List.range' fa.length (n - fa.length) := by
  unfold finalizeFa
  rw [List.take_of_length_le h]

theorem finalizeFa_length (fa : List Nat) (n : Nat) (h : fa.length ≤ n) :
    (finalizeFa fa n).length = n := by
  rw [finalizeFa_of_le fa n h]
  simp
  omega

theorem finalizeFa_wf (fa : List Nat) (n : Nat) (hwf : WfFa fa)
    (h : fa.length ≤ n) : WfFa (finalizeFa fa n) := by
  rw [finalizeFa_of_le fa n h]
  exact wf_append_range' fa _ hwf

theorem getD_map_range (n : Nat) (f : Nat → Nat) (i : Nat) (hi : i < n) :
    ((List.range n).map f).getD i 0 = f i := by
  rw [List.getD_eq_getElem _ _ (by simpa using hi)]
  simp

theorem DisjointSet.finalize_eq_both (ds : DisjointSet) (n z o : Nat)
    (hz : ds.value_zero = some z) (ho : ds.value_one = some o) :
    ds.finalize n =
      if (finalize_set_indices (finalizeFa ds.fa n) n).getD z 0
          == (finalize_set_indices (finalizeFa ds.fa n) n).getD o 0 then none
      else some (countRootsLt (finalizeFa ds.fa n) n,
        finalize_set_indices (finalizeFa ds.fa n) n,
        some ((finalize_set_indices (finalizeFa ds.fa n) n).getD z 0),
        some ((finalize_set_indices (finalizeFa ds.fa n) n).getD o 0)) := by
  simp only [DisjointSet.finalize, hz, ho]
  rfl

theorem DisjointSet.finalize_eq_missing (ds : DisjointSet) (n : Nat)
    (h : ds.value_zero = none ∨ ds.value_one = none) :
    ds.finalize n = some (countRootsLt (finalizeFa ds.fa n) n,
      finalize_set_indices (finalizeFa ds.fa n) n,
      ds.value_zero.map
        (fun i => (finalize_set_indices (finalizeFa ds.fa n) n).getD i 0),
      ds.value_one.map
        (fun i => (finalize_set_indices (finalizeFa ds.fa n) n).getD i 0)) := by
  rcases h with h | h
  · simp only [DisjointSet.finalize, h]
    rfl
  · cases hz : ds.value_zero with
    | none =>
      simp only [DisjointSet.finalize, hz, h]
      rfl
    | some z =>
      simp only [DisjointSet.finalize, hz, h]
      rfl

/-- C4: for every `DisjointSet` built by a sequence of `merge` /
`set_value` operations whose indices all lie below `n`, the two
registered representatives are the first indices passed to `set_value`
with each polarity; `finalize n` fails exactly when both polarities
were registered and their representatives have the same root; and on
success the dense set indices identify exactly the nodes with equal
roots, roots receive ids in index order (the id of a root is the number
of smaller roots), `num_sets` counts all roots, and the zero and one
set ids differ whenever both exist. -/
theorem disjoint_set_finalize_spec (ops : List DSOp) (n : Nat)
    (hb : ∀ op ∈ ops, DSOp.bounded n op) :
    (applyOps ops).value_zero = first_set_value false ops
    ∧ (applyOps ops).value_one = first_set_value true ops
    ∧ ((applyOps ops).finalize n = none ↔
        ∃ z o, (applyOps ops).value_zero = some z
          ∧ (applyOps ops).value_one = some o
          ∧ rootOf (finalizeFa (applyOps ops).fa n) z
              = rootOf (finalizeFa (applyOps ops).fa n) o)
    ∧ ∀ num_sets set_indices id_zero id_one,
        (applyOps ops).finalize n = some (num_sets, set_indices, id_zero, id_one) →
        (∀ i, i < n → ∀ j, j < n →
          (set_indices.getD i 0 = set_indices.getD j 0 ↔
            rootOf (finalizeFa (applyOps ops).fa n) i
              = rootOf (finalizeFa (applyOps ops).fa n) j))
        ∧ (∀ r, r < n → IsRoot (finalizeFa (applyOps ops).fa n) r →
            set_indices.getD r 0 = countRootsLt (finalizeFa (applyOps ops).fa n) r)
        ∧ num_sets = countRootsLt (finalizeFa (applyOps ops).fa n) n
        ∧ (∀ a b, id_zero = some a → id_one = some b → a ≠ b) := by
  obtain ⟨hwf, hlen, hvz, hvo, hbz, hbo⟩ := applyOps_invariant n ops hb
  have hwfF : WfFa (finalizeFa (applyOps ops).fa n) :=
    finalizeFa_wf _ n hwf hlen
  have hlenF : (finalizeFa (applyOps ops).fa n).length = n :=
    finalizeFa_length _ n hlen
  have hsi : ∀ i, i < n →
      (finalize_set_indices (finalizeFa (applyOps ops).fa n) n).getD i 0
      = countRootsLt (finalizeFa (applyOps ops).fa n)
          (rootOf (finalizeFa (applyOps ops).fa n) i) := by
    intro i hi
    unfold finalize_set_indices
    rw [getD_map_range n _ i hi]
    by_cases h : (finalizeFa (applyOps ops).fa n).getD i i = i
    · rw [if_pos h, show rootOf (finalizeFa (applyOps ops).fa n) i = i from
        rootAux_of_isRoot _ _ i h]
    · rw [if_neg h]
      rfl
  have hiff : ∀ i, i < n → ∀ j, j < n →
      (countRootsLt (finalizeFa (applyOps ops).fa n)
          (rootOf (finalizeFa (applyOps ops).fa n) i)
        = countRootsLt (finalizeFa (applyOps ops).fa n)
            (rootOf (finalizeFa (applyOps ops).fa n) j) ↔
        rootOf (finalizeFa (applyOps ops).fa n) i
          = rootOf (finalizeFa (applyOps ops).fa n) j) := by
    intro i hi j hj
    constructor
    · intro h
      exact countRootsLt_inj_on_roots _ _ _
        (rootOf_isRoot _ hwfF i (by omega)).1
        (rootOf_isRoot _ hwfF j (by omega)).1 h
    · intro h
      rw [h]
  refine ⟨hvz, hvo, ?_, ?_⟩
  · -- failure characterization
    constructor
    · intro hnone
      cases hz0 : (applyOps ops).value_zero with
      | none =>
        rw [DisjointSet.finalize_eq_missing _ n (Or.inl hz0)] at hnone
        exact absurd hnone (by simp)
      | some z =>
        cases ho0 : (applyOps ops).value_one with
        | none =>
          rw [DisjointSet.finalize_eq_missing _ n (Or.inr ho0)] at hnone
          exact absurd hnone (by simp)
        | some o =>
          rw [DisjointSet.finalize_eq_both _ n z o hz0 ho0] at hnone
          by_cases hbe :
              ((finalize_set_indices (finalizeFa (applyOps ops).fa n) n).getD z 0
              == (finalize_set_indices (finalizeFa (applyOps ops).fa n) n).getD o 0)
              = true
          · have hzlt : z < n := hbz z hz0
            have holt : o < n := hbo o ho0
            have heqidx := beq_iff_eq.mp hbe
            rw [hsi z hzlt, hsi o holt] at heqidx
            exact ⟨z, o, rfl, rfl, (hiff z hzlt o holt).mp heqidx⟩
          · rw [if_neg hbe] at hnone
            exact absurd hnone (by simp)
    · rintro ⟨z, o, hz0, ho0, hroots⟩
      have hzlt : z < n := hbz z hz0
      have holt : o < n := hbo o ho0
      rw [DisjointSet.finalize_eq_both _ n z o hz0 ho0]
      have hbe :
          ((finalize_set_indices (finalizeFa (applyOps ops).fa n) n).getD z 0
          == (finalize_set_indices (finalizeFa (applyOps ops).fa n) n).getD o 0)
          = true := by
        rw [hsi z hzlt, hsi o holt, hroots]
        exact beq_self_eq_true _
      rw [if_pos hbe]
  · -- success characterization
    intro num_sets set_indices id_zero id_one hsome
    have hmain : countRootsLt (finalizeFa (applyOps ops).fa n) n = num_sets
        ∧ finalize_set_indices (finalizeFa (applyOps ops).fa n) n = set_indices
        ∧ (∀ a b, id_zero = some a → id_one = some b → a ≠ b) := by
      cases hz0 : (applyOps ops).value_zero with
      | none =>
        rw [DisjointSet.finalize_eq_missing _ n (Or.inl hz0), hz0] at hsome
        simp only [Option.map_none, Option.some.injEq, Prod.mk.injEq] at hsome
        obtain ⟨h1, h2, h3, h4⟩ := hsome
        exact ⟨h1, h2, fun a b hza hob => absurd (h3 ▸ hza) (by simp)⟩
      | some z =>
        cases ho0 : (applyOps ops).value_one with
        | none =>
          rw [DisjointSet.finalize_eq_missing _ n (Or.inr ho0), ho0] at hsome
          simp only [Option.map_none, Option.some.injEq, Prod.mk.injEq] at hsome
          obtain ⟨h1, h2, h3, h4⟩ := hsome
          exact ⟨h1, h2, fun a b hza hob => absurd (h4 ▸ hob) (by simp)⟩
        | some o =>
          rw [DisjointSet.finalize_eq_both _ n z o hz0 ho0] at hsome
          by_cases hbe :
              ((finalize_set_indices (finalizeFa (applyOps ops).fa n) n).getD z 0
              == (finalize_set_indices (finalizeFa (applyOps ops).fa n) n).getD o 0)
              = true
          · rw [if_pos hbe] at hsome
            exact absurd hsome (by simp)
          · rw [if_neg hbe] at hsome
            simp only [Option.some.injEq, Prod.mk.injEq] at hsome
            obtain ⟨h1, h2, h3, h4⟩ := hsome
            refine ⟨h1, h2, fun a b hza hob hab => hbe ?_⟩
            have hza' : a = (finalize_set_indices
                (finalizeFa (applyOps ops).fa n) n).getD z 0 := by
              rw [← h3] at hza
              exact (Option.some.inj hza).symm
            have hob' : b = (finalize_set_indices
                (finalizeFa (applyOps ops).fa n) n).getD o 0 := by
              rw [← h4] at hob
              exact (Option.some.inj hob).symm
            rw [← hza', ← hob', hab]
            exact beq_self_eq_true _
    obtain ⟨h1, h2, h3⟩ := hmain
    refine ⟨?_, ?_, h1.symm, h3⟩
    · intro i hi j hj
      rw [← h2, hsi i hi, hsi j hj]
      exact hiff i hi j hj
    · intro r hr hroot
      rw [← h2, hsi r hr,
        show rootOf (finalizeFa (applyOps ops).fa n) r = r from
          rootAux_of_isRoot _ _ r hroot]

/-- A concrete operation sequence on three nodes: union 0 with 1, tie
node 0 to constant zero and node 2 to constant one. -/
def dsSpecOps : List DSOp :=
  [DSOp.mergeOp 0 1, DSOp.setValueOp 0 false, DSOp.setValueOp 2 true]

/-- Witness for C4: the finalize specification instantiated at the
concrete operation list `dsSpecOps` with `n = 3`. -/
theorem disjoint_set_finalize_spec_witness :
    (∀ op ∈ dsSpecOps, DSOp.bounded 3 op) ∧
    ((applyOps dsSpecOps).value_zero = first_set_value false dsSpecOps
    ∧ (applyOps dsSpecOps).value_one = first_set_value true dsSpecOps
    ∧ ((applyOps dsSpecOps).finalize 3 = none ↔
        ∃ z o, (applyOps dsSpecOps).value_zero = some z
          ∧ (applyOps dsSpecOps).value_one = some o
          ∧ rootOf (finalizeFa (applyOps dsSpecOps).fa 3) z
              = rootOf (finalizeFa (applyOps dsSpecOps).fa 3) o)
    ∧ ∀ num_sets set_indices id_zero id_one,
        (applyOps dsSpecOps).finalize 3
            = some (num_sets, set_indices, id_zero, id_one) →
        (∀ i, i < 3 → ∀ j, j < 3 →
          (set_indices.getD i 0 = set_indices.getD j 0 ↔
            rootOf (finalizeFa (applyOps dsSpecOps).fa 3) i
              = rootOf (finalizeFa (applyOps dsSpecOps).fa 3) j))
        ∧ (∀ r, r < 3 → IsRoot (finalizeFa (applyOps dsSpecOps).fa 3) r →
            set_indices.getD r 0
              = countRootsLt (finalizeFa (applyOps dsSpecOps).fa 3) r)
        ∧ num_sets = countRootsLt (finalizeFa (applyOps dsSpecOps).fa 3) 3
        ∧ (∀ a b, id_zero = some a → id_one = some b → a ≠ b)) :=
  ⟨by decide, disjoint_set_finalize_spec dsSpecOps 3 (by decide)⟩

/-! ### Merging unites the two classes -/

/-- After `merge a b`, `a` and `b` reach the same root: `merge` links
the root of `a` onto the root of `b`, so both parent chains now end at
the root of `b`. -/
theorem merge_root_eq (ds : DisjointSet) (hwf : WfFa ds.fa) (a b : Nat) :
    rootOf (ds.merge a b).fa a = rootOf (ds.merge a b).fa b := by
  classical
  obtain ⟨hfa, -, -⟩ := merge_fa_eq ds a b
  obtain ⟨hwf3, -⟩ := DisjointSet.merge_wf ds hwf a b
  rw [hfa] at hwf3 ⊢
  have hwf1 : WfFa (extendTo ds.fa a) := wf_append_range' ds.fa _ hwf
  have hwf2 : WfFa (extendTo (extendTo ds.fa a) b) :=
    wf_append_range' (extendTo ds.fa a) _ hwf1
  have hl1 := extendTo_length ds.fa a
  have hl2 := extendTo_length (extendTo ds.fa a) b
  have ha1 : a < (extendTo ds.fa a).length := by omega
  have ha2 : a < (extendTo (extendTo ds.fa a) b).length := by omega
  have hb2 : b < (extendTo (extendTo ds.fa a) b).length := by omega
  have hra_lt : rootOf (extendTo ds.fa a) a < (extendTo ds.fa a).length :=
    rootOf_lt _ hwf1 a ha1
  have hra_lt2 : rootOf (extendTo ds.fa a) a
      < (extendTo (extendTo ds.fa a) b).length := by omega
  obtain ⟨hra_root1, ma, hma⟩ := rootOf_isRoot _ hwf1 a ha1
  have hra_root2 : IsRoot (extendTo (extendTo ds.fa a) b)
      (rootOf (extendTo ds.fa a) a) := by
    show parentF ((extendTo ds.fa a)
      ++ List.range' (extendTo ds.fa a).length
          (b + 1 - (extendTo ds.fa a).length)) _ = _
    rw [parentF_append_lt _ _ _ hra_lt]
    exact hra_root1
  obtain ⟨hrb_root2, mb, hmb⟩ := rootOf_isRoot _ hwf2 b hb2
  have hcong : ∀ k, (parentF (extendTo (extendTo ds.fa a) b))^[k] a
      = (parentF (extendTo ds.fa a))^[k] a :=
    iterate_parentF_congr (extendTo ds.fa a) (extendTo (extendTo ds.fa a) b)
      (extendTo ds.fa a).length hwf1.bounded
      (fun i hi => parentF_append_lt _ _ i hi) a ha1
  have hroota2 : rootOf (extendTo (extendTo ds.fa a) b) a
      = rootOf (extendTo ds.fa a) a := by
    have hr : IsRoot (extendTo (extendTo ds.fa a) b)
        ((parentF (extendTo (extendTo ds.fa a) b))^[ma] a) := by
      rw [hcong ma, ← hma]
      exact hra_root2
    rw [rootOf_eq_iterate_root _ hwf2 a ha2 ma hr, hcong ma, ← hma]
  have hlen3 : ((extendTo (extendTo ds.fa a) b).set
      (rootOf (extendTo ds.fa a) a)
      (rootOf (extendTo (extendTo ds.fa a) b) b)).length
      = (extendTo (extendTo ds.fa a) b).length := List.length_set _ _ _
  have hrb_root3 : IsRoot ((extendTo (extendTo ds.fa a) b).set
      (rootOf (extendTo ds.fa a) a)
      (rootOf (extendTo (extendTo ds.fa a) b) b))
      (rootOf (extendTo (extendTo ds.fa a) b) b) := by
    by_cases h : rootOf (extendTo (extendTo ds.fa a) b) b
        = rootOf (extendTo ds.fa a) a
    · rw [h]
      exact parentF_set_self _ _ _ hra_lt2
    · show parentF _ _ = _
      rw [parentF_set_other _ _ _ _ h]
      exact hrb_root2
  have hex_b : ∃ k, IsRoot (extendTo (extendTo ds.fa a) b)
      ((parentF (extendTo (extendTo ds.fa a) b))^[k] b) := hwf2.reaches b hb2
  have hkb_root := Nat.find_spec hex_b
  have hkb_min : ∀ j, j < Nat.find hex_b →
      ¬ IsRoot (extendTo (extendTo ds.fa a) b)
        ((parentF (extendTo (extendTo ds.fa a) b))^[j] b) :=
    fun j hj => Nat.find_min hex_b hj
  have hkb_eq : (parentF (extendTo (extendTo ds.fa a) b))^[Nat.find hex_b] b
      = rootOf (extendTo (extendTo ds.fa a) b) b :=
    (rootOf_eq_iterate_root _ hwf2 b hb2 _ hkb_root).symm
  have hchain_b := set_chain_eq (extendTo (extendTo ds.fa a) b)
    (rootOf (extendTo ds.fa a) a)
    (rootOf (extendTo (extendTo ds.fa a) b) b)
    b (Nat.find hex_b) hra_root2 hkb_min
  have hstep_b : (parentF ((extendTo (extendTo ds.fa a) b).set
      (rootOf (extendTo ds.fa a) a)
      (rootOf (extendTo (extendTo ds.fa a) b) b)))^[Nat.find hex_b] b
      = rootOf (extendTo (extendTo ds.fa a) b) b := by
    rw [hchain_b _ (le_refl _), hkb_eq]
  have hrootb3 : rootOf ((extendTo (extendTo ds.fa a) b).set
      (rootOf (extendTo ds.fa a) a)
      (rootOf (extendTo (extendTo ds.fa a) b) b)) b
      = rootOf (extendTo (extendTo ds.fa a) b) b := by
    rw [rootOf_eq_iterate_root _ hwf3 b (by omega) _
        (by rw [hstep_b]; exact hrb_root3),
      hstep_b]
  have hex_a : ∃ k, IsRoot (extendTo (extendTo ds.fa a) b)
      ((parentF (extendTo (extendTo ds.fa a) b))^[k] a) := hwf2.reaches a ha2
  have hka_root := Nat.find_spec hex_a
  have hka_min : ∀ j, j < Nat.find hex_a →
      ¬ IsRoot (extendTo (extendTo ds.fa a) b)
        ((parentF (extendTo (extendTo ds.fa a) b))^[j] a) :=
    fun j hj => Nat.find_min hex_a hj
  have hka_eq : (parentF (extendTo (extendTo ds.fa a) b))^[Nat.find hex_a] a
      = rootOf (extendTo ds.fa a) a := by
    rw [← hroota2]
    exact (rootOf_eq_iterate_root _ hwf2 a ha2 _ hka_root).symm
  have hchain_a := set_chain_eq (extendTo (extendTo ds.fa a) b)
    (rootOf (extendTo ds.fa a) a)
    (rootOf (extendTo (extendTo ds.fa a) b) b)
    a (Nat.find hex_a) hra_root2 hka_min
  have hstep_a : (parentF ((extendTo (extendTo ds.fa a) b).set
      (rootOf (extendTo ds.fa a) a)
      (rootOf (extendTo (extendTo ds.fa a) b) b)))^[Nat.find hex_a + 1] a
      = rootOf (extendTo (extendTo ds.fa a) b) b := by
    rw [Function.iterate_succ_apply', hchain_a _ (le_refl _), hka_eq,
      parentF_set_self _ _ _ hra_lt2]
  have hroota3 : rootOf ((extendTo (extendTo ds.fa a) b).set
      (rootOf (extendTo ds.fa a) a)
      (rootOf (extendTo (extendTo ds.fa a) b) b)) a
      = rootOf (extendTo (extendTo ds.fa a) b) b := by
    rw [rootOf_eq_iterate_root _ hwf3 a (by omega) _
        (by rw [hstep_a]; exact hrb_root3),
      hstep_a]
  rw [hroota3, hrootb3]

/-! ## `pin_assign_literal` (`netlistdb/src/builder.rs` lines 191-207) -/

/-- `pin_assign_literal` from `build_modules`: tie logic pin `l` to a
constant expression bit `c` (`0, 1, x, z` encoded as `0, 1, 2, 3`).
The `x` arm logs a warning and performs the same zero tie instead of
returning `None`; the `z` arm does nothing; other codes are
`unreachable!()` (modeled as `none`), and the builder indeed only ever
passes codes below 4. -/
def pin_assign_literal (net_sets : DisjointSet) (l : Nat) (c : Nat) :
    Option DisjointSet :=
  match c with
  | 0 => some (net_sets.set_value l false)
  | 1 => some (net_sets.set_value l true)
  | 2 => some (net_sets.set_value l false)
  | 3 => some net_sets
  | _ => none

/-- C8: connecting a constant expression bit to logic pin `l` during
the build: value `0` (and value `x`, code 2, after a warning — the
build continues rather than failing) ties the pin into the
constant-zero class, registering the pin as the zero representative
when none exists yet and otherwise uniting the pin's class with the
representative's class; value `1` does the same with the constant-one
class; value `z` (code 3) performs no tie and no union at all. -/
theorem pin_assign_literal_spec (ds : DisjointSet) (hwf : WfFa ds.fa) (l : Nat) :
    (∀ c, c = 0 ∨ c = 2 →
      ∃ ds2, pin_assign_literal ds l c = some ds2
        ∧ ds2.value_one = ds.value_one
        ∧ ((ds.value_zero = none ∧ ds2.value_zero = some l ∧ ds2.fa = ds.fa)
          ∨ (∃ b, ds.value_zero = some b ∧ ds2.value_zero = some b
              ∧ rootOf ds2.fa l = rootOf ds2.fa b)))
    ∧ (∃ ds2, pin_assign_literal ds l 1 = some ds2
        ∧ ds2.value_zero = ds.value_zero
        ∧ ((ds.value_one = none ∧ ds2.value_one = some l ∧ ds2.fa = ds.fa)
          ∨ (∃ b, ds.value_one = some b ∧ ds2.value_one = some b
              ∧ rootOf ds2.fa l = rootOf ds2.fa b)))
    ∧ pin_assign_literal ds l 3 = some ds := by
  refine ⟨?_, ?_, rfl⟩
  · intro c hc
    have hpc : pin_assign_literal ds l c = some (ds.set_value l false) := by
      rcases hc with rfl | rfl <;> rfl
    cases hz : ds.value_zero with
    | none =>
      have hsv : ds.set_value l false = { ds with value_zero := some l } := by
        unfold DisjointSet.set_value
        rw [hz]
      exact ⟨ds.set_value l false, hpc, by rw [hsv],
        Or.inl ⟨rfl, by rw [hsv], by rw [hsv]⟩⟩
    | some b0 =>
      have hsv : ds.set_value l false = ds.merge l b0 := by
        unfold DisjointSet.set_value
        rw [hz]
      refine ⟨ds.set_value l false, hpc,
        by rw [hsv]; exact (merge_fa_eq ds l b0).2.2,
        Or.inr ⟨b0, rfl, ?_, ?_⟩⟩
      · rw [hsv, (merge_fa_eq ds l b0).2.1, hz]
      · rw [hsv]
        exact merge_root_eq ds hwf l b0
  · cases ho : ds.value_one with
    | none =>
      have hsv : ds.set_value l true = { ds with value_one := some l } := by
        unfold DisjointSet.set_value
        rw [ho]
      exact ⟨ds.set_value l true, rfl, by rw [hsv],
        Or.inl ⟨rfl, by rw [hsv], by rw [hsv]⟩⟩
    | some b0 =>
      have hsv : ds.set_value l true = ds.merge l b0 := by
        unfold DisjointSet.set_value
        rw [ho]
      refine ⟨ds.set_value l true, rfl,
        by rw [hsv]; exact (merge_fa_eq ds l b0).2.1,
        Or.inr ⟨b0, rfl, ?_, ?_⟩⟩
      · rw [hsv, (merge_fa_eq ds l b0).2.2, ho]
      · rw [hsv]
        exact merge_root_eq ds hwf l b0

/-- The small state used for the C8 witness: parent forest `[0, 0]`
(node 1 points at root 0) with node 0 already tied to zero. -/
def dsC8 : DisjointSet := ⟨[0, 0], some 0, none⟩

theorem dsC8_wf : WfFa dsC8.fa := by
  constructor
  · intro i hi
    simp only [dsC8, List.length_cons, List.length_nil] at hi ⊢
    interval_cases i <;> decide
  · intro i hi
    simp only [dsC8, List.length_cons, List.length_nil] at hi
    refine ⟨1, ?_⟩
    interval_cases i <;> rfl

/-- Witness for C8 at the concrete state `dsC8` and pin 1. -/
theorem pin_assign_literal_spec_witness :
    WfFa dsC8.fa ∧
    ((∀ c, c = 0 ∨ c = 2 →
      ∃ ds2, pin_assign_literal dsC8 1 c = some ds2
        ∧ ds2.value_one = dsC8.value_one
        ∧ ((dsC8.value_zero = none ∧ ds2.value_zero = some 1 ∧ ds2.fa = dsC8.fa)
          ∨ (∃ b, dsC8.value_zero = some b ∧ ds2.value_zero = some b
              ∧ rootOf ds2.fa 1 = rootOf ds2.fa b)))
    ∧ (∃ ds2, pin_assign_literal dsC8 1 1 = some ds2
        ∧ ds2.value_zero = dsC8.value_zero
        ∧ ((dsC8.value_one = none ∧ ds2.value_one = some 1 ∧ ds2.fa = dsC8.fa)
          ∨ (∃ b, dsC8.value_one = some b ∧ ds2.value_one = some b
              ∧ rootOf ds2.fa 1 = rootOf ds2.fa b)))
    ∧ pin_assign_literal dsC8 1 3 = some dsC8) :=
  ⟨dsC8_wf, pin_assign_literal_spec dsC8 dsC8_wf 1⟩

/-! ## CSR construction (`netlistdb/src/csr.rs`) -/

/-- `VecCSR` from `csr.rs`: flattened set start offsets plus the
flattened item list. -/
structure VecCSR where
  start : List Nat
  items : List Nat
deriving Repr, DecidableEq

/-- The counting loop of `VecCSR::from` (`for s in inset { start[*s] += 1 }`).
An out-of-range entry panics in Rust; the model's `List.set` ignores it,
and the C3 theorem only speaks of in-range inputs. -/
def csr_count (num_sets : Nat) (inset : List Nat) : List Nat :=
  inset.foldl (fun st s => st.set s (st.getD s 0 + 1))
    (List.replicate (num_sets + 1) 0)

/-- The prefix-sum loop of `VecCSR::from`
(`for i in 1..num_sets+1 { start[i] += start[i-1] }`). -/
def csr_pref (num_sets : Nat) (count : List Nat) : List Nat :=
  (List.range' 1 num_sets).foldl
    (fun st i => st.set i (st.getD i 0 + st.getD (i - 1) 0)) count

/-- The reverse placement walk of `VecCSR::from`
(`for i in (0..num_items).rev() { ... }`): `csr_walk inset i p`
processes indices `i-1, i-2, ..., 0` starting from state `p`
(start array, items array). -/
def csr_walk (inset : List Nat) : Nat → List Nat × List Nat → List Nat × List Nat
  | 0, p => p
  | i + 1, p =>
    let s := inset.getD i 0
    let pos := p.1.getD s 0 - 1
    csr_walk inset i (p.1.set s pos, p.2.set pos i)

/-- `VecCSR::from` (the name `from` is reserved in Lean): counting sort
with the two `assert_eq!` guards modeled as `none`. -/
def VecCSR.build (num_sets num_items : Nat) (inset : List Nat) : Option VecCSR :=
  if inset.length ≠ num_items then none
  else
    let count := csr_count num_sets inset
    let st := csr_pref num_sets count
    if st.getD num_sets 0 ≠ num_items then none
    else
      let p := csr_walk inset num_items (st, List.replicate num_items 0)
      some ⟨p.1, p.2⟩

theorem getD_set_self {α : Type} (xs : List α) (p : Nat) (v d : α)
    (h : p < xs.length) : (xs.set p v).getD p d = v := by
  rw [List.getD_eq_getElem?_getD, List.getElem?_set, if_pos rfl, if_pos h]
  rfl

theorem getD_set_other {α : Type} (xs : List α) (p q : Nat) (v d : α)
    (h : q ≠ p) : (xs.set p v).getD q d = xs.getD q d := by
  rw [List.getD_eq_getElem?_getD, List.getElem?_set,
    if_neg (fun hh => h hh.symm), ← List.getD_eq_getElem?_getD]

theorem getD_replicate_zero (n i : Nat) :
    (List.replicate n (0 : Nat)).getD i 0 = 0 := by
  rw [List.getD_eq_getElem?_getD]
  rcases lt_or_le i n with h | h
  · rw [List.getElem?_eq_getElem (by simpa using h)]
    simp
  · rw [List.getElem?_eq_none (by simpa using h)]
    rfl

theorem slice_set_outside {α : Type} (xs : List α) (p o len : Nat) (v : α)
    (h : p < o ∨ o + len ≤ p) :
    ((xs.set p v).drop o).take len = (xs.drop o).take len := by
  apply List.ext_getElem?
  intro n
  rw [List.getElem?_take, List.getElem?_take]
  by_cases hn : n < len
  · rw [if_pos hn, if_pos hn, List.getElem?_drop, List.getElem?_drop,
      List.getElem?_set, if_neg (by omega)]
  · rw [if_neg hn, if_neg hn]

/-- Number of items in sets below `s`: the value `start[s]` ends up at
after the reverse walk has decremented it back down. -/
def csrStartF (inset : List Nat) (s : Nat) : Nat :=
  ∑ j ∈ Finset.range s, inset.count j

theorem csrStartF_succ (inset : List Nat) (s : Nat) :
    csrStartF inset (s + 1) = csrStartF inset s + inset.count s :=
  Finset.sum_range_succ _ s

theorem csrStartF_mono (inset : List Nat) {a b : Nat} (h : a ≤ b) :
    csrStartF inset a ≤ csrStartF inset b :=
  Finset.sum_le_sum_of_subset (Finset.range_subset.mpr h)

theorem csrStartF_total (inset : List Nat) (K : Nat)
    (hbound : ∀ x ∈ inset, x < K) :
    csrStartF inset K = inset.length := by
  induction inset with
  | nil => simp [csrStartF]
  | cons x rest ih =>
    have hx : x < K := hbound x (by simp)
    have hrest : ∀ y ∈ rest, y < K := fun y hy => hbound y (by simp [hy])
    have hone : (∑ j ∈ Finset.range K, if x = j then 1 else 0) = 1 := by
      rw [Finset.sum_ite_eq (Finset.range K) x (fun _ => 1)]
      simp [hx]
    unfold csrStartF at ih ⊢
    simp only [List.count_cons, beq_iff_eq]
    rw [Finset.sum_add_distrib, ih hrest, hone, List.length_cons]

theorem csr_count_fold_spec :
    ∀ (l st : List Nat), (∀ x ∈ l, x < st.length) →
    (l.foldl (fun st s => st.set s (st.getD s 0 + 1)) st).length = st.length
    ∧ ∀ s, (l.foldl (fun st s => st.set s (st.getD s 0 + 1)) st).getD s 0
        = st.getD s 0 + l.count s := by
  intro l
  induction l with
  | nil =>
    intro st h
    exact ⟨rfl, fun s => by simp⟩
  | cons x rest ih =>
    intro st h
    have hx : x < st.length := h x (by simp)
    have hrest : ∀ y ∈ rest, y < (st.set x (st.getD x 0 + 1)).length := by
      intro y hy
      rw [List.length_set]
      exact h y (by simp [hy])
    obtain ⟨ihl, ihd⟩ := ih (st.set x (st.getD x 0 + 1)) hrest
    constructor
    · simp only [List.foldl_cons]
      rw [ihl, List.length_set]
    · intro s
      simp only [List.foldl_cons]
      rw [ihd s]
      by_cases hs : s = x
      · subst hs
        rw [getD_set_self st _ _ 0 hx]
        simp [List.count_cons]
        omega
      · have hsx : x ≠ s := fun hh => hs hh.symm
        rw [getD_set_other st x s _ 0 hs]
        simp [List.count_cons, hsx]

theorem csr_count_spec (num_sets : Nat) (inset : List Nat)
    (hbound : ∀ x ∈ inset, x < num_sets) :
    (csr_count num_sets inset).length = num_sets + 1
    ∧ ∀ s, (csr_count num_sets inset).getD s 0 = inset.count s := by
  have h := csr_count_fold_spec inset (List.replicate (num_sets + 1) 0)
    (fun x hx => by
      rw [List.length_replicate]
      exact lt_of_lt_of_le (hbound x hx) (by omega))
  constructor
  · unfold csr_count
    rw [h.1, List.length_replicate]
  · intro s
    unfold csr_count
    rw [h.2 s, getD_replicate_zero]
    omega

theorem csr_pref_fold_spec (count : List Nat) (K : Nat)
    (hlen : count.length = K + 1) :
    ∀ m, m ≤ K →
    ((List.range' 1 m).foldl
        (fun st i => st.set i (st.getD i 0 + st.getD (i - 1) 0)) count).length
      = K + 1
    ∧ (∀ i, i ≤ m →
        ((List.range' 1 m).foldl
          (fun st i => st.set i (st.getD i 0 + st.getD (i - 1) 0)) count).getD i 0
        = ∑ j ∈ Finset.range (i + 1), count.getD j 0)
    ∧ (∀ i, m < i →
        ((List.range' 1 m).foldl
          (fun st i => st.set i (st.getD i 0 + st.getD (i - 1) 0)) count).getD i 0
        = count.getD i 0) := by
  intro m
  induction m with
  | zero =>
    intro _
    refine ⟨hlen, fun i hi => ?_, fun i hi => rfl⟩
    interval_cases i
    simp
  | succ m ih =>
    intro hm
    obtain ⟨ihl, ihle, ihgt⟩ := ih (by omega)
    have hconcat : List.range' 1 (m + 1) = List.range' 1 m ++ [m + 1] := by
      rw [List.range'_concat]
      congr 1
      simp [Nat.add_comm]
    have hstep : (List.range' 1 (m + 1)).foldl
        (fun st i => st.set i (st.getD i 0 + st.getD (i - 1) 0)) count
        = ((List.range' 1 m).foldl
            (fun st i => st.set i (st.getD i 0 + st.getD (i - 1) 0)) count).set
          (m + 1)
          (((List.range' 1 m).foldl
            (fun st i => st.set i (st.getD i 0 + st.getD (i - 1) 0)) count).getD
              (m + 1) 0
           + ((List.range' 1 m).foldl
            (fun st i => st.set i (st.getD i 0 + st.getD (i - 1) 0)) count).getD
              (m + 1 - 1) 0) := by
      rw [hconcat, List.foldl_append]
      rfl
    have hm1lt : m + 1 < K + 1 := by omega
    have hprevlt : m + 1 < ((List.range' 1 m).foldl
        (fun st i => st.set i (st.getD i 0 + st.getD (i - 1) 0)) count).length := by
      rw [ihl]
      exact hm1lt
    have hval : ((List.range' 1 m).foldl
          (fun st i => st.set i (st.getD i 0 + st.getD (i - 1) 0)) count).getD
            (m + 1) 0
        + ((List.range' 1 m).foldl
          (fun st i => st.set i (st.getD i 0 + st.getD (i - 1) 0)) count).getD
            (m + 1 - 1) 0
        = ∑ j ∈ Finset.range (m + 2), count.getD j 0 := by
      rw [show m + 1 - 1 = m from rfl, ihgt (m + 1) (by omega),
        ihle m (le_refl _), Finset.sum_range_succ _ (m + 1)]
      omega
    refine ⟨?_, fun i hi => ?_, fun i hi => ?_⟩
    · rw [hstep, List.length_set, ihl]
    · rw [hstep]
      by_cases hieq : i = m + 1
      · subst hieq
        rw [getD_set_self _ _ _ 0 hprevlt, hval]
      · rw [getD_set_other _ _ _ _ 0 hieq]
        exact ihle i (by omega)
    · rw [hstep, getD_set_other _ _ _ _ 0 (by omega)]
      exact ihgt i (by omega)

theorem csr_pref_eq_startF (num_sets : Nat) (inset : List Nat)
    (hbound : ∀ x ∈ inset, x < num_sets) :
    (csr_pref num_sets (csr_count num_sets inset)).length = num_sets + 1
    ∧ ∀ s, s ≤ num_sets →
      (csr_pref num_sets (csr_count num_sets inset)).getD s 0
        = csrStartF inset (s + 1) := by
  obtain ⟨hcl, hcd⟩ := csr_count_spec num_sets inset hbound
  obtain ⟨hpl, hple, -⟩ :=
    csr_pref_fold_spec (csr_count num_sets inset) num_sets hcl num_sets
      (le_refl _)
  refine ⟨hpl, fun s hs => ?_⟩
  unfold csr_pref
  rw [hple s hs]
  unfold csrStartF
  exact Finset.sum_congr rfl (fun j _ => hcd j)

/-- The indices in the window `[i, inset.length)` whose set is `s`, in
increasing order: the part of set `s`'s bucket already placed after the
reverse walk has processed down to index `i`. -/
def csrWin (inset : List Nat) (i s : Nat) : List Nat :=
  (List.range' i (inset.length - i)).filter (fun j => inset.getD j 0 = s)

theorem range'_window_cons (i N : Nat) (h : i < N) :
    List.range' i (N - i) = i :: List.range' (i + 1) (N - (i + 1)) := by
  rw [show N - i = (N - (i + 1)) + 1 by omega, List.range'_succ]

theorem csrWin_cons (inset : List Nat) (s i : Nat) (h : i < inset.length) :
    csrWin inset i s
      = if inset.getD i 0 = s then i :: csrWin inset (i + 1) s
        else csrWin inset (i + 1) s := by
  unfold csrWin
  rw [range'_window_cons i inset.length h, List.filter_cons]
  by_cases hc : inset.getD i 0 = s
  · rw [if_pos (by simpa using hc), if_pos hc]
  · rw [if_neg (by simpa using hc), if_neg hc]

theorem csrWin_last (inset : List Nat) (s : Nat) :
    csrWin inset inset.length s = [] := by
  unfold csrWin
  simp

theorem count_eq_filter_window (full : List Nat) (s : Nat) :
    ∀ (l : List Nat) (i : Nat),
      (∀ k, k < l.length → full.getD (i + k) 0 = l.getD k 0) →
      ((List.range' i l.length).filter
        (fun j => full.getD j 0 = s)).length = l.count s := by
  intro l
  induction l with
  | nil =>
    intro i h
    simp
  | cons x rest ih =>
    intro i h
    have h0 : full.getD i 0 = x := by simpa using h 0 (by simp)
    have hshift : ∀ k, k < rest.length →
        full.getD (i + 1 + k) 0 = rest.getD k 0 := by
      intro k hk
      have hh := h (k + 1) (by simp; omega)
      rw [show i + (k + 1) = i + 1 + k by omega] at hh
      simpa using hh
    rw [show (x :: rest).length = rest.length + 1 from rfl, List.range'_succ,
      List.filter_cons]
    by_cases hx : x = s
    · rw [if_pos (by rw [h0, hx]; simp), List.length_cons, ih (i + 1) hshift,
        List.count_cons]
      simp [hx]
    · rw [if_neg (by rw [h0]; simp [hx]), ih (i + 1) hshift, List.count_cons]
      simp [hx]

theorem csrWin_zero_length (inset : List Nat) (s : Nat) :
    (csrWin inset 0 s).length = inset.count s := by
  unfold csrWin
  rw [Nat.sub_zero]
  exact count_eq_filter_window inset s inset 0 (fun k hk => by simp)

theorem csrWin_le_count (inset : List Nat) (s i : Nat) :
    (csrWin inset i s).length ≤ inset.count s := by
  rcases le_or_lt i inset.length with h | h
  · have hsplit : List.range' 0 i ++ List.range' i (inset.length - i)
        = List.range' 0 inset.length := by
      have h2 := List.range'_append 0 i (inset.length - i) 1
      simp only [Nat.one_mul, Nat.zero_add] at h2
      rw [show inset.length - i + i = inset.length by omega] at h2
      exact h2
    have hfull : (csrWin inset 0 s).length
        = ((List.range' 0 i).filter (fun j => inset.getD j 0 = s)).length
          + (csrWin inset i s).length := by
      unfold csrWin
      rw [Nat.sub_zero, ← hsplit, List.filter_append, List.length_append]
    have := csrWin_zero_length inset s
    omega
  · unfold csrWin
    rw [Nat.sub_eq_zero_of_le (le_of_lt h)]
    simp

theorem csrWin_le_startF (inset : List Nat) (s i : Nat) :
    (csrWin inset i s).length ≤ csrStartF inset (s + 1) := by
  have h1 := csrWin_le_count inset s i
  have h2 := csrStartF_succ inset s
  omega

/-- Correctness invariant of the reverse placement walk: if on entry
the start array holds each set's prefix total minus the members
already placed from the window `[i, N)`, and the already-placed
members sit contiguously just below each set's prefix total, the same
holds at the end for the full window `[0, N)`. -/
theorem csr_walk_invariant (inset : List Nat) (K : Nat)
    (hbound : ∀ x ∈ inset, x < K) :
    ∀ (i : Nat) (st its : List Nat), i ≤ inset.length →
    st.length = K + 1 → its.length = inset.length →
    (∀ s, s ≤ K → st.getD s 0
        = csrStartF inset (s + 1) - (csrWin inset i s).length) →
    (∀ s, s < K →
        ((its.drop (csrStartF inset (s + 1) - (csrWin inset i s).length)).take
          (csrWin inset i s).length) = csrWin inset i s) →
    (csr_walk inset i (st, its)).1.length = K + 1
    ∧ (csr_walk inset i (st, its)).2.length = inset.length
    ∧ (∀ s, s ≤ K → (csr_walk inset i (st, its)).1.getD s 0
        = csrStartF inset (s + 1) - (csrWin inset 0 s).length)
    ∧ (∀ s, s < K →
        (((csr_walk inset i (st, its)).2.drop
            (csrStartF inset (s + 1) - (csrWin inset 0 s).length)).take
          (csrWin inset 0 s).length) = csrWin inset 0 s) := by
  intro i
  induction i with
  | zero =>
    intro st its hi hstl hitl hst hsl
    exact ⟨hstl, hitl, hst, hsl⟩
  | succ i ih =>
    intro st its hi hstl hitl hst hsl
    have hiN : i < inset.length := by omega
    have hmem : inset.getD i 0 ∈ inset := by
      rw [List.getD_eq_getElem _ _ (by simpa using hiN)]
      exact List.getElem_mem _
    have hsK : inset.getD i 0 < K := hbound _ hmem
    have hwin_star : csrWin inset i (inset.getD i 0)
        = i :: csrWin inset (i + 1) (inset.getD i 0) := by
      rw [csrWin_cons inset _ i hiN, if_pos rfl]
    have hwin_other : ∀ s, s ≠ inset.getD i 0 →
        csrWin inset i s = csrWin inset (i + 1) s := by
      intro s hs
      rw [csrWin_cons inset s i hiN, if_neg (fun hh => hs hh.symm)]
    have htot : csrStartF inset K = inset.length :=
      csrStartF_total inset K hbound
    have hW0len : (csrWin inset i (inset.getD i 0)).length
        = (csrWin inset (i + 1) (inset.getD i 0)).length + 1 := by
      rw [hwin_star, List.length_cons]
    have hW0le : (csrWin inset i (inset.getD i 0)).length
        ≤ csrStartF inset (inset.getD i 0 + 1) := csrWin_le_startF _ _ _
    have hpos : st.getD (inset.getD i 0) 0 - 1
        = csrStartF inset (inset.getD i 0 + 1)
          - (csrWin inset i (inset.getD i 0)).length := by
      rw [hst _ (le_of_lt hsK)]
      omega
    have hposlt : st.getD (inset.getD i 0) 0 - 1 < inset.length := by
      have h1 : csrStartF inset (inset.getD i 0 + 1) ≤ csrStartF inset K :=
        csrStartF_mono inset (by omega)
      rw [hpos]
      omega
    have hwalk : csr_walk inset (i + 1) (st, its)
        = csr_walk inset i
            (st.set (inset.getD i 0) (st.getD (inset.getD i 0) 0 - 1),
             its.set (st.getD (inset.getD i 0) 0 - 1) i) := rfl
    rw [hwalk]
    apply ih
    · omega
    · rw [List.length_set, hstl]
    · rw [List.length_set, hitl]
    · intro s hsle
      by_cases hcase : s = inset.getD i 0
      · subst hcase
        rw [getD_set_self _ _ _ 0 (by rw [hstl]; omega), hpos]
      · rw [getD_set_other _ _ _ _ 0 hcase, hst s hsle, hwin_other s hcase]
    · intro s hslt
      by_cases hcase : s = inset.getD i 0
      · subst hcase
        have hpos1 : st.getD (inset.getD i 0) 0 - 1 + 1
            = csrStartF inset (inset.getD i 0 + 1)
              - (csrWin inset (i + 1) (inset.getD i 0)).length := by
          rw [hpos]
          omega
        rw [← hpos]
        rw [drop_set_eq_cons its _ i (by rw [hitl]; exact hposlt)]
        rw [hpos1, hwin_star, List.length_cons, List.take_succ_cons]
        rw [hsl _ hslt]
      · have hdisj : st.getD (inset.getD i 0) 0 - 1
              < csrStartF inset (s + 1) - (csrWin inset (i + 1) s).length
            ∨ (csrStartF inset (s + 1) - (csrWin inset (i + 1) s).length)
              + (csrWin inset (i + 1) s).length
              ≤ st.getD (inset.getD i 0) 0 - 1 := by
          have hA := csrStartF_succ inset s
          have hB := csrWin_le_count inset s (i + 1)
          have hBs := csrWin_le_startF inset s (i + 1)
          have hC := csrStartF_succ inset (inset.getD i 0)
          have hD := csrWin_le_count inset (inset.getD i 0) i
          have hE : 1 ≤ (csrWin inset i (inset.getD i 0)).length := by
            rw [hwin_star, List.length_cons]
            omega
          rcases lt_or_gt_of_ne hcase with hlt | hgt
          · have hM : csrStartF inset (s + 1) ≤ csrStartF inset (inset.getD i 0) :=
              csrStartF_mono inset hlt
            right
            rw [hpos]
            omega
          · have hM : csrStartF inset (inset.getD i 0 + 1) ≤ csrStartF inset s :=
              csrStartF_mono inset hgt
            left
            rw [hpos]
            omega
        rw [hwin_other s hcase, slice_set_outside its _ _ _ i hdisj]
        exact hsl s hslt

/-- C3: for every `num_sets = K`, `num_items = N` and item-to-set
mapping of length `N` with all entries below `K`, `VecCSR::from`
passes both asserts and produces `start` of length `K+1` beginning at
0, ending at `N`, nondecreasing, and `items` of length `N` such that
every set `k`'s CSR slice is exactly the increasing list of the items
mapped to `k`. -/
theorem vecCSR_build_spec (num_sets num_items : Nat) (inset : List Nat)
    (hlen : inset.length = num_items)
    (hbound : ∀ x ∈ inset, x < num_sets) :
    ∃ csr, VecCSR.build num_sets num_items inset = some csr
      ∧ csr.start.length = num_sets + 1
      ∧ csr.start.getD 0 0 = 0
      ∧ csr.start.getD num_sets 0 = num_items
      ∧ (∀ a b, a ≤ b → b ≤ num_sets →
          csr.start.getD a 0 ≤ csr.start.getD b 0)
      ∧ csr.items.length = num_items
      ∧ ∀ k, k < num_sets →
          (csr.items.drop (csr.start.getD k 0)).take
              (csr.start.getD (k + 1) 0 - csr.start.getD k 0)
            = (List.range num_items).filter (fun j => inset.getD j 0 = k) := by
  subst hlen
  obtain ⟨hpl, hpd⟩ := csr_pref_eq_startF num_sets inset hbound
  have hcnt0 : inset.count num_sets = 0 := by
    rw [List.count_eq_zero]
    intro hmem
    exact absurd (hbound _ hmem) (lt_irrefl _)
  have hguard : (csr_pref num_sets (csr_count num_sets inset)).getD num_sets 0
      = inset.length := by
    rw [hpd num_sets (le_refl _), csrStartF_succ, hcnt0,
      csrStartF_total inset num_sets hbound]
    omega
  obtain ⟨hfl, hil, hfd, hslice⟩ := csr_walk_invariant inset num_sets hbound
    inset.length (csr_pref num_sets (csr_count num_sets inset))
    (List.replicate inset.length 0) (le_refl _) hpl (by simp)
    (fun s hs => by rw [hpd s hs, csrWin_last]; simp)
    (fun s hs => by rw [csrWin_last]; simp)
  set P := csr_walk inset inset.length
    (csr_pref num_sets (csr_count num_sets inset),
     List.replicate inset.length 0) with hP
  have hbuild : VecCSR.build num_sets inset.length inset = some ⟨P.1, P.2⟩ := by
    rw [hP]
    simp only [VecCSR.build, if_neg (show ¬inset.length ≠ inset.length by simp)]
    rw [if_neg (show ¬(csr_pref num_sets (csr_count num_sets inset)).getD
        num_sets 0 ≠ inset.length by rw [hguard]; simp)]
  have hstart : ∀ s, s ≤ num_sets → P.1.getD s 0 = csrStartF inset s := by
    intro s hs
    rw [hfd s hs, csrWin_zero_length, csrStartF_succ]
    omega
  have hslice2 : ∀ k, k < num_sets →
      (P.2.drop (csrStartF inset k)).take (inset.count k)
        = (List.range inset.length).filter (fun j => inset.getD j 0 = k) := by
    intro k hk
    have hh := hslice k hk
    rw [csrWin_zero_length,
      show csrStartF inset (k + 1) - inset.count k = csrStartF inset k by
        rw [csrStartF_succ]; omega,
      show csrWin inset 0 k
          = (List.range inset.length).filter
              (fun j => decide (inset.getD j 0 = k)) by
        unfold csrWin
        rw [Nat.sub_zero, List.range_eq_range']] at hh
    exact hh
  refine ⟨⟨P.1, P.2⟩, hbuild, hfl, ?_, ?_, ?_, hil, ?_⟩
  · show P.1.getD 0 0 = 0
    rw [hstart 0 (Nat.zero_le _)]
    simp [csrStartF]
  · show P.1.getD num_sets 0 = inset.length
    rw [hstart num_sets (le_refl _)]
    exact csrStartF_total inset num_sets hbound
  · intro a b hab hbK
    show P.1.getD a 0 ≤ P.1.getD b 0
    rw [hstart a (le_trans hab hbK), hstart b hbK]
    exact csrStartF_mono inset hab
  · intro k hk
    show (P.2.drop (P.1.getD k 0)).take (P.1.getD (k + 1) 0 - P.1.getD k 0)
        = (List.range inset.length).filter (fun j => inset.getD j 0 = k)
    rw [hstart k (by omega), hstart (k + 1) (by omega),
      show csrStartF inset (k + 1) - csrStartF inset k = inset.count k by
        rw [csrStartF_succ]; omega]
    exact hslice2 k hk

/-- Witness for C3 at the concrete mapping `[1, 0, 1, 0]` into 2 sets. -/
theorem vecCSR_build_spec_witness :
    ([1, 0, 1, 0] : List Nat).length = 4
    ∧ (∀ x ∈ ([1, 0, 1, 0] : List Nat), x < 2)
    ∧ (∃ csr, VecCSR.build 2 4 [1, 0, 1, 0] = some csr
      ∧ csr.start.length = 2 + 1
      ∧ csr.start.getD 0 0 = 0
      ∧ csr.start.getD 2 0 = 4
      ∧ (∀ a b, a ≤ b → b ≤ 2 → csr.start.getD a 0 ≤ csr.start.getD b 0)
      ∧ csr.items.length = 4
      ∧ ∀ k, k < 2 →
          (csr.items.drop (csr.start.getD k 0)).take
              (csr.start.getD (k + 1) 0 - csr.start.getD k 0)
            = (List.range 4).filter
                (fun j => ([1, 0, 1, 0] : List Nat).getD j 0 = k)) :=
  ⟨by decide, by decide,
    vecCSR_build_spec 2 4 [1, 0, 1, 0] (by decide) (by decide)⟩

/-! ## Driver canonicalization
(`NetlistDB::post_assign_direction`, `builder.rs` lines 633-680) -/

/-- `Vec::swap` on the items array. -/
def listSwap (xs : List Nat) (a b : Nat) : List Nat :=
  (xs.set a (xs.getD b 0)).set b (xs.getD a 0)

/-- The per-net driver scan: global positions `p` in the net's CSR
slice `[start[i], start[i+1])` whose pin has direction `O`
(`(l..r).zip(...).filter_map(...)` in the source). -/
def outsOf (pindirect : List Direction) (start items : List Nat) (i : Nat) :
    List Nat :=
  (List.range' (start.getD i 0) (start.getD (i + 1) 0 - start.getD i 0)).filter
    (fun q => pindirect.getD (items.getD q 0) Direction.Unknown = Direction.O)

/-- One iteration of the net loop of `post_assign_direction` (net `i`):
no driver bumps the undriven tally unless the net is tied to a
constant, exactly one driver is swapped to the slice front, two or
more drivers abort with `None`. -/
def padStep (pindirect : List Direction) (net_zero net_one : Option Nat)
    (start : List Nat) (p : List Nat × Nat) (i : Nat) :
    Option (List Nat × Nat) :=
  match outsOf pindirect start p.1 i with
  | [] =>
    if some i ≠ net_zero ∧ some i ≠ net_one then some (p.1, p.2 + 1)
    else some (p.1, p.2)
  | [q] => some (listSwap p.1 (start.getD i 0) q, p.2)
  | _ => none

/-- The `for i in 0..num_nets` loop of `post_assign_direction` with its
early `return None`, as structural recursion on the remaining net
count (`pad_loop rem t p` runs nets `t, t+1, ..., t+rem-1`). -/
def pad_loop (pindirect : List Direction) (net_zero net_one : Option Nat)
    (start : List Nat) : Nat → Nat → List Nat × Nat → Option (List Nat × Nat)
  | 0, _, p => some p
  | rem + 1, t, p =>
    match padStep pindirect net_zero net_one start p t with
    | none => none
    | some p2 => pad_loop pindirect net_zero net_one start rem (t + 1) p2

/-- The net-loop portion of `NetlistDB::post_assign_direction`: returns
the rearranged `net2pin.items` and the undriven-net tally (the source
then logs a warning if the tally is nonzero and recomputes
`cell2noutputs`, neither of which can fail). -/
def post_assign_direction (num_nets : Nat) (start items : List Nat)
    (pindirect : List Direction) (net_zero net_one : Option Nat) :
    Option (List Nat × Nat) :=
  pad_loop pindirect net_zero net_one start num_nets 0 (items, 0)

theorem listSwap_length (xs : List Nat) (a b : Nat) :
    (listSwap xs a b).length = xs.length := by
  unfold listSwap
  rw [List.length_set, List.length_set]

theorem listSwap_getD_outside (xs : List Nat) (a b x : Nat)
    (hxa : x ≠ a) (hxb : x ≠ b) :
    (listSwap xs a b).getD x 0 = xs.getD x 0 := by
  unfold listSwap
  rw [getD_set_other _ _ _ _ 0 hxb, getD_set_other _ _ _ _ 0 hxa]

theorem listSwap_getD_left (xs : List Nat) (a b : Nat)
    (ha : a < xs.length) (hb : b < xs.length) :
    (listSwap xs a b).getD a 0 = xs.getD b 0 := by
  unfold listSwap
  by_cases hab : a = b
  · subst hab
    rw [getD_set_self _ _ _ 0 (by rw [List.length_set]; exact ha)]
  · rw [getD_set_other _ _ _ _ 0 hab, getD_set_self _ _ _ 0 ha]

theorem listSwap_getD_right (xs : List Nat) (a b : Nat)
    (hb : b < xs.length) :
    (listSwap xs a b).getD b 0 = xs.getD a 0 := by
  unfold listSwap
  rw [getD_set_self _ _ _ 0 (by rw [List.length_set]; exact hb)]

theorem outsOf_congr (pindirect : List Direction) (start : List Nat)
    (items1 items2 : List Nat) (i : Nat)
    (h : ∀ q, start.getD i 0 ≤ q → q < start.getD (i + 1) 0 →
      items1.getD q 0 = items2.getD q 0) :
    outsOf pindirect start items1 i = outsOf pindirect start items2 i := by
  unfold outsOf
  apply List.filter_congr
  intro q hq
  have hmem := List.mem_range'_1.mp hq
  have h1 : start.getD i 0 ≤ q := hmem.1
  have h2 : q < start.getD (i + 1) 0 := by
    have := hmem.2
    omega
  rw [h q h1 h2]

theorem filter_range'_self_single (l m : Nat) (hm : 0 < m) :
    (List.range' l m).filter (fun x => x = l) = [l] := by
  obtain ⟨m2, rfl⟩ : ∃ m2, m = m2 + 1 := ⟨m - 1, by omega⟩
  rw [List.range'_succ, List.filter_cons, if_pos (by simp)]
  have htail : (List.range' (l + 1) m2).filter (fun x => decide (x = l)) = [] := by
    rw [List.filter_eq_nil_iff]
    intro a ha
    have hb := List.mem_range'_1.mp ha
    simp
    omega
  rw [htail]

/-- Swapping the unique driver position `q` to the slice front turns
net `i`'s driver scan into the singleton `[start[i]]`. -/
theorem outsOf_swap_singleton (pindirect : List Direction)
    (start items : List Nat) (i q : Nat)
    (houts : outsOf pindirect start items i = [q])
    (hlen : start.getD (i + 1) 0 ≤ items.length) :
    outsOf pindirect start (listSwap items (start.getD i 0) q) i
      = [start.getD i 0] := by
  have hq_mem : q ∈ outsOf pindirect start items i := by
    rw [houts]
    exact List.mem_singleton_self q
  have hq_filter := List.mem_filter.mp hq_mem
  have hq_range := List.mem_range'_1.mp hq_filter.1
  have hq_pred : pindirect.getD (items.getD q 0) Direction.Unknown
      = Direction.O := of_decide_eq_true hq_filter.2
  have hlq : start.getD i 0 ≤ q := hq_range.1
  have hqr : q < start.getD (i + 1) 0 := by
    have := hq_range.2
    omega
  have hql : q < items.length := by omega
  have hll : start.getD i 0 < items.length := by omega
  have hcg : outsOf pindirect start (listSwap items (start.getD i 0) q) i
      = (List.range' (start.getD i 0)
          (start.getD (i + 1) 0 - start.getD i 0)).filter
        (fun x => x = start.getD i 0) := by
    unfold outsOf
    apply List.filter_congr
    intro x hx
    have hxr := List.mem_range'_1.mp hx
    by_cases hxl : x = start.getD i 0
    · rw [hxl, listSwap_getD_left items _ _ hll hql, decide_eq_decide]
      exact iff_of_true hq_pred rfl
    · by_cases hxq : x = q
      · have hlnot : ¬ pindirect.getD (items.getD (start.getD i 0) 0)
            Direction.Unknown = Direction.O := by
          intro hcon
          have hmem2 : start.getD i 0 ∈ outsOf pindirect start items i := by
            unfold outsOf
            refine List.mem_filter.mpr ⟨?_, decide_eq_true hcon⟩
            refine List.mem_range'_1.mpr ⟨le_refl _, ?_⟩
            omega
          rw [houts] at hmem2
          exact hxl (hxq.trans (List.mem_singleton.mp hmem2).symm)
        rw [hxq, listSwap_getD_right items _ _ hql, decide_eq_decide]
        exact iff_of_false hlnot (fun hh => hxl (hxq.trans hh))
      · have hnot : ¬ pindirect.getD (items.getD x 0) Direction.Unknown
            = Direction.O := by
          intro hcon
          have hmem2 : x ∈ outsOf pindirect start items i := by
            unfold outsOf
            exact List.mem_filter.mpr ⟨hx, decide_eq_true hcon⟩
          rw [houts] at hmem2
          exact hxq (List.mem_singleton.mp hmem2)
        rw [listSwap_getD_outside items _ _ x hxl hxq, decide_eq_decide]
        exact iff_of_false hnot hxl
  rw [hcg]
  exact filter_range'_self_single _ _ (by omega)

/-- Invariant of the net loop: failure occurs exactly when some
remaining net has two or more drivers; on success the loop only
touches item positions at or beyond `start[t]`, preserves every
remaining net's driver count, leaves the driver at the slice front,
and adds to the tally exactly the remaining driverless nets not tied
to a constant. -/
theorem pad_loop_invariant (pindirect : List Direction)
    (net_zero net_one : Option Nat) (start : List Nat) (num_nets : Nat)
    (hmono : ∀ a b, a ≤ b → b ≤ num_nets → start.getD a 0 ≤ start.getD b 0) :
    ∀ (rem t : Nat) (items : List Nat) (und : Nat),
    t + rem = num_nets →
    start.getD num_nets 0 ≤ items.length →
    ((pad_loop pindirect net_zero net_one start rem t (items, und) = none ↔
      ∃ i, t ≤ i ∧ i < num_nets
        ∧ 2 ≤ (outsOf pindirect start items i).length)
    ∧ ∀ items2 und2,
        pad_loop pindirect net_zero net_one start rem t (items, und)
          = some (items2, und2) →
        items2.length = items.length
        ∧ (∀ x, x < start.getD t 0 → items2.getD x 0 = items.getD x 0)
        ∧ (∀ i, t ≤ i → i < num_nets →
            (outsOf pindirect start items2 i).length
              = (outsOf pindirect start items i).length)
        ∧ (∀ i, t ≤ i → i < num_nets →
            (outsOf pindirect start items2 i).length ≤ 1)
        ∧ (∀ i, t ≤ i → i < num_nets →
            1 ≤ (outsOf pindirect start items i).length →
            pindirect.getD (items2.getD (start.getD i 0) 0) Direction.Unknown
              = Direction.O)
        ∧ und2 = und + ((List.range' t rem).filter
            (fun i => (outsOf pindirect start items i).length = 0
              ∧ ¬(some i = net_zero) ∧ ¬(some i = net_one))).length) := by
  intro rem
  induction rem with
  | zero =>
    intro t items und htn hlen
    constructor
    · constructor
      · intro h
        exact absurd h (by simp [pad_loop])
      · rintro ⟨i, h1, h2, -⟩
        exact absurd h2 (by omega)
    · intro items2 und2 h
      simp only [pad_loop, Option.some.injEq, Prod.mk.injEq] at h
      obtain ⟨h1, h2⟩ := h
      subst h1
      subst h2
      exact ⟨rfl, fun x hx => rfl, fun i hi1 hi2 => rfl,
        fun i hi1 hi2 => absurd hi2 (by omega),
        fun i hi1 hi2 => absurd hi2 (by omega), by simp⟩
  | succ rem ih =>
    intro t items und htn hlen
    have htlt : t < num_nets := by omega
    have hr_le : start.getD (t + 1) 0 ≤ items.length :=
      le_trans (hmono (t + 1) num_nets (by omega) (le_refl _)) hlen
    have hl_le_r : start.getD t 0 ≤ start.getD (t + 1) 0 :=
      hmono t (t + 1) (by omega) (by omega)
    cases houts : outsOf pindirect start items t with
    | nil =>
      have hcond : ((outsOf pindirect start items t).length = 0
          ∧ ¬(some t = net_zero) ∧ ¬(some t = net_one))
          ↔ (some t ≠ net_zero ∧ some t ≠ net_one) := by
        rw [houts]
        simp
      have hps : padStep pindirect net_zero net_one start (items, und) t
          = if some t ≠ net_zero ∧ some t ≠ net_one then some (items, und + 1)
            else some (items, und) := by
        unfold padStep
        rw [houts]
      by_cases hc : some t ≠ net_zero ∧ some t ≠ net_one
      case pos =>
        rw [if_pos hc] at hps
        have hrun : pad_loop pindirect net_zero net_one start (rem + 1) t
            (items, und)
            = pad_loop pindirect net_zero net_one start rem (t + 1)
              (items, und + 1) := by
          show (match padStep pindirect net_zero net_one start (items, und) t with
            | none => none
            | some p2 =>
                pad_loop pindirect net_zero net_one start rem (t + 1) p2)
            = _
          rw [hps]
        obtain ⟨ihnone, ihsome⟩ := ih (t + 1) items (und + 1) (by omega) hlen
        rw [hrun]
        constructor
        · rw [ihnone]
          constructor
          · rintro ⟨i, h1, h2, h3⟩
            exact ⟨i, by omega, h2, h3⟩
          · rintro ⟨i, h1, h2, h3⟩
            rcases Nat.eq_or_lt_of_le h1 with heq | hlt2
            · rw [← heq, houts] at h3
              simp at h3
            · exact ⟨i, by omega, h2, h3⟩
        · intro items2 und2 hsome
          obtain ⟨j1, j2, j3, j4, j5, j6⟩ := ihsome items2 und2 hsome
          have hslice_t : outsOf pindirect start items2 t
              = outsOf pindirect start items t :=
            outsOf_congr pindirect start items2 items t
              (fun x hx1 hx2 => j2 x hx2)
          refine ⟨j1, fun x hx => j2 x (by omega), ?_, ?_, ?_, ?_⟩
          · intro i hi1 hi2
            rcases Nat.eq_or_lt_of_le hi1 with heq | hlt2
            · rw [← heq, hslice_t]
            · exact j3 i (by omega) hi2
          · intro i hi1 hi2
            rcases Nat.eq_or_lt_of_le hi1 with heq | hlt2
            · rw [← heq, hslice_t, houts]
              simp
            · exact j4 i (by omega) hi2
          · intro i hi1 hi2 hge
            rcases Nat.eq_or_lt_of_le hi1 with heq | hlt2
            · rw [← heq, houts] at hge
              simp at hge
            · exact j5 i (by omega) hi2 hge
          · rw [j6, List.range'_succ, List.filter_cons,
              if_pos (decide_eq_true (hcond.mpr hc)), List.length_cons]
            omega
      case neg =>
        rw [if_neg hc] at hps
        have hrun : pad_loop pindirect net_zero net_one start (rem + 1) t
            (items, und)
            = pad_loop pindirect net_zero net_one start rem (t + 1)
              (items, und) := by
          show (match padStep pindirect net_zero net_one start (items, und) t with
            | none => none
            | some p2 =>
                pad_loop pindirect net_zero net_one start rem (t + 1) p2)
            = _
          rw [hps]
        obtain ⟨ihnone, ihsome⟩ := ih (t + 1) items und (by omega) hlen
        rw [hrun]
        constructor
        · rw [ihnone]
          constructor
          · rintro ⟨i, h1, h2, h3⟩
            exact ⟨i, by omega, h2, h3⟩
          · rintro ⟨i, h1, h2, h3⟩
            rcases Nat.eq_or_lt_of_le h1 with heq | hlt2
            · rw [← heq, houts] at h3
              simp at h3
            · exact ⟨i, by omega, h2, h3⟩
        · intro items2 und2 hsome
          obtain ⟨j1, j2, j3, j4, j5, j6⟩ := ihsome items2 und2 hsome
          have hslice_t : outsOf pindirect start items2 t
              = outsOf pindirect start items t :=
            outsOf_congr pindirect start items2 items t
              (fun x hx1 hx2 => j2 x hx2)
          refine ⟨j1, fun x hx => j2 x (by omega), ?_, ?_, ?_, ?_⟩
          · intro i hi1 hi2
            rcases Nat.eq_or_lt_of_le hi1 with heq | hlt2
            · rw [← heq, hslice_t]
            · exact j3 i (by omega) hi2
          · intro i hi1 hi2
            rcases Nat.eq_or_lt_of_le hi1 with heq | hlt2
            · rw [← heq, hslice_t, houts]
              simp
            · exact j4 i (by omega) hi2
          · intro i hi1 hi2 hge
            rcases Nat.eq_or_lt_of_le hi1 with heq | hlt2
            · rw [← heq, houts] at hge
              simp at hge
            · exact j5 i (by omega) hi2 hge
          · rw [j6, List.range'_succ, List.filter_cons,
              decide_eq_false (fun hcon => hc (hcond.mp hcon))]
            rw [if_neg (by simp)]
    | cons q rest =>
      cases rest with
      | cons q2 rest2 =>
        have hps : padStep pindirect net_zero net_one start (items, und) t
            = none := by
          unfold padStep
          rw [houts]
        have hrun : pad_loop pindirect net_zero net_one start (rem + 1) t
            (items, und) = none := by
          show (match padStep pindirect net_zero net_one start (items, und) t with
            | none => none
            | some p2 =>
                pad_loop pindirect net_zero net_one start rem (t + 1) p2)
            = none
          rw [hps]
        rw [hrun]
        constructor
        · constructor
          · intro _
            refine ⟨t, le_refl _, htlt, ?_⟩
            rw [houts]
            simp only [List.length_cons]
            omega
          · intro _
            rfl
        · intro items2 und2 hsome
          exact absurd hsome (by simp)
      | nil =>
        have hps : padStep pindirect net_zero net_one start (items, und) t
            = some (listSwap items (start.getD t 0) q, und) := by
          unfold padStep
          rw [houts]
        have hq_mem : q ∈ outsOf pindirect start items t := by
          rw [houts]
          exact List.mem_singleton_self q
        have hq_filter := List.mem_filter.mp hq_mem
        have hq_range := List.mem_range'_1.mp hq_filter.1
        have hq_pred : pindirect.getD (items.getD q 0) Direction.Unknown
            = Direction.O := of_decide_eq_true hq_filter.2
        have hlq : start.getD t 0 ≤ q := hq_range.1
        have hqr : q < start.getD (t + 1) 0 := by
          have := hq_range.2
          omega
        have hql : q < items.length := by omega
        have hswap_len : (listSwap items (start.getD t 0) q).length
            = items.length := listSwap_length _ _ _
        have hself : outsOf pindirect start
            (listSwap items (start.getD t 0) q) t = [start.getD t 0] :=
          outsOf_swap_singleton pindirect start items t q houts hr_le
        have hother : ∀ i, i ≠ t → i < num_nets →
            outsOf pindirect start (listSwap items (start.getD t 0) q) i
              = outsOf pindirect start items i := by
          intro i hne hilt
          apply outsOf_congr
          intro x h1 h2
          rcases lt_or_gt_of_ne hne with hlt | hgt
          · have hs1 : start.getD (i + 1) 0 ≤ start.getD t 0 :=
              hmono (i + 1) t (by omega) (by omega)
            exact listSwap_getD_outside items _ _ x (by omega) (by omega)
          · have hs1 : start.getD (t + 1) 0 ≤ start.getD i 0 :=
              hmono (t + 1) i (by omega) (by omega)
            exact listSwap_getD_outside items _ _ x (by omega) (by omega)
        have hbelow_swap : ∀ x, x < start.getD t 0 →
            (listSwap items (start.getD t 0) q).getD x 0 = items.getD x 0 := by
          intro x hx
          exact listSwap_getD_outside items _ _ x (by omega) (by omega)
        have hrun : pad_loop pindirect net_zero net_one start (rem + 1) t
            (items, und)
            = pad_loop pindirect net_zero net_one start rem (t + 1)
              (listSwap items (start.getD t 0) q, und) := by
          show (match padStep pindirect net_zero net_one start (items, und) t with
            | none => none
            | some p2 =>
                pad_loop pindirect net_zero net_one start rem (t + 1) p2)
            = _
          rw [hps]
        obtain ⟨ihnone, ihsome⟩ := ih (t + 1)
          (listSwap items (start.getD t 0) q) und (by omega)
          (by rw [hswap_len]; exact hlen)
        rw [hrun]
        constructor
        · rw [ihnone]
          constructor
          · rintro ⟨i, h1, h2, h3⟩
            rw [hother i (by omega) h2] at h3
            exact ⟨i, by omega, h2, h3⟩
          · rintro ⟨i, h1, h2, h3⟩
            rcases Nat.eq_or_lt_of_le h1 with heq | hlt2
            · rw [← heq, houts] at h3
              simp at h3
            · refine ⟨i, by omega, h2, ?_⟩
              rw [hother i (by omega) h2]
              exact h3
        · intro items2 und2 hsome
          obtain ⟨j1, j2, j3, j4, j5, j6⟩ := ihsome items2 und2 hsome
          have hslice_t : outsOf pindirect start items2 t
              = outsOf pindirect start
                  (listSwap items (start.getD t 0) q) t :=
            outsOf_congr pindirect start items2 _ t
              (fun x hx1 hx2 => j2 x hx2)
          refine ⟨?_, ?_, ?_, ?_, ?_, ?_⟩
          · rw [j1, hswap_len]
          · intro x hx
            rw [j2 x (by omega), hbelow_swap x hx]
          · intro i hi1 hi2
            rcases Nat.eq_or_lt_of_le hi1 with heq | hlt2
            · rw [← heq, hslice_t, hself, houts]
              rfl
            · rw [j3 i (by omega) hi2, hother i (by omega) hi2]
          · intro i hi1 hi2
            rcases Nat.eq_or_lt_of_le hi1 with heq | hlt2
            · rw [← heq, hslice_t, hself]
              simp
            · exact j4 i (by omega) hi2
          · intro i hi1 hi2 hge
            rcases Nat.eq_or_lt_of_le hi1 with heq | hlt2
            · rw [← heq, j2 (start.getD t 0) (by omega),
                listSwap_getD_left items _ _ (by omega) hql]
              exact hq_pred
            · refine j5 i (by omega) hi2 ?_
              rw [hother i (by omega) hi2]
              exact hge
          · have htail : (List.range' (t + 1) rem).filter
                (fun i => decide ((outsOf pindirect start
                    (listSwap items (start.getD t 0) q) i).length = 0
                  ∧ ¬(some i = net_zero) ∧ ¬(some i = net_one)))
                = (List.range' (t + 1) rem).filter
                  (fun i => decide ((outsOf pindirect start items i).length = 0
                    ∧ ¬(some i = net_zero) ∧ ¬(some i = net_one))) := by
              apply List.filter_congr
              intro a ha
              have hb := List.mem_range'_1.mp ha
              rw [hother a (by omega) (by omega)]
            have hcnot : ¬((outsOf pindirect start items t).length = 0
                ∧ ¬(some t = net_zero) ∧ ¬(some t = net_one)) := by
              rw [houts]
              intro hcon
              simp at hcon
            rw [j6, htail, List.range'_succ, List.filter_cons,
              decide_eq_false hcnot]
            rw [if_neg (by simp)]

/-- C2: running the driver-canonicalization loop of
`post_assign_direction` on a database whose `net2pin` CSR is
well-formed: it fails (returns `None`, so construction yields no
database) exactly when some net has two or more direction-`O` pins;
on success every net has at most one `O` pin, every net that has an
output pin stores it at `net2pin.items[net2pin.start[n]]`, and a net
with zero output pins never causes failure — it is only counted in
the warning tally, and only when it is neither `net_zero` nor
`net_one`. -/
theorem post_assign_direction_spec (num_nets : Nat) (start items : List Nat)
    (pindirect : List Direction) (net_zero net_one : Option Nat)
    (hmono : ∀ a b, a ≤ b → b ≤ num_nets → start.getD a 0 ≤ start.getD b 0)
    (hlen : start.getD num_nets 0 ≤ items.length) :
    (post_assign_direction num_nets start items pindirect net_zero net_one
        = none
      ↔ ∃ i, i < num_nets ∧ 2 ≤ (outsOf pindirect start items i).length)
    ∧ ∀ items2 und2,
        post_assign_direction num_nets start items pindirect net_zero net_one
          = some (items2, und2) →
        (∀ i, i < num_nets → (outsOf pindirect start items2 i).length ≤ 1)
        ∧ (∀ i, i < num_nets → 1 ≤ (outsOf pindirect start items i).length →
            pindirect.getD (items2.getD (start.getD i 0) 0) Direction.Unknown
              = Direction.O)
        ∧ und2 = ((List.range num_nets).filter
            (fun i => (outsOf pindirect start items i).length = 0
              ∧ ¬(some i = net_zero) ∧ ¬(some i = net_one))).length := by
  obtain ⟨hnone, hsome⟩ := pad_loop_invariant pindirect net_zero net_one start
    num_nets hmono num_nets 0 items 0 (by omega) hlen
  unfold post_assign_direction
  constructor
  · rw [hnone]
    constructor
    · rintro ⟨i, -, h2, h3⟩
      exact ⟨i, h2, h3⟩
    · rintro ⟨i, h2, h3⟩
      exact ⟨i, Nat.zero_le _, h2, h3⟩
  · intro items2 und2 hs
    obtain ⟨-, -, -, j4, j5, j6⟩ := hsome items2 und2 hs
    refine ⟨fun i hi => j4 i (Nat.zero_le _) hi,
      fun i hi => j5 i (Nat.zero_le _) hi, ?_⟩
    rw [j6, List.range_eq_range']
    omega

/-- Witness for C2: `num_nets = 2`, `start = [0, 2, 4]`,
`items = [0, 1, 2, 3]`, `pindirect = [O, I, I, O]` — net 0 is driven
by pin 0 (already at its slice front), net 1 by pin 3 (swapped to the
front). -/
theorem post_assign_direction_spec_witness :
    (∀ a b, a ≤ b → b ≤ 2 →
      ([0, 2, 4] : List Nat).getD a 0 ≤ ([0, 2, 4] : List Nat).getD b 0)
    ∧ ([0, 2, 4] : List Nat).getD 2 0 ≤ ([0, 1, 2, 3] : List Nat).length
    ∧ ((post_assign_direction 2 [0, 2, 4] [0, 1, 2, 3]
          [Direction.O, Direction.I, Direction.I, Direction.O] none none
        = none
      ↔ ∃ i, i < 2 ∧ 2 ≤ (outsOf
          [Direction.O, Direction.I, Direction.I, Direction.O]
          [0, 2, 4] [0, 1, 2, 3] i).length)
    ∧ ∀ items2 und2,
        post_assign_direction 2 [0, 2, 4] [0, 1, 2, 3]
            [Direction.O, Direction.I, Direction.I, Direction.O] none none
          = some (items2, und2) →
        (∀ i, i < 2 → (outsOf
            [Direction.O, Direction.I, Direction.I, Direction.O]
            [0, 2, 4] items2 i).length ≤ 1)
        ∧ (∀ i, i < 2 → 1 ≤ (outsOf
              [Direction.O, Direction.I, Direction.I, Direction.O]
              [0, 2, 4] [0, 1, 2, 3] i).length →
            ([Direction.O, Direction.I, Direction.I, Direction.O] :
                List Direction).getD
              (items2.getD (([0, 2, 4] : List Nat).getD i 0) 0)
              Direction.Unknown = Direction.O)
        ∧ und2 = ((List.range 2).filter
            (fun i => (outsOf
                [Direction.O, Direction.I, Direction.I, Direction.O]
                [0, 2, 4] [0, 1, 2, 3] i).length = 0
              ∧ ¬(some i = (none : Option Nat))
              ∧ ¬(some i = (none : Option Nat)))).length) :=
  ⟨by intro a b hab hb2; interval_cases b <;> interval_cases a <;> decide,
    by decide,
    post_assign_direction_spec 2 [0, 2, 4] [0, 1, 2, 3]
      [Direction.O, Direction.I, Direction.I, Direction.O] none none
      (by intro a b hab hb2; interval_cases b <;> interval_cases a <;> decide)
      (by decide)⟩

/-! ## Structural-verilog AST (`sverilogparse/src/lib.rs`) -/

inductive WireDefType where
  | Input
  | Output
  | InOut
  | Wire
deriving DecidableEq, Repr

/-- `SVerilogWireDef` from `sverilogparse/src/lib.rs`. -/
structure SVerilogWireDef where
  name : String
  width : Option SVerilogRange
  typ : WireDefType
deriving DecidableEq, Repr

/-- `SVerilogPortDef` from `sverilogparse/src/lib.rs`. -/
inductive SVerilogPortDef where
  | Basic (name : String)
  | Conn (name : String) (expr : Wirexpr)
deriving DecidableEq, Repr

/-- `SVerilogAssign` from `sverilogparse/src/lib.rs`. -/
structure SVerilogAssign where
  lhs : Wirexpr
  rhs : Wirexpr
deriving DecidableEq, Repr

/-- `SVerilogCell` from `sverilogparse/src/lib.rs`. -/
structure SVerilogCell where
  macro_name : String
  cell_name : String
  ioports : List (String × Wirexpr)
deriving DecidableEq, Repr

/-- `SVerilogModule` from `sverilogparse/src/lib.rs`. -/
structure SVerilogModule where
  ports : List SVerilogPortDef
  defs : List SVerilogWireDef
  assigns : List SVerilogAssign
  cells : List SVerilogCell
deriving DecidableEq, Repr

/-! ## HashMaps as association lists

The builder's `HashMap`s are modeled as insertion-ordered association
lists with unique keys: `lookupA` finds the binding of a key and
`insertA` replaces an existing binding in place like
`HashMap::insert`.  The claims only ever observe maps through lookups,
for which this model is faithful. -/

def lookupA {κ α : Type} [DecidableEq κ] (m : List (κ × α)) (k : κ) :
    Option α :=
  match m with
  | [] => none
  | (k2, v) :: rest => if k = k2 then some v else lookupA rest k

def insertA {κ α : Type} [DecidableEq κ] (m : List (κ × α)) (k : κ) (v : α) :
    List (κ × α) :=
  match m with
  | [] => [(k, v)]
  | (k2, v2) :: rest =>
    if k = k2 then (k2, v) :: rest else (k2, v2) :: insertA rest k v

/-! ## `ModuleMap` and expression evaluation (`netlistdb/src/utils.rs`) -/

/-- `ExprBit` from `utils.rs` (`0, 1, x, z => 0, 1, 2, 3` for
constants). -/
inductive ExprBit where
  | Const (c : Nat)
  | Var (name : String) (idx : Option Int)
deriving DecidableEq, Repr

/-- `eval_basic` inside `ModuleMap::eval_expr`. -/
def eval_basic (def_widths : List (String × SVerilogRange)) :
    WirexprBasic → List ExprBit
  | .Full s =>
    match lookupA def_widths s with
    | some range => range.toList.map (fun i => ExprBit.Var s (some i))
    | none => [ExprBit.Var s none]
  | .SingleBit s i => [ExprBit.Var s (some i)]
  | .Slice s range => range.toList.map (fun i => ExprBit.Var s (some i))
  | .Literal size value is_xz =>
    ((List.range size).reverse).map
      (fun i => ExprBit.Const ((is_xz >>> i) % 2 * 2 + (value >>> i) % 2))

/-- `ModuleMap::eval_expr`. -/
def eval_expr (def_widths : List (String × SVerilogRange)) :
    Wirexpr → List ExprBit
  | .Basic b => eval_basic def_widths b
  | .Concat v => (v.map (eval_basic def_widths)).flatten

/-- `len_basic` inside `eval_expr_len` (`utils.rs`). -/
def len_basic (def_widths : List (String × SVerilogRange)) :
    WirexprBasic → Nat
  | .Full s =>
    match lookupA def_widths s with
    | some range => range.get_len
    | none => 1
  | .SingleBit _ _ => 1
  | .Slice _ range => range.get_len
  | .Literal size _ _ => size

/-- `eval_expr_len` from `utils.rs`. -/
def eval_expr_len (def_widths : List (String × SVerilogRange)) :
    Wirexpr → Nat
  | .Basic b => len_basic def_widths b
  | .Concat v => (v.map (len_basic def_widths)).sum

/-- `ModuleMap` from `utils.rs`. -/
structure ModuleMap where
  def_widths : List (String × SVerilogRange)
  def_types : List (String × WireDefType)
  port_widths : List (String × SVerilogRange)
deriving DecidableEq, Repr

/-- The `expr_basic_has_vector` closure inside `ModuleMap::from`. -/
def expr_basic_has_vector (def_widths : List (String × SVerilogRange)) :
    WirexprBasic → Bool
  | .Full name => (lookupA def_widths name).isSome
  | .SingleBit _ _ => false
  | .Slice _ _ => true
  | .Literal _ _ _ => false

/-- `ModuleMap::from` (`utils.rs`).  The `assert_eq!` on conflicting
non-wire redefinitions is not modeled (no claim input redefines a
name with two different IO types). -/
def ModuleMap.from (m : SVerilogModule) : ModuleMap :=
  let def_widths := m.defs.foldl
    (fun acc d => match d.width with
      | some w => acc ++ [(d.name, w)]
      | none => acc) []
  let def_types := m.defs.foldl
    (fun acc d =>
      match lookupA acc d.name with
      | some v =>
        match v, d.typ with
        | .Wire, .Input => insertA acc d.name d.typ
        | .Wire, .Output => insertA acc d.name d.typ
        | .Wire, .InOut => insertA acc d.name d.typ
        | _, _ => acc
      | none => insertA acc d.name d.typ) []
  let port_widths := m.ports.foldl
    (fun acc p =>
      match p with
      | .Basic name =>
        match lookupA def_widths name with
        | some w => acc ++ [(name, w)]
        | none => acc
      | .Conn name expr =>
        let width := eval_expr_len def_widths expr
        if width > 1 then acc ++ [(name, ⟨(width : Int) - 1, 0⟩)]
        else
          let has_vector := match expr with
            | .Basic eb => expr_basic_has_vector def_widths eb
            | .Concat v => v.any (expr_basic_has_vector def_widths)
          if has_vector then acc ++ [(name, ⟨0, 0⟩)] else acc) []
  ⟨def_widths, def_types, port_widths⟩

/-! ## The graph builder (`netlistdb/src/builder.rs`) -/

/-- The construction-time state of `NetlistDB` used by
`build_modules`. -/
structure BuildDB where
  num_cells : Nat
  num_logic_pins : Nat
  cellname2id : List (HierName × Nat)
  logicpinname2id : List ((HierName × String × Option Int) × Nat)
  celltypes : List String
  cellnames : List HierName
  logicpintypes : List LogicPinType
  logicpinnames : List (HierName × String × Option Int)
deriving Repr

/-- `NetlistDB::get_or_insert_logic_pin`. -/
def BuildDB.get_or_insert_logic_pin (db : BuildDB) (hier : HierName)
    (name : String) (idx : Option Int) : BuildDB × Nat :=
  match lookupA db.logicpinname2id (hier, name, idx) with
  | some i => (db, i)
  | none =>
    let id := db.num_logic_pins
    ({ db with
        num_logic_pins := id + 1,
        logicpinname2id := insertA db.logicpinname2id (hier, name, idx) id,
        logicpintypes := db.logicpintypes ++ [LogicPinType.Others],
        logicpinnames := db.logicpinnames ++ [(hier, name, idx)] }, id)

/-- `NetlistDB::try_find_logic_pin` (logs an error and returns `None`
when absent). -/
def BuildDB.try_find_logic_pin (db : BuildDB) (hier : HierName)
    (name : String) (idx : Option Int) : Option Nat :=
  lookupA db.logicpinname2id (hier, name, idx)

/-- `NetlistDB::insert_cell`. -/
def BuildDB.insert_cell (db : BuildDB) (hier : HierName)
    (macro_name : String) : BuildDB × Nat :=
  let id := db.num_cells
  ({ db with
      num_cells := id + 1,
      cellname2id := insertA db.cellname2id hier id,
      celltypes := db.celltypes ++ [macro_name],
      cellnames := db.cellnames ++ [hier] }, id)

/-- `self.logicpintypes[id] = t`. -/
def BuildDB.set_logicpintype (db : BuildDB) (id : Nat) (t : LogicPinType) :
    BuildDB :=
  { db with logicpintypes := db.logicpintypes.set id t }

/-- The `LeafPinProvider` trait: pin-direction and bus-width
callbacks. -/
structure LeafPinProvider where
  direction_of : String → String → Option Int → Direction
  width_of : String → String → Option SVerilogRange

/-- The body of the per-bit `connect edges` loop of `build_modules`
(builder.rs lines 280-308): resolve (or, for a leaf, insert) the cell
pin, tag it, and tie it to the constant or wire bit. -/
def connect_bit (hier new_hier : HierName) (is_leaf : Bool) (name : String)
    (i : Option Int) (eb : ExprBit) (st : BuildDB × DisjointSet) :
    Option (BuildDB × DisjointSet) :=
  let idres : Option (BuildDB × Nat) :=
    if is_leaf then some (st.1.get_or_insert_logic_pin new_hier name i)
    else match st.1.try_find_logic_pin new_hier name i with
      | some id => some (st.1, id)
      | none => none
  match idres with
  | none => none
  | some (db1, id) =>
    let db2 := if is_leaf then db1.set_logicpintype id LogicPinType.LeafCellPin
      else db1
    match eb with
    | .Const c =>
      match pin_assign_literal st.2 id c with
      | some ns2 => some (db2, ns2)
      | none => none
    | .Var pname pidx =>
      let pr := db2.get_or_insert_logic_pin hier pname pidx
      let db4 := if pr.1.logicpintypes.getD pr.2 LogicPinType.Others
          = LogicPinType.Others
        then pr.1.set_logicpintype pr.2 LogicPinType.Net else pr.1
      some (db4, st.2.merge id pr.2)

/-- One `(w, (name, expr))` iteration of the `connect edges` loop:
`enum_in_width(w).zip(eval_expr(expr))` drives `connect_bit` over the
paired bits. -/
def connect_port (hier new_hier : HierName) (is_leaf : Bool) (name : String)
    (w : Option SVerilogRange) (ebs : List ExprBit)
    (st : BuildDB × DisjointSet) : Option (BuildDB × DisjointSet) :=
  ((enum_in_width w).zip ebs).foldlM
    (fun st2 (p : Option Int × ExprBit) =>
      connect_bit hier new_hier is_leaf name p.1 p.2 st2) st

/-- `NetlistDB::build_modules` (builder.rs lines 166-352).  The
recursion into submodules is bounded by explicit fuel; the source
instead rejects recursive hierarchies up front in `estimate_size`, so
any fuel at least the hierarchy depth plus one is never exhausted. -/
def build_modules (fuel : Nat)
    (modules : List (String × SVerilogModule × ModuleMap))
    (m : SVerilogModule) (mm : ModuleMap) (hier : HierName)
    (lib : LeafPinProvider) (st : BuildDB × DisjointSet) :
    Option (BuildDB × DisjointSet) :=
  match fuel with
  | 0 => none
  | fuel + 1 =>
    let st1 := m.defs.foldl (fun st d =>
      (enum_in_width d.width).foldl (fun (st : BuildDB × DisjointSet) w =>
        let pr := st.1.get_or_insert_logic_pin hier d.name w
        (pr.1.set_logicpintype pr.2 LogicPinType.Net, st.2)) st) st
    match m.ports.foldlM (fun (st : BuildDB × DisjointSet) p =>
        match p with
        | SVerilogPortDef.Basic _ => some st
        | SVerilogPortDef.Conn name expr =>
          let width := lookupA mm.port_widths name
          ((enum_in_width width).zip (eval_expr mm.def_widths expr)).foldlM
            (fun (st : BuildDB × DisjointSet) (p2 : Option Int × ExprBit) =>
              let pr := st.1.get_or_insert_logic_pin hier name p2.1
              match p2.2 with
              | .Const c =>
                match pin_assign_literal st.2 pr.2 c with
                | some ns => some (pr.1, ns)
                | none => none
              | .Var pname pidx =>
                match pr.1.try_find_logic_pin hier pname pidx with
                | some pin_id => some (pr.1, st.2.merge pr.2 pin_id)
                | none => none) st) st1 with
    | none => none
    | some st2 =>
      let hier_prev := if hier.is_empty then none else some hier
      match m.cells.foldlM (fun (st : BuildDB × DisjointSet)
          (cell : SVerilogCell) =>
          let new_hier := HierName.mk cell.cell_name hier_prev
          match lookupA modules cell.macro_name with
          | some (subm, submm) =>
            match build_modules fuel modules subm submm new_hier lib st with
            | none => none
            | some st4 =>
              let ioport_ranges := cell.ioports.map
                (fun (pr : String × Wirexpr) => lookupA submm.port_widths pr.1)
              (ioport_ranges.zip cell.ioports).foldlM
                (fun st5 (pp : Option SVerilogRange × (String × Wirexpr)) =>
                  connect_port hier new_hier false pp.2.1 pp.1
                    (eval_expr mm.def_widths pp.2.2) st5) st4
          | none =>
            let prc := st.1.insert_cell new_hier cell.macro_name
            let st4 : BuildDB × DisjointSet := (prc.1, st.2)
            let ioport_ranges := cell.ioports.map
              (fun (pr : String × Wirexpr) =>
                match eval_expr_len mm.def_widths pr.2 with
                | 1 => none
                | _ => match lib.width_of cell.macro_name pr.1 with
                  | some r => some r
                  | none => none)
            (ioport_ranges.zip cell.ioports).foldlM
              (fun st5 (pp : Option SVerilogRange × (String × Wirexpr)) =>
                connect_port hier new_hier true pp.2.1 pp.1
                  (eval_expr mm.def_widths pp.2.2) st5) st4) st2 with
      | none => none
      | some st3 =>
        m.assigns.foldlM (fun (st : BuildDB × DisjointSet)
            (a : SVerilogAssign) =>
          let len_lhs := eval_expr_len mm.def_widths a.lhs
          let len_rhs := eval_expr_len mm.def_widths a.rhs
          if len_lhs ≠ len_rhs then none
          else ((eval_expr mm.def_widths a.lhs).zip
              (eval_expr mm.def_widths a.rhs)).foldlM
            (fun (st : BuildDB × DisjointSet) (p : ExprBit × ExprBit) =>
              match p with
              | (.Var nl il, .Var nr ir) =>
                let prl := st.1.get_or_insert_logic_pin hier nl il
                let prr := prl.1.get_or_insert_logic_pin hier nr ir
                some (prr.1, st.2.merge prl.2 prr.2)
              | (.Var nl il, .Const c) =>
                let prl := st.1.get_or_insert_logic_pin hier nl il
                match pin_assign_literal st.2 prl.2 c with
                | some ns => some (prl.1, ns)
                | none => none
              | (.Const c, .Var nr ir) =>
                let prr := st.1.get_or_insert_logic_pin hier nr ir
                match pin_assign_literal st.2 prr.2 c with
                | some ns => some (prr.1, ns)
                | none => none
              | _ => none) st) st3

/-- The output of `init_graph_from_modules` (builder.rs lines
363-598).  The `netname2id` / `netnames` maps are built there too but
no claim observes them, so they are not modeled. -/
structure GraphDB where
  db : BuildDB
  num_pins : Nat
  num_nets : Nat
  pinid2logicpinid : List Nat
  pinname2id : List ((HierName × String × Option Int) × Nat)
  pinnames : List (HierName × String × Option Int)
  pin2cell : List Nat
  pin2net : List Nat
  cell2pin : VecCSR
  net2pin : VecCSR
  portname2pinid : List ((String × Option Int) × Nat)
  net_zero : Option Nat
  net_one : Option Nat
deriving Repr

/-- `NetlistDB::init_graph_from_modules`: top-cell 0, `build_modules`
from an empty hierarchy, TopPort tagging, disjoint-set finalize,
pin-index compaction, both CSRs and the port-name map.  The source's
`unwrap()`s on map lookups are modeled as `none`; `estimate_size`
only pre-sizes allocations and rejects recursive hierarchies, which
the explicit `build_modules` fuel models instead. -/
def init_graph_from_modules (fuel : Nat)
    (modules : List (String × SVerilogModule × ModuleMap))
    (top_name : String) (top_m : SVerilogModule) (top_mm : ModuleMap)
    (lib : LeafPinProvider) : Option GraphDB :=
  let db0 : BuildDB := {
    num_cells := 1, num_logic_pins := 0,
    cellname2id := [(HierName.emptyH, 0)],
    logicpinname2id := [],
    celltypes := [top_name], cellnames := [HierName.emptyH],
    logicpintypes := [], logicpinnames := [] }
  match build_modules fuel modules top_m top_mm HierName.emptyH lib
      (db0, DisjointSet.emptyDS) with
  | none => none
  | some (db1, net_sets) =>
    match top_m.ports.foldlM (fun (db : BuildDB) (p : SVerilogPortDef) =>
        let name := match p with
          | SVerilogPortDef.Basic n => n
          | SVerilogPortDef.Conn n _ => n
        let w := lookupA top_mm.port_widths name
        (enum_in_width w).foldlM (fun (db : BuildDB) (w2 : Option Int) =>
          match db.try_find_logic_pin HierName.emptyH name w2 with
          | some id => some (db.set_logicpintype id LogicPinType.TopPort)
          | none => none) db) db1 with
    | none => none
    | some db2 =>
      match net_sets.finalize db2.num_logic_pins with
      | none => none
      | some (num_nets, logicpin2nets, net_zero, net_one) =>
        let pinid2logicpinid := (List.range db2.logicpintypes.length).filter
          (fun id => (db2.logicpintypes.getD id LogicPinType.Others).is_pin)
        let num_pins := pinid2logicpinid.length
        let pinnames := pinid2logicpinid.map
          (fun lpid => db2.logicpinnames.getD lpid (HierName.emptyH, "", none))
        let pinname2id := (List.range num_pins).map
          (fun i => (pinnames.getD i (HierName.emptyH, "", none), i))
        match pinnames.mapM
            (fun (pn : HierName × String × Option Int) =>
              lookupA db2.cellname2id pn.1) with
        | none => none
        | some pin2cell =>
          match VecCSR.build db2.num_cells num_pins pin2cell with
          | none => none
          | some cell2pin =>
            let pin2net := pinid2logicpinid.map
              (fun lpid => logicpin2nets.getD lpid 0)
            match VecCSR.build num_nets num_pins pin2net with
            | none => none
            | some net2pin =>
              let logicpinid2pinid := (List.range num_pins).map
                (fun i => (pinid2logicpinid.getD i 0, i))
              match top_m.ports.foldlM
                  (fun (acc : List ((String × Option Int) × Nat))
                    (p : SVerilogPortDef) =>
                    let pr := match p with
                      | SVerilogPortDef.Basic n =>
                        (n, Wirexpr.Basic (WirexprBasic.Full n))
                      | SVerilogPortDef.Conn n e => (n, e)
                    let width := lookupA top_mm.port_widths pr.1
                    ((enum_in_width width).zip
                        (eval_expr top_mm.def_widths pr.2)).foldlM
                      (fun (acc : List ((String × Option Int) × Nat))
                        (pe : Option Int × ExprBit) =>
                        match pe.2 with
                        | ExprBit.Const _ => some acc
                        | ExprBit.Var pname pidx =>
                          match db2.try_find_logic_pin HierName.emptyH
                              pr.1 pe.1 with
                          | none => none
                          | some lid =>
                            match lookupA logicpinid2pinid lid with
                            | none => none
                            | some pid =>
                              some (insertA acc (pname, pidx) pid))
                      acc) [] with
              | none => none
              | some portname2pinid =>
                some ⟨db2, num_pins, num_nets, pinid2logicpinid, pinname2id,
                  pinnames, pin2cell, pin2net, cell2pin, net2pin,
                  portname2pinid, net_zero, net_one⟩

/-- `NetlistDB::assign_direction` (builder.rs lines 684-760): leaf
cell pins ask the provider, top ports get their direction from the
referenced wire's IO type (`input` drives the net, so `O`; `inout`
warns and stays `Unknown`; a non-IO wire is an error).  The trailing
unknown-direction count only feeds a warning. -/
def assign_direction (g : GraphDB) (top_m : SVerilogModule)
    (top_mm : ModuleMap) (lib : LeafPinProvider) :
    Option (List Direction) :=
  match (List.range g.num_pins).mapM (fun i =>
      let lpid := g.pinid2logicpinid.getD i 0
      match g.db.logicpintypes.getD lpid LogicPinType.Others with
      | LogicPinType.TopPort => some Direction.Unknown
      | LogicPinType.LeafCellPin =>
        let macro_name := g.db.celltypes.getD (g.pin2cell.getD i 0) ""
        let pn := g.pinnames.getD i (HierName.emptyH, "", none)
        some (lib.direction_of macro_name pn.2.1 pn.2.2)
      | _ => none) with
  | none => none
  | some pd0 =>
    top_m.ports.foldlM (fun (pd : List Direction) (p : SVerilogPortDef) =>
      let name := match p with
        | SVerilogPortDef.Basic n => n
        | SVerilogPortDef.Conn n _ => n
      let ref_names_opt : Option (List String) := match p with
        | SVerilogPortDef.Basic n =>
          some ((enum_in_width (lookupA top_mm.port_widths n)).map
            (fun _ => n))
        | SVerilogPortDef.Conn _ expr =>
          (eval_expr top_mm.def_widths expr).mapM (fun eb =>
            match eb with
            | ExprBit.Const _ => none
            | ExprBit.Var pname _ => some pname)
      match ref_names_opt with
      | none => none
      | some ref_names =>
        let width := lookupA top_mm.port_widths name
        ((enum_in_width width).zip ref_names).foldlM
          (fun (pd : List Direction) (pr : Option Int × String) =>
            match lookupA top_mm.def_types pr.2 with
            | none => none
            | some deftype =>
              match (match deftype with
                | WireDefType.Input => some Direction.O
                | WireDefType.Output => some Direction.I
                | WireDefType.InOut => some Direction.Unknown
                | WireDefType.Wire => none) with
              | none => none
              | some dir =>
                match lookupA g.pinname2id (HierName.emptyH, name, pr.1) with
                | none => none
                | some pid => some (pd.set pid dir)) pd) pd0

/-- The observable result of `NetlistDB::from_sverilog`
(`cell2noutputs` and the net-name maps are built too but observed by
no claim). -/
structure NetlistResult where
  num_cells : Nat
  num_pins : Nat
  num_nets : Nat
  pin2cell : List Nat
  pin2net : List Nat
  cell2pin : VecCSR
  net2pin : VecCSR
  pindirect : List Direction
  pinnames : List (HierName × String × Option Int)
  pinid2logicpinid : List Nat
  logicpintypes : List LogicPinType
  portname2pinid : List ((String × Option Int) × Nat)
  net_zero : Option Nat
  net_one : Option Nat
  celltypes : List String
  cellnames : List HierName
deriving Repr

/-- `NetlistDB::from_sverilog` after parsing and top-module
resolution: STEP 1 (`init_graph_from_modules`), STEP 2
(`assign_direction`), then `post_assign_direction` rearranging
`net2pin.items`. -/
def from_sverilog_modules (fuel : Nat)
    (modules : List (String × SVerilogModule × ModuleMap))
    (top_name : String) (top_m : SVerilogModule) (top_mm : ModuleMap)
    (lib : LeafPinProvider) : Option NetlistResult :=
  match init_graph_from_modules fuel modules top_name top_m top_mm lib with
  | none => none
  | some g =>
    match assign_direction g top_m top_mm lib with
    | none => none
    | some pindirect =>
      match post_assign_direction g.num_nets g.net2pin.start g.net2pin.items
          pindirect g.net_zero g.net_one with
      | none => none
      | some p =>
        some {
          num_cells := g.db.num_cells, num_pins := g.num_pins,
          num_nets := g.num_nets, pin2cell := g.pin2cell,
          pin2net := g.pin2net, cell2pin := g.cell2pin,
          net2pin := ⟨g.net2pin.start, p.1⟩,
          pindirect := pindirect, pinnames := g.pinnames,
          pinid2logicpinid := g.pinid2logicpinid,
          logicpintypes := g.db.logicpintypes,
          portname2pinid := g.portname2pinid,
          net_zero := g.net_zero, net_one := g.net_one,
          celltypes := g.db.celltypes, cellnames := g.db.cellnames }

/-! ## C1: the S1 example database -/

/-- The S1 source module: `module simple (inp1, inp2, clk, out);
input inp1, inp2, clk; output out; wire n1, n2;
na02s01 u1 (.a(inp1), .b(inp2), .o(n1));
ms00f80 f1 (.d(n1), .ck(clk), .o(n2));
in01s01 u2 (.a(n2), .o(out)); endmodule`. -/
def s1_module : SVerilogModule := {
  ports := [.Basic "inp1", .Basic "inp2", .Basic "clk", .Basic "out"],
  defs := [
    ⟨"inp1", none, .Input⟩, ⟨"inp2", none, .Input⟩, ⟨"clk", none, .Input⟩,
    ⟨"out", none, .Output⟩, ⟨"n1", none, .Wire⟩, ⟨"n2", none, .Wire⟩],
  assigns := [],
  cells := [
    ⟨"na02s01", "u1", [("a", .Basic (.Full "inp1")),
      ("b", .Basic (.Full "inp2")), ("o", .Basic (.Full "n1"))]⟩,
    ⟨"ms00f80", "f1", [("d", .Basic (.Full "n1")),
      ("ck", .Basic (.Full "clk")), ("o", .Basic (.Full "n2"))]⟩,
    ⟨"in01s01", "u2", [("a", .Basic (.Full "n2")),
      ("o", .Basic (.Full "out"))]⟩] }

/-- The S1 pin-info provider: direction `O` for pin `o` of the three
macros, `I` otherwise, and no bus widths. -/
def s1_lib : LeafPinProvider := {
  direction_of := fun mac pin _ =>
    match mac, pin with
    | "na02s01", "o" => Direction.O
    | "ms00f80", "o" => Direction.O
    | "in01s01", "o" => Direction.O
    | _, _ => Direction.I,
  width_of := fun _ _ => none }

set_option maxRecDepth 100000 in
/-- C1: building the database from the S1 source succeeds and yields
`num_cells = 4`, `num_pins = 12`, `num_nets = 6`,
`pin2cell = [0,0,0,0,1,1,1,2,2,2,3,3]`, `net_zero = net_one = None`,
and (second conjunct, over the `net2pin` and `pindirect` values the
first conjunct establishes) every net's CSR slice holds exactly one
output-direction pin position, sitting at the front of the slice. -/
theorem netlistdb_simple_build :
    ((from_sverilog_modules 1 [("simple", s1_module, ModuleMap.from s1_module)]
        "simple" s1_module (ModuleMap.from s1_module) s1_lib).map
      (fun r => (r.num_cells, r.num_pins, r.num_nets, r.pin2cell))
      = some (4, 12, 6, [0, 0, 0, 0, 1, 1, 1, 2, 2, 2, 3, 3]))
    ∧ ((from_sverilog_modules 1 [("simple", s1_module, ModuleMap.from s1_module)]
        "simple" s1_module (ModuleMap.from s1_module) s1_lib).map
      (fun r => (r.net_zero, r.net_one, r.net2pin.start))
      = some (none, none, [0, 2, 4, 6, 8, 10, 12]))
    ∧ ((from_sverilog_modules 1 [("simple", s1_module, ModuleMap.from s1_module)]
        "simple" s1_module (ModuleMap.from s1_module) s1_lib).map
      (fun r => (r.net2pin.items, r.pindirect))
      = some ([0, 4, 1, 5, 2, 8, 11, 3, 6, 7, 9, 10],
        [Direction.O, Direction.O, Direction.O, Direction.I, Direction.I,
         Direction.I, Direction.O, Direction.I, Direction.I, Direction.O,
         Direction.I, Direction.O]))
    ∧ ∀ n, n < 6 →
        outsOf [Direction.O, Direction.O, Direction.O, Direction.I,
            Direction.I, Direction.I, Direction.O, Direction.I, Direction.I,
            Direction.O, Direction.I, Direction.O]
          [0, 2, 4, 6, 8, 10, 12] [0, 4, 1, 5, 2, 8, 11, 3, 6, 7, 9, 10] n
          = [([0, 2, 4, 6, 8, 10, 12] : List Nat).getD n 0] := by
  refine ⟨by decide, by decide, by decide, by decide⟩

/-! ## C7: the key of `portname2pinid` for named-port connections -/

/-- A top module with the named-port connection `.inp2(real_inp2)`:
`module m (o1, .inp2(real_inp2)); output o1; input real_inp2;
inv1 u1 (.a(real_inp2), .o(o1)); endmodule`. -/
def c7_module : SVerilogModule := {
  ports := [.Basic "o1",
    .Conn "inp2" (Wirexpr.Basic (WirexprBasic.Full "real_inp2"))],
  defs := [⟨"o1", none, .Output⟩, ⟨"real_inp2", none, .Input⟩],
  assigns := [],
  cells := [⟨"inv1", "u1", [("a", .Basic (.Full "real_inp2")),
    ("o", .Basic (.Full "o1"))]⟩] }

def c7_lib : LeafPinProvider := {
  direction_of := fun mac pin _ =>
    match mac, pin with
    | "inv1", "o" => Direction.O
    | _, _ => Direction.I,
  width_of := fun _ _ => none }


/-- The `(name, expr)` view of a top-module port entry shared by the
TopPort pass and the `portname2pinid` pass of
`init_graph_from_modules`: a `Basic` port references the full wire of
its own name. -/
def port_conn_expr : SVerilogPortDef → Wirexpr
  | SVerilogPortDef.Basic n => Wirexpr.Basic (WirexprBasic.Full n)
  | SVerilogPortDef.Conn _ e => e

/-- Invariant kept by every `BuildDB` the builder constructs:
`logicpinname2id` is a faithful index into `logicpinnames` (each
binding is in range and reads back its own key), and the pin counter
and the type list track the name list. -/
def PinNameInv (db : BuildDB) : Prop :=
  db.num_logic_pins = db.logicpinnames.length ∧
  db.logicpintypes.length = db.logicpinnames.length ∧
  ∀ nm i, lookupA db.logicpinname2id nm = some i →
    i < db.logicpinnames.length ∧
    db.logicpinnames.getD i (HierName.emptyH, "", none) = nm

theorem list_foldl_inv {α β : Type} (P : α → Prop) (f : α → β → α) :
    ∀ (l : List β) (a : α), P a → (∀ x b, P x → P (f x b)) → P (l.foldl f a)
  | [], _, ha, _ => ha
  | b :: l, a, ha, hs => list_foldl_inv P f l (f a b) (hs a b ha) hs

theorem foldlM_option_cons {α β : Type} (f : α → β → Option α) (b : β)
    (l : List β) (a c : α) (h : (b :: l).foldlM f a = some c) :
    ∃ a1, f a b = some a1 ∧ l.foldlM f a1 = some c := by
  rw [show (b :: l).foldlM f a = f a b >>= fun x => l.foldlM f x from rfl]
    at h
  cases hfb : f a b with
  | none => rw [hfb] at h; exact Option.noConfusion h
  | some a1 => rw [hfb] at h; exact ⟨a1, rfl, h⟩

theorem foldlM_option_append {α β : Type} (f : α → β → Option α) :
    ∀ (l1 l2 : List β) (a c : α),
      (l1 ++ l2).foldlM f a = some c →
      ∃ b, l1.foldlM f a = some b ∧ l2.foldlM f b = some c
  | [], _, a, _, h => ⟨a, rfl, h⟩
  | b :: l1, l2, a, c, h => by
    obtain ⟨a1, hf, hrest⟩ := foldlM_option_cons f b (l1 ++ l2) a c h
    obtain ⟨mid, h1, h2⟩ := foldlM_option_append f l1 l2 a1 c hrest
    refine ⟨mid, ?_, h2⟩
    rw [show (b :: l1).foldlM f a = f a b >>= fun x => l1.foldlM f x from rfl,
      hf]
    exact h1

theorem foldlM_option_inv {α β : Type} (P : α → Prop) (f : α → β → Option α) :
    ∀ (l : List β) (a c : α), l.foldlM f a = some c → P a →
      (∀ x b, b ∈ l → ∀ y, f x b = some y → P x → P y) → P c
  | [], a, c, h, ha, _ => by
    obtain rfl : a = c := Option.some.inj h
    exact ha
  | b :: l, a, c, h, ha, hs => by
    obtain ⟨a1, hf, hrest⟩ := foldlM_option_cons f b l a c h
    exact foldlM_option_inv P f l a1 c hrest
      (hs a b (List.mem_cons_self b l) a1 hf ha)
      fun x b2 hb2 y hy hx => hs x b2 (List.mem_cons_of_mem b hb2) y hy hx

theorem lookupA_insertA_self {κ α : Type} [DecidableEq κ] :
    ∀ (m : List (κ × α)) (k : κ) (v : α), lookupA (insertA m k v) k = some v
  | [], k, v => by simp [insertA, lookupA]
  | (k2, v2) :: rest, k, v => by
    by_cases hk : k = k2
    · simp [insertA, lookupA, hk]
    · simp only [insertA, if_neg hk]
      simp only [lookupA, if_neg hk]
      exact lookupA_insertA_self rest k v

theorem lookupA_insertA_ne {κ α : Type} [DecidableEq κ] :
    ∀ (m : List (κ × α)) (k k' : κ) (v : α), k' ≠ k →
      lookupA (insertA m k v) k' = lookupA m k'
  | [], _, k', _, h => by simp [insertA, lookupA, h]
  | (k2, v2) :: rest, k, k', v, h => by
    by_cases hk : k = k2
    · subst hk
      simp only [insertA, if_pos rfl]
      simp only [lookupA, if_neg h]
    · simp only [insertA, if_neg hk]
      simp only [lookupA]
      by_cases hk2 : k' = k2
      · simp [hk2]
      · simp only [if_neg hk2]
        exact lookupA_insertA_ne rest k k' v h

theorem lookupA_append {κ α : Type} [DecidableEq κ] :
    ∀ (m1 m2 : List (κ × α)) (k : κ),
      lookupA (m1 ++ m2) k
        = match lookupA m1 k with
          | some v => some v
          | none => lookupA m2 k
  | [], _, _ => rfl
  | (k2, v2) :: m1, m2, k => by
    by_cases hk : k = k2
    · simp [lookupA, hk]
    · simp only [List.cons_append, lookupA, if_neg hk]
      exact lookupA_append m1 m2 k

theorem getD_append_lt {α : Type} (l l' : List α) (d : α) (i : Nat)
    (h : i < l.length) : (l ++ l').getD i d = l.getD i d := by
  rw [List.getD_eq_getElem?_getD, List.getElem?_append, if_pos h,
    ← List.getD_eq_getElem?_getD]

theorem getD_append_len {α : Type} (l : List α) (x d : α) :
    (l ++ [x]).getD l.length d = x := by
  rw [List.getD_eq_getElem?_getD, List.getElem?_append_right (Nat.le_refl _)]
  simp

theorem getD_map_getD {α β : Type} (f : α → β) (l : List α) (i : Nat)
    (d : α) (d' : β) (h : i < l.length) :
    (l.map f).getD i d' = f (l.getD i d) := by
  rw [List.getD_eq_getElem _ _ (by simpa using h), List.getD_eq_getElem _ _ h]
  simp

theorem getD_ne_default_lt {α : Type} (l : List α) (i : Nat) (d : α)
    (h : l.getD i d ≠ d) : i < l.length := by
  by_contra hc
  rw [List.getD_eq_getElem?_getD,
    List.getElem?_eq_none (Nat.le_of_not_lt hc)] at h
  exact h rfl

theorem lookupA_getD_table_none (L : List Nat) :
    ∀ (n x : Nat), (∀ i, i < n → L.getD i 0 ≠ x) →
      lookupA ((List.range n).map (fun i => (L.getD i 0, i))) x = none
  | 0, _, _ => rfl
  | n + 1, x, h => by
    rw [List.range_succ, List.map_append, lookupA_append,
      lookupA_getD_table_none L n x fun i hi => h i (Nat.lt_succ_of_lt hi)]
    show lookupA [(L.getD n 0, n)] x = none
    simp only [lookupA]
    rw [if_neg fun hx => h n (Nat.lt_succ_self n) hx.symm]

theorem lookupA_getD_table_some (L : List Nat) :
    ∀ (n x : Nat), (∃ i, i < n ∧ L.getD i 0 = x) →
      ∃ pid, pid < n
        ∧ lookupA ((List.range n).map (fun i => (L.getD i 0, i))) x
            = some pid
        ∧ L.getD pid 0 = x
  | 0, _, h => absurd h (by simp)
  | n + 1, x, h => by
    by_cases hex : ∃ i, i < n ∧ L.getD i 0 = x
    · obtain ⟨pid, hlt, hl, hg⟩ := lookupA_getD_table_some L n x hex
      refine ⟨pid, Nat.lt_succ_of_lt hlt, ?_, hg⟩
      rw [List.range_succ, List.map_append, lookupA_append, hl]
    · push_neg at hex
      obtain ⟨i, hi, hgi⟩ := h
      have hin : i = n := by
        rcases Nat.lt_succ_iff_lt_or_eq.mp hi with h2 | h2
        · exact absurd hgi (hex i h2)
        · exact h2
      subst hin
      refine ⟨i, Nat.lt_succ_self i, ?_, hgi⟩
      rw [List.range_succ, List.map_append, lookupA_append,
        lookupA_getD_table_none L i x fun j hj => hex j hj]
      show lookupA [(L.getD i 0, i)] x = some i
      simp only [lookupA]
      rw [if_pos hgi.symm]

theorem pinNameInv_get_or_insert (db : BuildDB) (hier : HierName)
    (name : String) (idx : Option Int) (h : PinNameInv db) :
    PinNameInv (db.get_or_insert_logic_pin hier name idx).1 := by
  obtain ⟨h1, h2, h3⟩ := h
  simp only [BuildDB.get_or_insert_logic_pin]
  split
  · exact ⟨h1, h2, h3⟩
  next hl =>
    refine ⟨?_, ?_, ?_⟩
    · simp only [List.length_append, List.length_cons, List.length_nil]
      omega
    · simp only [List.length_append, List.length_cons, List.length_nil]
      omega
    · intro nm j hlj
      by_cases hnm : nm = (hier, name, idx)
      · subst hnm
        rw [lookupA_insertA_self] at hlj
        obtain rfl := Option.some.inj hlj
        constructor
        · simp only [List.length_append, List.length_cons, List.length_nil]
          omega
        · rw [h1]
          exact getD_append_len _ _ _
      · rw [lookupA_insertA_ne _ _ _ _ hnm] at hlj
        obtain ⟨hlt, hval⟩ := h3 nm j hlj
        refine ⟨?_, ?_⟩
        · simp only [List.length_append, List.length_cons, List.length_nil]
          omega
        · rw [getD_append_lt _ _ _ _ hlt]
          exact hval

theorem pinNameInv_set_type (db : BuildDB) (id : Nat) (t : LogicPinType)
    (h : PinNameInv db) : PinNameInv (db.set_logicpintype id t) := by
  obtain ⟨h1, h2, h3⟩ := h
  refine ⟨h1, ?_, h3⟩
  show (db.logicpintypes.set id t).length = db.logicpinnames.length
  rw [List.length_set]
  exact h2

theorem pinNameInv_insert_cell (db : BuildDB) (hier : HierName)
    (mn : String) (h : PinNameInv db) :
    PinNameInv (db.insert_cell hier mn).1 := h

theorem pinNameInv_connect_bit {hier new_hier : HierName} {il : Bool}
    {name : String} {i : Option Int} {eb : ExprBit}
    {st st' : BuildDB × DisjointSet}
    (h : connect_bit hier new_hier il name i eb st = some st')
    (hP : PinNameInv st.1) : PinNameInv st'.1 := by
  cases il with
  | true =>
    revert h
    show (match eb with
        | ExprBit.Const c =>
          match pin_assign_literal st.2
              (st.1.get_or_insert_logic_pin new_hier name i).2 c with
          | some ns2 =>
            some
              ((st.1.get_or_insert_logic_pin new_hier
                  name i).1.set_logicpintype
                (st.1.get_or_insert_logic_pin new_hier name i).2
                LogicPinType.LeafCellPin, ns2)
          | none => none
        | ExprBit.Var pname pidx =>
          let pr := ((st.1.get_or_insert_logic_pin new_hier
              name i).1.set_logicpintype
              (st.1.get_or_insert_logic_pin new_hier name i).2
              LogicPinType.LeafCellPin).get_or_insert_logic_pin
            hier pname pidx
          some
            (if pr.1.logicpintypes.getD pr.2 LogicPinType.Others
                = LogicPinType.Others
              then pr.1.set_logicpintype pr.2 LogicPinType.Net else pr.1,
              st.2.merge (st.1.get_or_insert_logic_pin new_hier name i).2
                pr.2)) = some st' → PinNameInv st'.1
    intro h2
    have hpr : PinNameInv
        ((st.1.get_or_insert_logic_pin new_hier name i).1.set_logicpintype
          (st.1.get_or_insert_logic_pin new_hier name i).2
          LogicPinType.LeafCellPin) :=
      pinNameInv_set_type _ _ _
        (pinNameInv_get_or_insert st.1 new_hier name i hP)
    cases eb with
    | Const c =>
      dsimp only at h2
      split at h2
      · obtain rfl := Option.some.inj h2
        exact hpr
      · exact Option.noConfusion h2
    | Var pname pidx =>
      dsimp only at h2
      obtain rfl := Option.some.inj h2
      have hpr2 := pinNameInv_get_or_insert _ hier pname pidx hpr
      split
      · exact pinNameInv_set_type _ _ _ hpr2
      · exact hpr2
  | false =>
    revert h
    show (match
        (match st.1.try_find_logic_pin new_hier name i with
         | some id => some (st.1, id)
         | none => none) with
      | none => none
      | some (db1, id) =>
        match eb with
        | ExprBit.Const c =>
          match pin_assign_literal st.2 id c with
          | some ns2 => some (db1, ns2)
          | none => none
        | ExprBit.Var pname pidx =>
          let pr := db1.get_or_insert_logic_pin hier pname pidx
          some
            (if pr.1.logicpintypes.getD pr.2 LogicPinType.Others
                = LogicPinType.Others
              then pr.1.set_logicpintype pr.2 LogicPinType.Net else pr.1,
              st.2.merge id pr.2)) = some st' → PinNameInv st'.1
    intro h2
    cases htf : st.1.try_find_logic_pin new_hier name i with
    | none =>
      rw [htf] at h2
      exact Option.noConfusion h2
    | some id =>
      rw [htf] at h2
      cases eb with
      | Const c =>
        dsimp only at h2
        split at h2
        · obtain rfl := Option.some.inj h2
          exact hP
        · exact Option.noConfusion h2
      | Var pname pidx =>
        dsimp only at h2
        obtain rfl := Option.some.inj h2
        have hpr2 := pinNameInv_get_or_insert st.1 hier pname pidx hP
        split
        · exact pinNameInv_set_type _ _ _ hpr2
        · exact hpr2

theorem pinNameInv_connect_port {hier new_hier : HierName} {il : Bool}
    {name : String} {w : Option SVerilogRange} {ebs : List ExprBit}
    {st st' : BuildDB × DisjointSet}
    (h : connect_port hier new_hier il name w ebs st = some st')
    (hP : PinNameInv st.1) : PinNameInv st'.1 := by
  refine foldlM_option_inv (fun s : BuildDB × DisjointSet => PinNameInv s.1)
    _ _ st st' h hP ?_
  intro x b _ y hy hx
  exact pinNameInv_connect_bit hy hx

theorem pinNameInv_build_modules
    (modules : List (String × SVerilogModule × ModuleMap))
    (lib : LeafPinProvider) :
    ∀ (fuel : Nat) (m : SVerilogModule) (mm : ModuleMap) (hier : HierName)
      (st st' : BuildDB × DisjointSet),
      build_modules fuel modules m mm hier lib st = some st' →
      PinNameInv st.1 → PinNameInv st'.1 := by
  intro fuel
  induction fuel with
  | zero =>
    intro m mm hier st st' h _
    exact Option.noConfusion h
  | succ fuel ih =>
    intro m mm hier st st' h hP
    simp only [build_modules] at h
    split at h
    · exact Option.noConfusion h
    next st2 hports =>
    split at h
    · exact Option.noConfusion h
    next st3 hcells =>
    have hP2 : PinNameInv st2.1 := by
      refine foldlM_option_inv (fun s : BuildDB × DisjointSet => PinNameInv s.1)
        _ m.ports _ st2 hports ?_ ?_
      · refine list_foldl_inv (fun s : BuildDB × DisjointSet => PinNameInv s.1)
          _ m.defs st hP ?_
        intro x d hx
        refine list_foldl_inv (fun s : BuildDB × DisjointSet => PinNameInv s.1)
          _ (enum_in_width d.width) x hx ?_
        intro x2 w hx2
        exact pinNameInv_set_type _ _ _
          (pinNameInv_get_or_insert x2.1 hier d.name w hx2)
      · intro x b _ y hy hx
        cases b with
        | Basic n =>
          obtain rfl := Option.some.inj hy
          exact hx
        | Conn n e2 =>
          refine foldlM_option_inv
            (fun s : BuildDB × DisjointSet => PinNameInv s.1) _ _ x y hy hx ?_
          intro x2 pe _ y2 hy2 hx2
          rcases pe with ⟨w2, eb2⟩
          dsimp only at hy2
          cases eb2 with
          | Const c =>
            dsimp only at hy2
            split at hy2
            · obtain rfl := Option.some.inj hy2
              exact pinNameInv_get_or_insert x2.1 hier n w2 hx2
            · exact Option.noConfusion hy2
          | Var pname pidx =>
            dsimp only at hy2
            split at hy2
            · obtain rfl := Option.some.inj hy2
              exact pinNameInv_get_or_insert x2.1 hier n w2 hx2
            · exact Option.noConfusion hy2
    have hP3 : PinNameInv st3.1 := by
      refine foldlM_option_inv (fun s : BuildDB × DisjointSet => PinNameInv s.1)
        _ m.cells st2 st3 hcells hP2 ?_
      intro x b _ y hy hx
      split at hy
      next subm submm hsub =>
        split at hy
        · exact Option.noConfusion hy
        next st4 hbm =>
          refine foldlM_option_inv
            (fun s : BuildDB × DisjointSet => PinNameInv s.1) _ _ st4 y hy
            (ih subm submm _ x st4 hbm hx) ?_
          intro x2 pp _ y2 hy2 hx2
          exact pinNameInv_connect_port hy2 hx2
      next hsub =>
        refine foldlM_option_inv
          (fun s : BuildDB × DisjointSet => PinNameInv s.1) _ _ _ y hy
          (pinNameInv_insert_cell x.1 _ _ hx) ?_
        intro x2 pp _ y2 hy2 hx2
        exact pinNameInv_connect_port hy2 hx2
    refine foldlM_option_inv (fun s : BuildDB × DisjointSet => PinNameInv s.1)
      _ m.assigns st3 st' h hP3 ?_
    intro x b _ y hy hx
    split at hy
    · exact Option.noConfusion hy
    next hlen =>
      refine foldlM_option_inv
        (fun s : BuildDB × DisjointSet => PinNameInv s.1) _ _ x y hy hx ?_
      intro x2 p _ y2 hy2 hx2
      rcases p with ⟨pl, pr⟩
      cases pl with
      | Var nl il2 =>
        cases pr with
        | Var nr ir =>
          dsimp only at hy2
          obtain rfl := Option.some.inj hy2
          exact pinNameInv_get_or_insert _ hier nr ir
            (pinNameInv_get_or_insert x2.1 hier nl il2 hx2)
        | Const c =>
          dsimp only at hy2
          split at hy2
          · obtain rfl := Option.some.inj hy2
            exact pinNameInv_get_or_insert x2.1 hier nl il2 hx2
          · exact Option.noConfusion hy2
      | Const c =>
        cases pr with
        | Var nr ir =>
          dsimp only at hy2
          split at hy2
          · obtain rfl := Option.some.inj hy2
            exact pinNameInv_get_or_insert x2.1 hier nr ir hx2
          · exact Option.noConfusion hy2
        | Const c2 =>
          dsimp only at hy2
          exact Option.noConfusion hy2


/-- Inversion of `init_graph_from_modules` at a named scalar top-port
connection `.P(w)`: on a successful build whose top header lists
`Conn P e` with `e` evaluating to the single scalar wire bit
`Var wname None`, no declared width for `P`, and no later port
referencing that same wire bit, the `portname2pinid` pass keys the
entry by the wire name `(wname, None)` and maps it to the pin whose
name is `(∅, P, None)` and whose logic pin is tagged `TopPort`. -/
theorem init_portname_spec
    (fuel : Nat) (modules : List (String × SVerilogModule × ModuleMap))
    (top_name : String) (top_m : SVerilogModule) (top_mm : ModuleMap)
    (lib : LeafPinProvider) (g : GraphDB)
    (pname : String) (e : Wirexpr) (wname : String)
    (pre post : List SVerilogPortDef)
    (hg : init_graph_from_modules fuel modules top_name top_m top_mm lib
      = some g)
    (hsplit : top_m.ports = pre ++ SVerilogPortDef.Conn pname e :: post)
    (heval : eval_expr top_mm.def_widths e = [ExprBit.Var wname none])
    (hpw : lookupA top_mm.port_widths pname = none)
    (hpost : ∀ q ∈ post,
      ExprBit.Var wname none
        ∉ eval_expr top_mm.def_widths (port_conn_expr q)) :
    ∃ pid, lookupA g.portname2pinid (wname, none) = some pid
      ∧ g.pinnames.getD pid (HierName.emptyH, "", none)
          = (HierName.emptyH, pname, none)
      ∧ g.db.logicpintypes.getD (g.pinid2logicpinid.getD pid 0)
          LogicPinType.Others = LogicPinType.TopPort := by
  simp only [init_graph_from_modules] at hg
  split at hg
  · exact Option.noConfusion hg
  next db1 net_sets hbuild =>
  split at hg
  · exact Option.noConfusion hg
  next db2 htp =>
  split at hg
  · exact Option.noConfusion hg
  next num_nets logicpin2nets net_zero net_one hfin =>
  split at hg
  · exact Option.noConfusion hg
  next pin2cell hmapM =>
  split at hg
  · exact Option.noConfusion hg
  next cell2pin hc2p =>
  split at hg
  · exact Option.noConfusion hg
  next net2pin hn2p =>
  split at hg
  · exact Option.noConfusion hg
  next pm hploop =>
  obtain rfl := Option.some.inj hg
  have hinv1 : PinNameInv db1 :=
    pinNameInv_build_modules modules lib fuel top_m top_mm HierName.emptyH _
      (db1, net_sets) hbuild
      ⟨rfl, rfl, fun nm i hl => Option.noConfusion hl⟩
  rw [hsplit] at htp
  obtain ⟨dbp, hpre, hrest⟩ := foldlM_option_append _ pre _ db1 db2 htp
  obtain ⟨dbx, hstep, hpost2⟩ :=
    foldlM_option_cons _ (SVerilogPortDef.Conn pname e) post dbp db2 hrest
  have hinvp : PinNameInv dbp := by
    refine foldlM_option_inv (fun db : BuildDB => PinNameInv db) _ pre db1 dbp
      hpre hinv1 ?_
    intro x b _ y hy hx
    refine foldlM_option_inv (fun db : BuildDB => PinNameInv db) _ _ x y hy hx
      ?_
    intro x2 w2 _ y2 hy2 hx2
    split at hy2
    · obtain rfl := Option.some.inj hy2
      exact pinNameInv_set_type _ _ _ hx2
    · exact Option.noConfusion hy2
  have hstep2 : ((enum_in_width (lookupA top_mm.port_widths pname)).foldlM
      (fun (db : BuildDB) (w2 : Option Int) =>
        match db.try_find_logic_pin HierName.emptyH pname w2 with
        | some id => some (db.set_logicpintype id LogicPinType.TopPort)
        | none => none) dbp) = some dbx := hstep
  rw [hpw] at hstep2
  obtain ⟨dbmid, hbody, hnil⟩ :=
    foldlM_option_cons _ (none : Option Int) [] dbp dbx hstep2
  obtain rfl : dbmid = dbx := Option.some.inj hnil
  cases htfp : dbp.try_find_logic_pin HierName.emptyH pname none with
  | none =>
    rw [htfp] at hbody
    exact Option.noConfusion hbody
  | some lpid =>
    rw [htfp] at hbody
    dsimp only at hbody
    obtain rfl := Option.some.inj hbody
    have hlk_p : lookupA dbp.logicpinname2id (HierName.emptyH, pname, none)
        = some lpid := htfp
    have hlt_names : lpid < dbp.logicpinnames.length :=
      (hinvp.2.2 _ lpid hlk_p).1
    have hS : PinNameInv db2
        ∧ lookupA db2.logicpinname2id (HierName.emptyH, pname, none)
            = some lpid
        ∧ db2.logicpintypes.getD lpid LogicPinType.Others
            = LogicPinType.TopPort := by
      refine foldlM_option_inv
        (fun db : BuildDB => PinNameInv db
          ∧ lookupA db.logicpinname2id (HierName.emptyH, pname, none)
              = some lpid
          ∧ db.logicpintypes.getD lpid LogicPinType.Others
              = LogicPinType.TopPort)
        _ post _ db2 hpost2 ?_ ?_
      · refine ⟨pinNameInv_set_type _ _ _ hinvp, hlk_p, ?_⟩
        show (dbp.logicpintypes.set lpid LogicPinType.TopPort).getD lpid
            LogicPinType.Others = LogicPinType.TopPort
        refine getD_set_self _ _ _ _ ?_
        rw [hinvp.2.1]
        exact hlt_names
      · intro x b _ y hy hx
        refine foldlM_option_inv
          (fun db : BuildDB => PinNameInv db
            ∧ lookupA db.logicpinname2id (HierName.emptyH, pname, none)
                = some lpid
            ∧ db.logicpintypes.getD lpid LogicPinType.Others
                = LogicPinType.TopPort) _ _ x y hy hx ?_
        intro x2 w2 _ y2 hy2 hx2
        split at hy2
        · next id2 htf2 =>
          obtain rfl := Option.some.inj hy2
          obtain ⟨hx21, hx22, hx23⟩ := hx2
          refine ⟨pinNameInv_set_type _ _ _ hx21, hx22, ?_⟩
          show (x2.logicpintypes.set id2 LogicPinType.TopPort).getD lpid
              LogicPinType.Others = LogicPinType.TopPort
          by_cases hid : id2 = lpid
          · subst hid
            have hlt : id2 < x2.logicpintypes.length := by
              refine getD_ne_default_lt _ _ LogicPinType.Others ?_
              rw [hx23]
              decide
            rw [getD_set_self _ _ _ _ hlt]
          · rw [getD_set_other _ _ _ _ _ fun hh => hid hh.symm]
            exact hx23
        · exact Option.noConfusion hy2
    obtain ⟨hinv2, hlk2, hty2⟩ := hS
    have hname2 : db2.logicpinnames.getD lpid (HierName.emptyH, "", none)
        = (HierName.emptyH, pname, none) := (hinv2.2.2 _ lpid hlk2).2
    have hlt2n : lpid < db2.logicpinnames.length := (hinv2.2.2 _ lpid hlk2).1
    have hlt2t : lpid < db2.logicpintypes.length := by
      rw [hinv2.2.1]
      exact hlt2n
    have hmemL : lpid ∈ (List.range db2.logicpintypes.length).filter
        (fun id => (db2.logicpintypes.getD id LogicPinType.Others).is_pin) := by
      refine List.mem_filter.mpr ⟨List.mem_range.mpr hlt2t, ?_⟩
      rw [hty2]
      rfl
    have hexL : ∃ i2, i2 < ((List.range db2.logicpintypes.length).filter
          (fun id => (db2.logicpintypes.getD id
            LogicPinType.Others).is_pin)).length
        ∧ ((List.range db2.logicpintypes.length).filter
          (fun id => (db2.logicpintypes.getD id
            LogicPinType.Others).is_pin)).getD i2 0 = lpid := by
      obtain ⟨i2, hi2, hEl⟩ := List.mem_iff_getElem.mp hmemL
      refine ⟨i2, hi2, ?_⟩
      rw [List.getD_eq_getElem _ _ hi2]
      exact hEl
    obtain ⟨pid, hpidlt, htab, hgetD⟩ :=
      lookupA_getD_table_some _ _ lpid hexL
    rw [hsplit] at hploop
    obtain ⟨accp, hploopPre, hrest2⟩ := foldlM_option_append _ pre _
      ([] : List ((String × Option Int) × Nat)) pm hploop
    obtain ⟨accm, hstepP, hpostP⟩ :=
      foldlM_option_cons _ (SVerilogPortDef.Conn pname e) post accp pm hrest2
    have hstepP2 : (((enum_in_width (lookupA top_mm.port_widths pname)).zip
        (eval_expr top_mm.def_widths e)).foldlM
        (fun (acc : List ((String × Option Int) × Nat))
          (pe : Option Int × ExprBit) =>
          match pe.2 with
          | ExprBit.Const _ => some acc
          | ExprBit.Var pname2 pidx =>
            match db2.try_find_logic_pin HierName.emptyH pname pe.1 with
            | none => none
            | some lid =>
              match lookupA ((List.range ((List.range
                  db2.logicpintypes.length).filter
                  (fun id => (db2.logicpintypes.getD id
                    LogicPinType.Others).is_pin)).length).map
                  (fun i => (((List.range db2.logicpintypes.length).filter
                    (fun id => (db2.logicpintypes.getD id
                      LogicPinType.Others).is_pin)).getD i 0, i))) lid with
              | none => none
              | some pid2 => some (insertA acc (pname2, pidx) pid2))
        accp) = some accm := hstepP
    rw [hpw, heval] at hstepP2
    rw [show (enum_in_width none).zip [ExprBit.Var wname none]
        = [((none : Option Int), ExprBit.Var wname none)] from rfl] at hstepP2
    obtain ⟨accm1, hbodyP, hnilP⟩ :=
      foldlM_option_cons _ ((none : Option Int), ExprBit.Var wname none) []
        accp accm hstepP2
    obtain rfl : accm1 = accm := Option.some.inj hnilP
    dsimp only at hbodyP
    have htfP : db2.try_find_logic_pin HierName.emptyH pname none
        = some lpid := hlk2
    rw [htfP] at hbodyP
    dsimp only at hbodyP
    rw [htab] at hbodyP
    dsimp only at hbodyP
    obtain rfl := Option.some.inj hbodyP
    have hApm : lookupA pm (wname, none) = some pid := by
      refine foldlM_option_inv
        (fun acc : List ((String × Option Int) × Nat) =>
          lookupA acc (wname, none) = some pid)
        _ post _ pm hpostP (lookupA_insertA_self _ _ _) ?_
      intro x b hb y hy hx
      cases b with
      | Basic n =>
        refine foldlM_option_inv
          (fun acc : List ((String × Option Int) × Nat) =>
            lookupA acc (wname, none) = some pid) _ _ x y hy hx ?_
        intro x2 pe hpe y2 hy2 hx2
        rcases pe with ⟨w2, eb2⟩
        cases eb2 with
        | Const c =>
          dsimp only at hy2
          obtain rfl := Option.some.inj hy2
          exact hx2
        | Var pn2 pi2 =>
          dsimp only at hy2
          have hne : ((wname, none) : String × Option Int) ≠ (pn2, pi2) := by
            intro hEq
            have h1 : wname = pn2 := congrArg Prod.fst hEq
            have h2 : (none : Option Int) = pi2 := congrArg Prod.snd hEq
            have hmem2 : ExprBit.Var pn2 pi2
                ∈ eval_expr top_mm.def_widths (port_conn_expr
                  (SVerilogPortDef.Basic n)) := (List.of_mem_zip hpe).2
            rw [← h1, ← h2] at hmem2
            exact hpost _ hb hmem2
          split at hy2
          · exact Option.noConfusion hy2
          next lid htfq =>
            split at hy2
            · exact Option.noConfusion hy2
            next pid2 htabq =>
              obtain rfl := Option.some.inj hy2
              rw [lookupA_insertA_ne _ _ _ _ hne]
              exact hx2
      | Conn n e2 =>
        refine foldlM_option_inv
          (fun acc : List ((String × Option Int) × Nat) =>
            lookupA acc (wname, none) = some pid) _ _ x y hy hx ?_
        intro x2 pe hpe y2 hy2 hx2
        rcases pe with ⟨w2, eb2⟩
        cases eb2 with
        | Const c =>
          dsimp only at hy2
          obtain rfl := Option.some.inj hy2
          exact hx2
        | Var pn2 pi2 =>
          dsimp only at hy2
          have hne : ((wname, none) : String × Option Int) ≠ (pn2, pi2) := by
            intro hEq
            have h1 : wname = pn2 := congrArg Prod.fst hEq
            have h2 : (none : Option Int) = pi2 := congrArg Prod.snd hEq
            have hmem2 : ExprBit.Var pn2 pi2
                ∈ eval_expr top_mm.def_widths (port_conn_expr
                  (SVerilogPortDef.Conn n e2)) := (List.of_mem_zip hpe).2
            rw [← h1, ← h2] at hmem2
            exact hpost _ hb hmem2
          split at hy2
          · exact Option.noConfusion hy2
          next lid htfq =>
            split at hy2
            · exact Option.noConfusion hy2
            next pid2 htabq =>
              obtain rfl := Option.some.inj hy2
              rw [lookupA_insertA_ne _ _ _ _ hne]
              exact hx2
    refine ⟨pid, hApm, ?_, ?_⟩
    · show (((List.range db2.logicpintypes.length).filter
          (fun id => (db2.logicpintypes.getD id
            LogicPinType.Others).is_pin)).map
          (fun lpid => db2.logicpinnames.getD lpid
            (HierName.emptyH, "", none))).getD pid
          (HierName.emptyH, "", none) = (HierName.emptyH, pname, none)
      rw [getD_map_getD _ _ pid 0 _ hpidlt, hgetD]
      exact hname2
    · show db2.logicpintypes.getD
          (((List.range db2.logicpintypes.length).filter
            (fun id => (db2.logicpintypes.getD id
              LogicPinType.Others).is_pin)).getD pid 0)
          LogicPinType.Others = LogicPinType.TopPort
      rw [hgetD]
      exact hty2


/-- C7 (amended): in every successfully built database whose top
header contains a named-port connection `.P(w)` tying external port
name `P` to a one-bit wire `w` (and no later port references that
wire bit), `portname2pinid` keys the entry by the *connected wire
expression's* name — `("w", None)` — and maps it to the pin id of the
underlying `TopPort` logic pin, which itself carries the external
port name `P`.  (The original claim keyed the map by the external
port name; see the counterexample.) -/
theorem portname2pinid_wire_name_key
    (fuel : Nat) (modules : List (String × SVerilogModule × ModuleMap))
    (top_name : String) (top_m : SVerilogModule) (top_mm : ModuleMap)
    (lib : LeafPinProvider) (r : NetlistResult)
    (pname : String) (e : Wirexpr) (wname : String)
    (pre post : List SVerilogPortDef)
    (hres : from_sverilog_modules fuel modules top_name top_m top_mm lib
      = some r)
    (hsplit : top_m.ports = pre ++ SVerilogPortDef.Conn pname e :: post)
    (heval : eval_expr top_mm.def_widths e = [ExprBit.Var wname none])
    (hpw : lookupA top_mm.port_widths pname = none)
    (hpost : ∀ q ∈ post,
      ExprBit.Var wname none
        ∉ eval_expr top_mm.def_widths (port_conn_expr q)) :
    ∃ pid, lookupA r.portname2pinid (wname, none) = some pid
      ∧ r.pinnames.getD pid (HierName.emptyH, "", none)
          = (HierName.emptyH, pname, none)
      ∧ r.logicpintypes.getD (r.pinid2logicpinid.getD pid 0)
          LogicPinType.Others = LogicPinType.TopPort := by
  simp only [from_sverilog_modules] at hres
  split at hres
  · exact Option.noConfusion hres
  next g hg =>
  split at hres
  · exact Option.noConfusion hres
  next pindirect hpd =>
  split at hres
  · exact Option.noConfusion hres
  next p hpad =>
  obtain rfl := Option.some.inj hres
  exact init_portname_spec fuel modules top_name top_m top_mm lib g
    pname e wname pre post hg hsplit heval hpw hpost

/-- The database the pipeline builds for `c7_module` (the successful
run the C7 witness instantiates). -/
def c7_result : NetlistResult :=
  (from_sverilog_modules 1 [("m", c7_module, ModuleMap.from c7_module)]
      "m" c7_module (ModuleMap.from c7_module) c7_lib).getD
    ⟨0, 0, 0, [], [], ⟨[], []⟩, ⟨[], []⟩, [], [], [], [], [], none, none,
      [], []⟩

set_option maxRecDepth 100000 in
/-- Witness for C7 at `c7_module`: the hypotheses hold for the
named-port connection `.inp2(real_inp2)` and the conclusion exhibits
the key `("real_inp2", None)` mapped to the `TopPort` pin named
`inp2`. -/
theorem portname2pinid_wire_name_key_witness :
    (from_sverilog_modules 1 [("m", c7_module, ModuleMap.from c7_module)]
        "m" c7_module (ModuleMap.from c7_module) c7_lib = some c7_result
      ∧ c7_module.ports
          = [SVerilogPortDef.Basic "o1"]
            ++ SVerilogPortDef.Conn "inp2"
                (Wirexpr.Basic (WirexprBasic.Full "real_inp2")) :: []
      ∧ eval_expr (ModuleMap.from c7_module).def_widths
          (Wirexpr.Basic (WirexprBasic.Full "real_inp2"))
          = [ExprBit.Var "real_inp2" none]
      ∧ lookupA (ModuleMap.from c7_module).port_widths "inp2" = none)
    ∧ ∃ pid, lookupA c7_result.portname2pinid ("real_inp2", none)
          = some pid
        ∧ c7_result.pinnames.getD pid (HierName.emptyH, "", none)
            = (HierName.emptyH, "inp2", none)
        ∧ c7_result.logicpintypes.getD
            (c7_result.pinid2logicpinid.getD pid 0) LogicPinType.Others
            = LogicPinType.TopPort := by
  have hres : from_sverilog_modules 1
      [("m", c7_module, ModuleMap.from c7_module)] "m" c7_module
      (ModuleMap.from c7_module) c7_lib = some c7_result := rfl
  refine ⟨⟨hres, rfl, by decide, by decide⟩, ?_⟩
  exact portname2pinid_wire_name_key 1
    [("m", c7_module, ModuleMap.from c7_module)] "m" c7_module
    (ModuleMap.from c7_module) c7_lib c7_result "inp2"
    (Wirexpr.Basic (WirexprBasic.Full "real_inp2")) "real_inp2"
    [SVerilogPortDef.Basic "o1"] [] hres rfl (by decide) (by decide)
    (fun q hq => absurd hq (List.not_mem_nil q))

set_option maxRecDepth 100000 in
/-- Counterexample to C7 as stated: the database for `c7_module`
builds successfully, yet `portname2pinid` has no entry under the
external port name `("inp2", None)` — the claimed key is absent. -/
theorem portname2pinid_port_name_key_counterexample :
    ((from_sverilog_modules 1 [("m", c7_module, ModuleMap.from c7_module)]
        "m" c7_module (ModuleMap.from c7_module) c7_lib).map
      (fun r => lookupA r.portname2pinid ("inp2", none)))
    = some none := by
  decide


/-! ## C10: leaf-cell connections wider than their scalar pin -/

/-- C10: a leaf-cell connection whose expression is wider than one bit
but whose macro pin has no provider-declared bus width gets a single
scalar cell pin: the leaf `ioport_ranges` computation yields `None`,
so `enum_in_width` enumerates only the scalar index and the zip pairs
it with just the first expression bit — `connect_port` degenerates to
one `connect_bit` call which inserts the lone scalar logic pin
`(new_hier, name, None)`, tags it `LeafCellPin`, and (for a wire bit)
unions it with the first bit's pin only; every remaining expression
bit is silently dropped. -/
theorem leaf_scalar_pin_spec (dw : List (String × SVerilogRange))
    (hier new_hier : HierName) (macro_name name : String)
    (lib : LeafPinProvider) (expr : Wirexpr) (st : BuildDB × DisjointSet)
    (hlen : eval_expr_len dw expr ≠ 1)
    (hw : lib.width_of macro_name name = none)
    (hbits : 2 ≤ (eval_expr dw expr).length) :
    (match eval_expr_len dw expr with
      | 1 => none
      | _ => match lib.width_of macro_name name with
        | some r => some r
        | none => none) = (none : Option SVerilogRange)
    ∧ connect_port hier new_hier true name none (eval_expr dw expr) st
      = connect_bit hier new_hier true name none
          ((eval_expr dw expr).getD 0 (ExprBit.Const 0)) st
    ∧ ∀ pname pidx,
        (eval_expr dw expr).getD 0 (ExprBit.Const 0) = ExprBit.Var pname pidx →
        connect_port hier new_hier true name none (eval_expr dw expr) st
          = (let pr := st.1.get_or_insert_logic_pin new_hier name none
             let db2 := pr.1.set_logicpintype pr.2 LogicPinType.LeafCellPin
             let pr2 := db2.get_or_insert_logic_pin hier pname pidx
             let db4 := if pr2.1.logicpintypes.getD pr2.2 LogicPinType.Others
                  = LogicPinType.Others
               then pr2.1.set_logicpintype pr2.2 LogicPinType.Net
               else pr2.1
             some (db4, st.2.merge pr.2 pr2.2)) := by
  have hc1 : (match eval_expr_len dw expr with
      | 1 => none
      | _ => match lib.width_of macro_name name with
        | some r => some r
        | none => none) = (none : Option SVerilogRange) := by
    rcases hk : eval_expr_len dw expr with _ | k
    · simp [hw]
    · rcases k with _ | k2
      · exact absurd hk hlen
      · simp [hw]
  obtain ⟨e0, rest, hebs⟩ : ∃ e0 rest, eval_expr dw expr = e0 :: rest := by
    cases hebs : eval_expr dw expr with
    | nil =>
      rw [hebs] at hbits
      simp at hbits
    | cons a l => exact ⟨a, l, rfl⟩
  have hc2 : connect_port hier new_hier true name none (eval_expr dw expr) st
      = connect_bit hier new_hier true name none
          ((eval_expr dw expr).getD 0 (ExprBit.Const 0)) st := by
    rw [hebs]
    show (((enum_in_width none).zip (e0 :: rest)).foldlM
        (fun st2 (p : Option Int × ExprBit) =>
          connect_bit hier new_hier true name p.1 p.2 st2) st)
      = _
    cases hc : connect_bit hier new_hier true name none e0 st with
    | none => simp [List.foldlM, enum_in_width, hc]
    | some s => simp [List.foldlM, enum_in_width, hc]
  refine ⟨hc1, hc2, fun pname pidx hvar => ?_⟩
  rw [hc2, hvar]
  rfl

/-- The concrete inputs for the C10 witness: a two-bit wire `w`
connected to scalar macro pin `p` of macro `M`. -/
def c10_dw : List (String × SVerilogRange) := [("w", ⟨1, 0⟩)]

def c10_lib : LeafPinProvider :=
  ⟨fun _ _ _ => Direction.I, fun _ _ => none⟩

def c10_st : BuildDB × DisjointSet :=
  (⟨1, 0, [(HierName.emptyH, 0)], [], ["top"], [HierName.emptyH], [], []⟩,
   DisjointSet.emptyDS)

/-- Witness for C10 at the concrete two-bit connection. -/
theorem leaf_scalar_pin_spec_witness :
    (eval_expr_len c10_dw (Wirexpr.Basic (WirexprBasic.Full "w")) ≠ 1
    ∧ c10_lib.width_of "M" "p" = none
    ∧ 2 ≤ (eval_expr c10_dw (Wirexpr.Basic (WirexprBasic.Full "w"))).length)
    ∧ ((match eval_expr_len c10_dw (Wirexpr.Basic (WirexprBasic.Full "w")) with
      | 1 => none
      | _ => match c10_lib.width_of "M" "p" with
        | some r => some r
        | none => none) = (none : Option SVerilogRange)
    ∧ connect_port HierName.emptyH (HierName.mk "u1" none) true "p" none
        (eval_expr c10_dw (Wirexpr.Basic (WirexprBasic.Full "w"))) c10_st
      = connect_bit HierName.emptyH (HierName.mk "u1" none) true "p" none
          ((eval_expr c10_dw (Wirexpr.Basic (WirexprBasic.Full "w"))).getD 0
            (ExprBit.Const 0)) c10_st
    ∧ ∀ pname pidx,
        (eval_expr c10_dw (Wirexpr.Basic (WirexprBasic.Full "w"))).getD 0
            (ExprBit.Const 0) = ExprBit.Var pname pidx →
        connect_port HierName.emptyH (HierName.mk "u1" none) true "p" none
            (eval_expr c10_dw (Wirexpr.Basic (WirexprBasic.Full "w"))) c10_st
          = (let pr := c10_st.1.get_or_insert_logic_pin
               (HierName.mk "u1" none) "p" none
             let db2 := pr.1.set_logicpintype pr.2 LogicPinType.LeafCellPin
             let pr2 := db2.get_or_insert_logic_pin HierName.emptyH pname pidx
             let db4 := if pr2.1.logicpintypes.getD pr2.2 LogicPinType.Others
                  = LogicPinType.Others
               then pr2.1.set_logicpintype pr2.2 LogicPinType.Net
               else pr2.1
             some (db4, c10_st.2.merge pr.2 pr2.2))) :=
  ⟨⟨by decide, rfl, by decide⟩,
    leaf_scalar_pin_spec c10_dw HierName.emptyH (HierName.mk "u1" none)
      "M" "p" c10_lib (Wirexpr.Basic (WirexprBasic.Full "w")) c10_st
      (by decide) rfl (by decide)⟩

end EdaInfra
